import Mathlib

/-!
# aisdi::Vector and aisdi::LinkedList

A shallow embedding of `src/Vector.hpp` and `src/LinkedList.h`.

* Exceptions are values of `Exn` carried by `Except`.  An access outside a
  live allocation, through a null or dangling pointer, or a load of a slot that
  was never written is `Exn.undefined`.
* `size_t` is a `Nat` below `2 ^ 64`, every `size_t` operation reduces mod
  `2 ^ 64`; `int` is 32 bits wide, `ptrdiff_t` 64 bits.
* The buffer of a `Vector` is a list of slots, its length being the number of
  slots that `new Type[n]` allocated; a slot is `none` until it is written.
* Nodes of a `LinkedList` live in a `Heap`; a pointer is `Option Nat`, `none`
  being `nullptr`.
-/

namespace aisdi

/-! ## Machine integers and exceptions -/

/-- The exceptions thrown by the containers (by C++ class), and `undefined` for
an execution that leaves defined behaviour (bad access, signed overflow). A loop
that does not end within the iterations allotted to it is `diverged`. -/
inductive Exn where
  | out_of_range
  | length_error
  | runtime_error
  | undefined
  | diverged
  deriving DecidableEq, Repr

deriving instance DecidableEq for Except

/-- The modulus of `size_t` arithmetic. -/
def SIZE_MOD : Nat := 2 ^ 64

/-- The sum `a + b` of two `size_t`. -/
def szAdd (a b : Nat) : Nat := (a + b) % SIZE_MOD

/-- The difference `a - b` of two `size_t`. -/
def szSub (a b : Nat) : Nat := (a % SIZE_MOD + SIZE_MOD - b % SIZE_MOD) % SIZE_MOD

/-- The product `a * b` of two `size_t`. -/
def szMul (a b : Nat) : Nat := (a * b) % SIZE_MOD

/-- Conversion of a signed integer (`int`, `ptrdiff_t`) to `size_t`. -/
def szOfInt (z : Int) : Nat := (z % (SIZE_MOD : Int)).toNat

/-- Conversion of a `size_t` to `int` (32 bits, two's complement). -/
def intOfSz (n : Nat) : Int :=
  if n % 2 ^ 32 < 2 ^ 31 then ((n % 2 ^ 32 : Nat) : Int) else ((n % 2 ^ 32 : Nat) : Int) - 2 ^ 32

/-- The largest `int`. -/
def INT_MAX : Int := 2 ^ 31 - 1

/-! ## Vector -/

/-- A buffer obtained from `new Type[n]`: `n` slots, `none` while unwritten. -/
abbrev Buffer (α : Type) := List (Option α)

/-- `Vector<Type>`: `_array` (`none` is `nullptr`), `_capacity`, `_size`. -/
structure Vector (α : Type) where
  _array : Option (Buffer α)
  _capacity : Nat
  _size : Nat
  deriving DecidableEq, Repr

/-- `_defaultCapacity`. -/
def _defaultCapacity : Nat := 8

/-- `new Type[n]`. -/
def newArray {α : Type} (n : Nat) : Buffer α := List.replicate n none

/-- The slot `a[i]` read as the right-hand side of a slot assignment. -/
def rdSlot {α : Type} (a : Option (Buffer α)) (i : Nat) : Except Exn (Option α) :=
  match a with
  | none => .error .undefined
  | some buf =>
    match buf[i]? with
    | some s => .ok s
    | none => .error .undefined

/-- The assignment `a[i] = x`. -/
def wrSlot {α : Type} (a : Option (Buffer α)) (i : Nat) (x : Option α) :
    Except Exn (Option (Buffer α)) :=
  match a with
  | none => .error .undefined
  | some buf => if i < buf.length then .ok (some (buf.set i x)) else .error .undefined

/-- The value of the element `a[i]`. -/
def rdElem {α : Type} (a : Option (Buffer α)) (i : Nat) : Except Exn α :=
  match rdSlot a i with
  | .ok (some x) => .ok x
  | .ok none => .error .undefined
  | .error e => .error e

/-- A pointer into the buffer of a vector: `_array + off`; `base = false` when
`_array` is `nullptr`. -/
structure Ptr where
  base : Bool
  off : Int
  deriving DecidableEq, Repr

/-- The test `p == nullptr`. -/
def Ptr.isNull (p : Ptr) : Bool := !p.base && p.off == 0

/-- The pointer difference `p - q`. -/
def Ptr.diff (p q : Ptr) : Except Exn Int :=
  if p.base = q.base then .ok (p.off - q.off) else .error .undefined

namespace Vector

variable {α : Type}

/-- `Vector()`. -/
def empty : Vector α := ⟨none, 0, 0⟩

/-- `isEmpty()`. -/
def isEmpty (v : Vector α) : Bool := v._size == 0

/-- `getSize()`. -/
def getSize (v : Vector α) : Nat := v._size

/-- `getCapacity()`. -/
def getCapacity (v : Vector α) : Nat := v._capacity

/-- `operator[]`. -/
def subscript (v : Vector α) (index : Nat) : Except Exn α :=
  if v._array.isNone then .error .runtime_error
  else if index < 0 ∨ index ≥ v._size then .error .out_of_range
  else rdElem v._array index

/-- The loop of `changeCapacity`: `for (i = 0; i < _size; i++) newArray[i] = _array[i]`,
run for at most `fuel` tests of its condition. -/
def changeCapacityLoop (src : Option (Buffer α)) (size : Nat) :
    Nat → Nat → Option (Buffer α) → Except Exn (Option (Buffer α))
  | 0, _, _ => .error .diverged
  | fuel + 1, i, dst =>
    if i < size then do
      let x ← rdSlot src i
      let dst ← wrSlot dst i x
      changeCapacityLoop src size fuel (szAdd i 1) dst
    else .ok dst

/-- `changeCapacity()`. -/
def changeCapacity (v : Vector α) : Except Exn (Vector α) := do
  let arr ← changeCapacityLoop v._array v._size (v._size + 1) 0 (some (newArray v._capacity))
  .ok { v with _array := arr }

/-- `increaseCapacityBy(factor)`. -/
def increaseCapacityBy (v : Vector α) (factor : Int) : Except Exn (Vector α) :=
  if v._capacity = 0 then .ok { v with _array := some (newArray 8), _capacity := 8 }
  else changeCapacity { v with _capacity := szMul v._capacity (szOfInt factor) }

/-- `decreaseCapacityBy(factor)`. -/
def decreaseCapacityBy (v : Vector α) (factor : Int) : Except Exn (Vector α) :=
  changeCapacity { v with _capacity := v._capacity / szOfInt factor }

/-- The loop of `moveElementsRight`, entered with `to`, run for at most `fuel`
passes through its body. -/
def moveElementsRightLoop (frm : Nat) (jump : Int) :
    Nat → Nat → Option (Buffer α) → Except Exn (Option (Buffer α))
  | 0, _, _ => .error .diverged
  | fuel + 1, to_, a => do
    let x ← rdSlot a to_
    let a ← wrSlot a (szAdd to_ (szOfInt jump)) x
    if to_ ≤ frm then .ok a
    else moveElementsRightLoop frm jump fuel (szSub to_ 1) a

/-- `moveElementsRight(from, jump)`; the result is the buffer. -/
def moveElementsRight (v : Vector α) (frm : Nat) (jump : Int) :
    Except Exn (Option (Buffer α)) :=
  if v._size = 0 then .ok v._array
  else moveElementsRightLoop frm jump v._size (szSub v._size 1) v._array

/-- The loop of `moveElementsLeft`, entered with `i`, run for at most `fuel`
tests of its condition. -/
def moveElementsLeftLoop (size : Nat) (jump : Int) :
    Nat → Nat → Option (Buffer α) → Except Exn (Option (Buffer α))
  | 0, _, _ => .error .diverged
  | fuel + 1, i, a =>
    if i ≤ szSub size 1 then do
      let x ← rdSlot a i
      let a ← wrSlot a (szSub i (szOfInt jump)) x
      moveElementsLeftLoop size jump fuel (szAdd i 1) a
    else .ok a

/-- `moveElementsLeft(from, jump)`; the result is the buffer. The assertion
`from - jump >= 0` compares a `size_t` with zero and never fails. -/
def moveElementsLeft (v : Vector α) (frm : Nat) (jump : Int) :
    Except Exn (Option (Buffer α)) :=
  if v._size = 0 then .ok v._array
  else moveElementsLeftLoop v._size jump (v._size + 1) frm v._array

/-- `append(item)`. -/
def append (v : Vector α) (item : α) : Except Exn (Vector α) := do
  let v ← (if v._size = v._capacity then increaseCapacityBy v 2 else .ok v)
  let arr ← wrSlot v._array v._size (some item)
  .ok { v with _array := arr, _size := szAdd v._size 1 }

/-- The argument `const Type &item` of `prepend` and `insert`: a reference to an
object outside the buffer of the vector, given by the value of that object, or a
reference to the element `_array[index]` of the vector itself, as `v[index]`
gives one. -/
inductive Item (α : Type) where
  | value (x : α)
  | element (index : Nat)

/-- The value read through `item` in a call that began on the vector `v`, at the
moment when the buffer has become `a`. A reference to an element of `v` is
dangling once the call has grown `v` from a capacity other than zero, since
`changeCapacity` deletes the buffer of `v`; it still refers to the buffer of `v`
when the capacity was zero, since `increaseCapacityBy` then leaves that buffer
alone; without growth it refers to the slot of `a`. -/
def Item.read (v : Vector α) (a : Option (Buffer α)) : Item α → Except Exn α
  | .value x => .ok x
  | .element index =>
    if v._size = v._capacity then
      (if v._capacity = 0 then rdElem v._array index else .error .undefined)
    else rdElem a index

/-- `prepend(item)`; `item` is read in `_array[0] = item`, after the shift. -/
def prepend (v : Vector α) (item : Item α) : Except Exn (Vector α) := do
  let w ← (if v._size = v._capacity then increaseCapacityBy v 2 else .ok v)
  let arr ← moveElementsRight w 0 1
  let x ← item.read v arr
  let arr ← wrSlot arr 0 (some x)
  .ok { w with _array := arr, _size := szAdd w._size 1 }

/-- `popFirst()`: the value returned and the vector left. -/
def popFirst (v : Vector α) : Except Exn (α × Vector α) :=
  if v._size = 0 then .error .length_error
  else do
    let temp ← rdElem v._array 0
    let arr ← moveElementsLeft v 1 1
    let v := { v with _array := arr, _size := szSub v._size 1 }
    let v ← (if v._capacity > _defaultCapacity ∧ v._size < v._capacity / 4
      then decreaseCapacityBy v 2 else .ok v)
    .ok (temp, v)

/-- `popLast()`: the value returned and the vector left. -/
def popLast (v : Vector α) : Except Exn (α × Vector α) :=
  if v._size = 0 then .error .length_error
  else do
    let v ← (if v._capacity > _defaultCapacity ∧ v._size < v._capacity / 4
      then decreaseCapacityBy v 2 else .ok v)
    let v := { v with _size := szSub v._size 1 }
    let x ← rdElem v._array v._size
    .ok (x, v)

/-- `Vector<Type>::ConstIterator` (and `Iterator`, which adds no field):
`_position` and `_elem`. The member `vec` points to the vector, which every
operation below takes as an argument. -/
structure ConstIterator where
  _position : Nat
  _elem : Ptr
  deriving DecidableEq, Repr

/-- `begin()` / `cbegin()`. -/
def begin (v : Vector α) : ConstIterator := ⟨0, ⟨v._array.isSome, 0⟩⟩

/-- `end()` / `cend()`. -/
def end_ (v : Vector α) : ConstIterator := ⟨v._size, ⟨v._array.isSome, v._size⟩⟩

namespace ConstIterator

/-- `operator*`: the address of the element referred to. -/
def deref (it : ConstIterator) (vec : Vector α) : Except Exn Ptr :=
  if it._elem.isNull then .error .out_of_range
  else if it._position ≥ vec.getSize then .error .out_of_range
  else .ok it._elem

/-- `operator++` (prefix). -/
def inc (it : ConstIterator) (vec : Vector α) : Except Exn ConstIterator :=
  if szAdd it._position 1 > vec.getSize then .error .out_of_range
  else .ok ⟨szAdd it._position 1, ⟨it._elem.base, it._elem.off + 1⟩⟩

/-- `operator--` (prefix). -/
def dec (it : ConstIterator) : Except Exn ConstIterator :=
  if it._position = 0 then .error .out_of_range
  else .ok ⟨szSub it._position 1, ⟨it._elem.base, it._elem.off - 1⟩⟩

/-- `operator+(d)`. -/
def add (it : ConstIterator) (vec : Vector α) (d : Int) : Except Exn ConstIterator :=
  if szAdd it._position (szOfInt d) > vec.getSize then .error .out_of_range
  else .ok ⟨szAdd it._position (szOfInt d), ⟨it._elem.base, it._elem.off + d⟩⟩

/-- `operator-(d)`: `_position - d` is a `size_t`, which the test compares with zero. -/
def sub (it : ConstIterator) (d : Int) : Except Exn ConstIterator :=
  if szSub it._position (szOfInt d) < 0 then .error .out_of_range
  else .ok ⟨szSub it._position (szOfInt d), ⟨it._elem.base, it._elem.off - d⟩⟩

/-- `operator==`. -/
def eq (it other : ConstIterator) : Bool := it._elem == other._elem

end ConstIterator

/-- The index `&(*it) - &(*begin())` as a `size_type`. -/
def indexOf (v : Vector α) (it : ConstIterator) : Except Exn Nat := do
  let p ← it.deref v
  let q ← v.begin.deref v
  let d ← p.diff q
  .ok (szOfInt d)

/-- `insert(insertPosition, item)`; `item` is read in `_array[index] = item`,
after the shift. -/
def insert (v : Vector α) (insertPosition : ConstIterator) (item : Item α) :
    Except Exn (Vector α) := do
  let index ← (if insertPosition.eq v.end_ then .ok v._size else indexOf v insertPosition)
  let w ← (if v._size = v._capacity then increaseCapacityBy v 2 else .ok v)
  let arr ← moveElementsRight w index 1
  let x ← item.read v arr
  let arr ← wrSlot arr index (some x)
  .ok { w with _array := arr, _size := szAdd w._size 1 }

/-- `erase(possition)`. -/
def erase (v : Vector α) (possition : ConstIterator) : Except Exn (Vector α) :=
  if v._size = 0 then .error .out_of_range
  else do
    let index ← indexOf v possition
    let arr ← moveElementsLeft v (szAdd index 1) 1
    let v := { v with _array := arr, _size := szSub v._size 1 }
    if v._size < v._capacity / 4 ∧ v._capacity > _defaultCapacity
      then decreaseCapacityBy v 2 else .ok v

/-- `erase(firstIncluded, lastExcluded)`. -/
def eraseRange (v : Vector α) (firstIncluded lastExcluded : ConstIterator) :
    Except Exn (Vector α) :=
  if firstIncluded.eq lastExcluded then .ok v
  else do
    let index ← indexOf v firstIncluded
    let nElements ← (if lastExcluded.eq v.end_ then .ok (szSub v._size index)
      else (do
        let p ← lastExcluded.deref v
        let q ← firstIncluded.deref v
        let d ← p.diff q
        .ok (szOfInt d)))
    if v._size < nElements then .error .out_of_range
    else do
      let arr ← moveElementsLeft v (szAdd index nElements) (intOfSz nElements)
      .ok { v with _array := arr, _size := szSub v._size nElements }

/-- `Vector(Vector &&other)`: the vector built and `other` as it is left. -/
def moveConstruct (other : Vector α) : Vector α × Vector α :=
  (⟨other._array, other._capacity, other._size⟩, { other with _array := none })

/-- `operator=(Vector &&other)`: `*this` and `other` as they are left;
`same` is the test `this == &other`. -/
def moveAssign (this other : Vector α) (same : Bool) : Vector α × Vector α :=
  if same then (this, other)
  else (⟨other._array, other._capacity, other._size⟩, { other with _array := none })

/-- The vector holds the elements `xs`: `_size` is their number and, for every
`k` below it, slot `k` of the buffer holds `xs[k]`. -/
def Holds (v : Vector α) (xs : List α) : Prop :=
  v._size = xs.length ∧ ∀ k x, xs[k]? = some x → rdElem v._array k = .ok x

/-- The buffer has been allocated with `_capacity` slots (`_capacity` is zero
when `_array` is `nullptr`). -/
def Alloc (v : Vector α) : Prop :=
  match v._array with
  | none => v._capacity = 0
  | some buf => buf.length = v._capacity

/-- The appends of a sequence, in order. -/
def appendAll (v : Vector α) : List α → Except Exn (Vector α)
  | [] => .ok v
  | x :: xs => do
    let v ← v.append x
    appendAll v xs

/-- A number of `popLast()` calls in a row: the values returned, in the order
of the calls, and the vector left. -/
def popLastValues : Nat → Vector α → Except Exn (List α × Vector α)
  | 0, v => .ok ([], v)
  | n + 1, v => do
    let (x, v) ← v.popLast
    let (xs, v) ← popLastValues n v
    .ok (x :: xs, v)

/-- A number of `popFirst()` calls in a row, the values returned being dropped. -/
def popFirstTimes : Nat → Vector α → Except Exn (Vector α)
  | 0, v => .ok v
  | n + 1, v => do
    let (_, v) ← v.popFirst
    popFirstTimes n v

/-- The element `*p` of the vector `v`, for a pointer `p` into its buffer. -/
def load (v : Vector α) (p : Ptr) : Except Exn α :=
  if p.base = v._array.isSome ∧ 0 ≤ p.off then rdElem v._array p.off.toNat
  else .error .undefined

/-- The loop `for (const auto &elem : other) append(elem)` of the copy
operations, entered with the iterator `it` over `other`, `v` being `*this`; run
for at most `fuel` tests of `it != other.end()`. -/
def copyLoop (other : Vector α) : Nat → ConstIterator → Vector α → Except Exn (Vector α)
  | 0, _, _ => .error .diverged
  | fuel + 1, it, v =>
    if it.eq other.end_ then .ok v
    else do
      let p ← it.deref other
      let elem ← other.load p
      let v ← v.append elem
      let it ← it.inc other
      copyLoop other fuel it v

/-- `Vector(const Vector &other)`: the buffer is `new Type[other._size]`. -/
def copyConstruct (other : Vector α) : Except Exn (Vector α) :=
  copyLoop other (other._size + 1) other.begin
    ⟨some (newArray other._size), other._capacity, 0⟩

/-- `operator=(const Vector &other)`: the buffer is `new Type[other._capacity]`,
`_capacity` is not assigned; `same` is the test `this == &other`. -/
def copyAssign (this other : Vector α) (same : Bool) : Except Exn (Vector α) :=
  if same then .ok this
  else copyLoop other (other._size + 1) other.begin
    ⟨some (newArray other._capacity), this._capacity, 0⟩

/-- The number of slots of the buffer, zero for `nullptr`. -/
def slots (v : Vector α) : Nat :=
  match v._array with
  | none => 0
  | some buf => buf.length

/-- `Vector(std::initializer_list<Type> l)`. -/
def initList (l : List α) : Except Exn (Vector α) :=
  appendAll ⟨some (newArray l.length), l.length, 0⟩ l

/-- A call of one of the operations that change a vector, with its arguments. -/
inductive Call (α : Type) where
  | append (item : α)
  | prepend (item : Item α)
  | insert (insertPosition : ConstIterator) (item : Item α)
  | popFirst
  | popLast
  | erase (possition : ConstIterator)
  | eraseRange (firstIncluded lastExcluded : ConstIterator)

/-- The vector left by a call; the value that a pop returns is dropped. -/
def Call.run : Call α → Vector α → Except Exn (Vector α)
  | .append item, v => v.append item
  | .prepend item, v => v.prepend item
  | .insert insertPosition item, v => v.insert insertPosition item
  | .popFirst, v => do
    let (_, v) ← v.popFirst
    .ok v
  | .popLast, v => do
    let (_, v) ← v.popLast
    .ok v
  | .erase possition, v => v.erase possition
  | .eraseRange firstIncluded lastExcluded, v => v.eraseRange firstIncluded lastExcluded

/-- A sequence of calls, each on the vector left by the one before; it stops at
the first call that throws. -/
def runCalls : List (Call α) → Vector α → Except Exn (Vector α)
  | [], v => .ok v
  | c :: cs, v => do
    let v ← c.run v
    runCalls cs v

end Vector

/-! ## LinkedList -/

/-- `LinkedList<Type>::Node`: `elem`, `next`, `prev`. A pointer to a node is an
`Option Nat`, `none` being `nullptr`. `elem` is `none` in a node built by
`Node()`, which gives it no value. -/
structure Node (α : Type) where
  elem : Option α
  next : Option Nat
  prev : Option Nat
  deriving DecidableEq, Repr

/-- The free store: `cell a` is the node living at address `a`, `none` when no
node lives there; `fresh` is the address that the next `new Node` returns. -/
structure Heap (α : Type) where
  cell : Nat → Option (Node α)
  fresh : Nat

namespace Heap

variable {α : Type}

/-- A free store without nodes. -/
def init : Heap α := ⟨fun _ => none, 0⟩

/-- `new Node(...)`: the address of the node and the store that holds it. -/
def new (h : Heap α) (n : Node α) : Nat × Heap α :=
  (h.fresh, ⟨fun a => if a = h.fresh then some n else h.cell a, h.fresh + 1⟩)

/-- The node `*p`. -/
def read (h : Heap α) (p : Option Nat) : Except Exn (Node α) :=
  match p with
  | none => .error .undefined
  | some a =>
    match h.cell a with
    | none => .error .undefined
    | some n => .ok n

/-- The assignment `*p = n`. -/
def write (h : Heap α) (p : Option Nat) (n : Node α) : Except Exn (Heap α) :=
  match p with
  | none => .error .undefined
  | some a =>
    match h.cell a with
    | none => .error .undefined
    | some _ => .ok ⟨fun b => if b = a then some n else h.cell b, h.fresh⟩

/-- `delete p`. -/
def delete (h : Heap α) (p : Option Nat) : Except Exn (Heap α) :=
  match p with
  | none => .ok h
  | some a =>
    match h.cell a with
    | none => .error .undefined
    | some _ => .ok ⟨fun b => if b = a then none else h.cell b, h.fresh⟩

/-- The assignment `p->next = q`. -/
def setNext (h : Heap α) (p q : Option Nat) : Except Exn (Heap α) := do
  let n ← h.read p
  h.write p { n with next := q }

/-- The assignment `p->prev = q`. -/
def setPrev (h : Heap α) (p q : Option Nat) : Except Exn (Heap α) := do
  let n ← h.read p
  h.write p { n with prev := q }

end Heap

namespace Node

variable {α : Type}

/-- `this->insertInBetween(left, right)`. -/
def insertInBetween (h : Heap α) (this left right : Option Nat) : Except Exn (Heap α) := do
  let h ← h.setNext left this
  let h ← h.setPrev this left
  let h ← h.setPrev right this
  h.setNext this right

/-- `this->connectWith(other)`. -/
def connectWith (h : Heap α) (this other : Option Nat) : Except Exn (Heap α) := do
  let h ← h.setNext this other
  h.setPrev other this

/-- `this->disconnect()`. -/
def disconnect (h : Heap α) (this : Option Nat) : Except Exn (Heap α) := do
  let n ← h.read this
  let left := n.prev
  let right := n.next
  let h ← h.setPrev this none
  let h ← h.setNext this none
  if left.isSome then connectWith h left right
  else if right.isSome then connectWith h right left
  else .ok h

end Node

/-- `LinkedList<Type>`: `guard_` and `_size`. -/
structure LinkedList (α : Type) where
  guard_ : Option Nat
  _size : Nat
  deriving DecidableEq, Repr

namespace LinkedList

variable {α : Type}

/-- `LinkedList()`. -/
def empty (h : Heap α) : Except Exn (Heap α × LinkedList α) := do
  let (g, h) := h.new ⟨none, none, none⟩
  let h ← h.setNext (some g) (some g)
  let h ← h.setPrev (some g) (some g)
  .ok (h, ⟨some g, 0⟩)

/-- `isEmpty()`. -/
def isEmpty (l : LinkedList α) : Bool := l._size == 0

/-- `getSize()`. -/
def getSize (l : LinkedList α) : Nat := l._size

/-- `append(item)`. -/
def append (h : Heap α) (l : LinkedList α) (item : α) :
    Except Exn (Heap α × LinkedList α) := do
  let (newElem, h) := h.new ⟨some item, none, none⟩
  let g ← h.read l.guard_
  let h ← Node.insertInBetween h (some newElem) g.prev l.guard_
  .ok (h, { l with _size := szAdd l._size 1 })

/-- `prepend(item)`. -/
def prepend (h : Heap α) (l : LinkedList α) (item : α) :
    Except Exn (Heap α × LinkedList α) := do
  let (newElem, h) := h.new ⟨some item, none, none⟩
  let g ← h.read l.guard_
  let h ← Node.insertInBetween h (some newElem) l.guard_ g.next
  .ok (h, { l with _size := szAdd l._size 1 })

/-- The loop of `deleteNodesFrom`, entered with `it` and `elementsDeleted`, run
for at most `fuel` tests of its condition. -/
def deleteNodesFromLoop (toExcluded : Option Nat) :
    Nat → Heap α → Option Nat → Int → Except Exn (Heap α × Int)
  | 0, _, _, _ => .error .diverged
  | fuel + 1, h, it, elementsDeleted =>
    if it.isSome ∧ it ≠ toExcluded then do
      let n ← h.read it
      let next := n.next
      let h ← h.delete it
      let elementsDeleted ← (if elementsDeleted = INT_MAX then .error .undefined
        else .ok (elementsDeleted + 1))
      deleteNodesFromLoop toExcluded fuel h next elementsDeleted
    else .ok (h, elementsDeleted)

/-- `deleteNodesFrom(fromIncluded, toExcluded)`: the store left and the number
returned. Every pass through the loop deletes a node, of which the store holds
at most `fresh`. -/
def deleteNodesFrom (h : Heap α) (fromIncluded toExcluded : Option Nat) :
    Except Exn (Heap α × Int) :=
  deleteNodesFromLoop toExcluded (h.fresh + 1) h fromIncluded 0

/-- `pop(nodeToPop)`: the store left and the value returned. -/
def pop (h : Heap α) (nodeToPop : Option Nat) : Except Exn (Heap α × α) := do
  let n ← h.read nodeToPop
  let value ← (match n.elem with
    | some x => .ok x
    | none => .error .undefined)
  let h ← Node.disconnect h nodeToPop
  let h ← h.delete nodeToPop
  .ok (h, value)

/-- `LinkedList<Type>::ConstIterator` (and `Iterator`, which adds no field):
`itr` and `guard`. `guard` is `none` as long as no value was given to it. -/
structure ConstIterator where
  itr : Option Nat
  guard : Option (Option Nat)
  deriving DecidableEq, Repr

namespace ConstIterator

/-- `ConstIterator(item, guard)`. -/
def make (item guard : Option Nat) : ConstIterator := ⟨item, some guard⟩

/-- `ConstIterator(const ConstIterator &other) : itr(other.itr) {}`, which gives
`guard` no value; `Iterator(const ConstIterator &other)` goes through it. -/
def copy (other : ConstIterator) : ConstIterator := ⟨other.itr, none⟩

/-- `node()`. -/
def node (it : ConstIterator) : Option Nat := it.itr

/-- The value of the member `guard`. -/
def guardValue (it : ConstIterator) : Except Exn (Option Nat) :=
  match it.guard with
  | none => .error .undefined
  | some g => .ok g

/-- `operator*`. -/
def deref (h : Heap α) (it : ConstIterator) : Except Exn α :=
  if it.itr.isNone then .error .out_of_range
  else do
    let g ← it.guardValue
    if it.itr = g then .error .out_of_range
    else do
      let n ← h.read it.itr
      match n.elem with
      | some x => .ok x
      | none => .error .undefined

/-- `operator++` (prefix). -/
def inc (h : Heap α) (it : ConstIterator) : Except Exn ConstIterator := do
  let n ← h.read it.itr
  let gp ← it.guardValue
  let g ← h.read gp
  if n.next = g.next then .error .out_of_range
  else .ok { it with itr := n.next }

/-- `operator--` (prefix). -/
def dec (h : Heap α) (it : ConstIterator) : Except Exn ConstIterator := do
  let n ← h.read it.itr
  let gp ← it.guardValue
  if n.prev = gp then .error .out_of_range
  else .ok { it with itr := n.prev }

/-- The loop of `operator+`, entered with `i` and `temp`, run for at most
`fuel` tests of its condition. -/
def addLoop (h : Heap α) (it : ConstIterator) (d : Int) :
    Nat → Int → Option Nat → Except Exn (Option Nat)
  | 0, _, _ => .error .diverged
  | fuel + 1, i, temp =>
    if i < d then do
      let n ← h.read it.itr
      let gp ← it.guardValue
      let g ← h.read gp
      if n.next = g.next then .error .out_of_range
      else do
        let t ← h.read temp
        let i ← (if i = INT_MAX then .error .undefined else .ok (i + 1))
        addLoop h it d fuel i t.next
    else .ok temp

/-- `operator+(d)`. -/
def add (h : Heap α) (it : ConstIterator) (d : Int) : Except Exn ConstIterator := do
  let temp ← addLoop h it d (d.toNat + 1) 0 it.itr
  let gp ← it.guardValue
  .ok (make temp gp)

/-- The loop of `operator-`, entered with `i` and `temp`, run for at most
`fuel` tests of its condition. -/
def subLoop (h : Heap α) (it : ConstIterator) (d : Int) :
    Nat → Int → Option Nat → Except Exn (Option Nat)
  | 0, _, _ => .error .diverged
  | fuel + 1, i, temp =>
    if i < d then do
      let n ← h.read it.itr
      let gp ← it.guardValue
      if n.prev = gp then .error .out_of_range
      else do
        let t ← h.read temp
        let i ← (if i = INT_MAX then .error .undefined else .ok (i + 1))
        subLoop h it d fuel i t.prev
    else .ok temp

/-- `operator-(d)`. -/
def sub (h : Heap α) (it : ConstIterator) (d : Int) : Except Exn ConstIterator := do
  let temp ← subLoop h it d (d.toNat + 1) 0 it.itr
  let gp ← it.guardValue
  .ok (make temp gp)

/-- `operator==`. -/
def eq (it other : ConstIterator) : Bool := it.itr == other.itr

end ConstIterator

/-- `Iterator::operator+(d)`: the `ConstIterator` that `ConstIterator::operator+`
returns, converted by `Iterator(const ConstIterator &)`. -/
def Iterator.add (h : Heap α) (it : ConstIterator) (d : Int) : Except Exn ConstIterator := do
  let r ← ConstIterator.add h it d
  .ok r.copy

/-- `Iterator::operator-(d)`. -/
def Iterator.sub (h : Heap α) (it : ConstIterator) (d : Int) : Except Exn ConstIterator := do
  let r ← ConstIterator.sub h it d
  .ok r.copy

/-- `begin()` / `cbegin()`; the iterator returned is built in place by
`ConstIterator(item, guard)`. -/
def begin (h : Heap α) (l : LinkedList α) : Except Exn ConstIterator := do
  let g ← h.read l.guard_
  .ok (ConstIterator.make g.next l.guard_)

/-- `end()` / `cend()`. -/
def end_ (l : LinkedList α) : ConstIterator := ConstIterator.make l.guard_ l.guard_

/-- `insert(insertPosition, item)`. -/
def insert (h : Heap α) (l : LinkedList α) (insertPosition : ConstIterator) (item : α) :
    Except Exn (Heap α × LinkedList α) := do
  let (newElem, h) := h.new ⟨some item, none, none⟩
  let right := insertPosition.copy.node
  let r ← h.read right
  let left := r.prev
  let h ← Node.insertInBetween h (some newElem) left right
  .ok (h, { l with _size := szAdd l._size 1 })

/-- `popFirst()`. -/
def popFirst (h : Heap α) (l : LinkedList α) : Except Exn (Heap α × LinkedList α × α) :=
  if l._size = 0 then .error .out_of_range
  else do
    let g ← h.read l.guard_
    let (h, value) ← pop h g.next
    .ok (h, { l with _size := szSub l._size 1 }, value)

/-- `popLast()`. -/
def popLast (h : Heap α) (l : LinkedList α) : Except Exn (Heap α × LinkedList α × α) :=
  if l._size = 0 then .error .out_of_range
  else do
    let g ← h.read l.guard_
    let (h, value) ← pop h g.prev
    .ok (h, { l with _size := szSub l._size 1 }, value)

/-- `erase(possition)`. -/
def erase (h : Heap α) (l : LinkedList α) (possition : ConstIterator) :
    Except Exn (Heap α × LinkedList α) :=
  if l._size = 0 then .error .out_of_range
  else if possition.eq l.end_ then .error .out_of_range
  else do
    let (h, _) ← pop h possition.copy.node
    .ok (h, { l with _size := szSub l._size 1 })

/-- `erase(firstIncluded, lastExcluded)`. -/
def eraseRange (h : Heap α) (l : LinkedList α) (firstIncluded lastExcluded : ConstIterator) :
    Except Exn (Heap α × LinkedList α) := do
  let itFirst := firstIncluded.copy
  let itLast := lastExcluded.copy
  let first := itFirst.node
  let last := itLast.node
  let f ← h.read first
  let h ← Node.connectWith h f.prev last
  let (h, n) ← deleteNodesFrom h first last
  .ok (h, { l with _size := szSub l._size (szOfInt n) })

/-- `LinkedList(LinkedList &&other)`: the list built and `other` as it is left. -/
def moveConstruct (other : LinkedList α) : LinkedList α × LinkedList α :=
  (⟨other.guard_, other._size⟩, { other with guard_ := none })

/-- `operator=(LinkedList &&other)`: the store, `*this` and `other` as they are
left; `same` is the test `this == &other`. -/
def moveAssign (h : Heap α) (this other : LinkedList α) (same : Bool) :
    Except Exn (Heap α × LinkedList α × LinkedList α) :=
  if same then .ok (h, this, other)
  else do
    let g ← h.read this.guard_
    let (h, _) ← deleteNodesFrom h g.next this.guard_
    let h ← Node.connectWith h this.guard_ this.guard_
    let this1 : LinkedList α := { this with guard_ := other.guard_ }
    let other1 : LinkedList α := { other with guard_ := this.guard_ }
    .ok (h, { this1 with _size := other1._size }, other1)

/-- The appends of a sequence, in order. -/
def appendAll (h : Heap α) (l : LinkedList α) : List α → Except Exn (Heap α × LinkedList α)
  | [] => .ok (h, l)
  | x :: xs => do
    let (h, l) ← append h l x
    appendAll h l xs

end LinkedList

namespace Heap

variable {α : Type}

/-- Every node of the store lives below `fresh`. -/
def WF (h : Heap α) : Prop := ∀ a, h.fresh ≤ a → h.cell a = none

/-- The member `next` of the node at `a`, when one lives there. -/
def nextOf (h : Heap α) (a : Nat) : Option (Option Nat) := (h.cell a).map Node.next

/-- The member `prev` of the node at `a`, when one lives there. -/
def prevOf (h : Heap α) (a : Nat) : Option (Option Nat) := (h.cell a).map Node.prev

/-- The member `elem` of the node at `a`, when one lives there. -/
def elemOf (h : Heap α) (a : Nat) : Option (Option α) := (h.cell a).map Node.elem

end Heap

namespace LinkedList

variable {α : Type}

/-- The node at position `k` of a list whose element nodes are `addrs` and whose
guard is `g`: element node `k` below `addrs.length`, the guard from there on. -/
def nodeAt (g : Nat) (addrs : List Nat) (k : Nat) : Nat := (addrs[k]?).getD g

/-- Both `a->next == b` and `b->prev == a`. -/
def Linked (h : Heap α) (a b : Nat) : Prop :=
  h.nextOf a = some (some b) ∧ h.prevOf b = some (some a)

/-- The guard `g` and the element nodes `addrs`, all distinct, form a ring in
this order, and the element nodes hold `xs`. -/
def Ring (h : Heap α) (g : Nat) (addrs : List Nat) (xs : List α) : Prop :=
  (g :: addrs).Nodup ∧ addrs.length = xs.length ∧
  Linked h g (nodeAt g addrs 0) ∧
  (∀ k, k < addrs.length → Linked h (nodeAt g addrs k) (nodeAt g addrs (k + 1))) ∧
  (∀ (k a : Nat) (x : α), addrs[k]? = some a → xs[k]? = some x → h.elemOf a = some (some x))

/-- The list `l` of the store `h` has the guard `g` and the element nodes
`addrs`, which hold `xs`, and `_size` is their number. -/
def Holds (h : Heap α) (l : LinkedList α) (g : Nat) (addrs : List Nat) (xs : List α) : Prop :=
  h.WF ∧ l.guard_ = some g ∧ l._size = xs.length ∧ Ring h g addrs xs

/-- The nodes met on `n` hops from the node `p`, each hop following the member
`dir` (`next` or `prev`); `none` when a hop leaves the store. -/
def hops (h : Heap α) (dir : Node α → Option Nat) : Nat → Option Nat → Option (List Nat)
  | 0, _ => some []
  | n + 1, p =>
    match p with
    | none => none
    | some a =>
      match h.cell a with
      | none => none
      | some nd =>
        match dir nd with
        | none => none
        | some b => (hops h dir n (some b)).map fun t => b :: t

/-- The structural invariant of the list: along `next` the guard is followed by
`getSize()` nodes other than the guard and then by the guard again, along `prev`
by the same nodes in reverse, and every node `n` of the ring has
`n.prev.next == n` and `n.next.prev == n`. -/
def Invariant (h : Heap α) (l : LinkedList α) : Prop :=
  ∃ g addrs, l.guard_ = some g ∧ addrs.length = l.getSize ∧ g ∉ addrs ∧
    hops h Node.next (l.getSize + 1) (some g) = some (addrs ++ [g]) ∧
    hops h Node.prev (l.getSize + 1) (some g) = some (addrs.reverse ++ [g]) ∧
    ∀ n, n ∈ g :: addrs →
      (∃ p, h.prevOf n = some (some p) ∧ h.nextOf p = some (some n)) ∧
      (∃ q, h.nextOf n = some (some q) ∧ h.prevOf q = some (some n))

/-- `erase(possition)` as its caller finds it: the outcome, an exception with
the message given to its constructor, and the store and the list as the call
leaves them. Both tests come before the first write. A failure inside `pop` has
undefined behaviour behind it, for which no state is given. -/
def eraseOutcome (h : Heap α) (l : LinkedList α) (possition : ConstIterator) :
    Except (Exn × String) Unit × Option (Heap α × LinkedList α) :=
  if l._size = 0 then (.error (.out_of_range, "Erasing empty list"), some (h, l))
  else if possition.eq l.end_ then
    (.error (.out_of_range, "Erasing end iterator"), some (h, l))
  else
    match pop h possition.copy.node with
    | .ok (h, _) => (.ok (), some (h, { l with _size := szSub l._size 1 }))
    | .error e => (.error (e, ""), none)

/-- `ConstIterator::operator++(int)`: the iterator returned, which is the copy
`temp` of `*this`, and `*this` as it is left. -/
def ConstIterator.postInc (h : Heap α) (it : ConstIterator) :
    Except Exn (ConstIterator × ConstIterator) := do
  let n ← h.read it.itr
  let gp ← it.guardValue
  let g ← h.read gp
  if n.next = g.next then .error .out_of_range
  else .ok (it.copy, { it with itr := n.next })

/-- `ConstIterator::operator--(int)`: the iterator returned and `*this` as it is
left. -/
def ConstIterator.postDec (h : Heap α) (it : ConstIterator) :
    Except Exn (ConstIterator × ConstIterator) := do
  let n ← h.read it.itr
  let gp ← it.guardValue
  if n.prev = gp then .error .out_of_range
  else .ok (it.copy, { it with itr := n.prev })

/-- `Iterator::operator++(int)`: the iterator returned, which is the copy
`result` of `*this`, and `*this` as it is left. -/
def Iterator.postInc (h : Heap α) (it : ConstIterator) :
    Except Exn (ConstIterator × ConstIterator) := do
  let result := it.copy
  let it ← ConstIterator.inc h it
  .ok (result, it)

/-- `Iterator::operator--(int)`: the iterator returned and `*this` as it is
left. -/
def Iterator.postDec (h : Heap α) (it : ConstIterator) :
    Except Exn (ConstIterator × ConstIterator) := do
  let result := it.copy
  let it ← ConstIterator.dec h it
  .ok (result, it)

end LinkedList

/-! ## Runs used as examples -/

/-- A number of `popLast()` calls in a row, the values returned being dropped. -/
def Vector.popLastTimes {α : Type} : Nat → Vector α → Except Exn (Vector α)
  | 0, v => .ok v
  | n + 1, v => do
    let (_, v) ← v.popLast
    popLastTimes n v

/-- The vector after `append(0)`, ..., `append(8)`: nine elements, capacity 16. -/
def exVector9 : Vector Nat :=
  ⟨some ([some 0, some 1, some 2, some 3, some 4, some 5, some 6, some 7, some 8] ++
    List.replicate 7 none), 16, 9⟩

/-- The vector after `append(0)`, ..., `append(7)`: eight elements, capacity 8. -/
def exVector8 : Vector Nat :=
  ⟨some [some 0, some 1, some 2, some 3, some 4, some 5, some 6, some 7], 8, 8⟩

/-- The store and the list after `LinkedList()` and the appends of `xs`. -/
def exList (xs : List Nat) : Heap Nat × LinkedList Nat :=
  match (do
    let (h, l) ← LinkedList.empty Heap.init
    LinkedList.appendAll h l xs) with
  | .ok s => s
  | .error _ => (Heap.init, ⟨none, 0⟩)

/-- The values `0, ..., 99999` that `main` appends. -/
def exAppends : List Nat := List.range 100000

/-- The vector built by the initializer-list constructor from `0, ..., 8`
(capacity 9) after `erase(begin() + 2, end())`: two elements, capacity 9. -/
def exVectorOdd : Vector Nat :=
  ⟨some [some 0, some 1, some 2, some 3, some 4, some 5, some 6, some 7, some 8], 9, 2⟩

/-- Eight `popFirst()` calls followed by four `append` calls. -/
def exCalls : List (Vector.Call Nat) :=
  List.replicate 8 .popFirst ++ [.append 1, .append 2, .append 3, .append 4]

/-- The values `0, ..., 2 ^ 31`, one more than `2 ^ 31` of them. -/
def exBig : List Nat := List.range (2 ^ 31 + 1)

/-- The values `0, ..., 2 ^ 31 - 1`. -/
def exBigList : List Nat := List.range (2 ^ 31)

/-! ## Theorems -/

/-! ### Machine integers and buffers -/


theorem szAdd_of_lt {a b : Nat} (h : a + b < 2 ^ 64) : szAdd a b = a + b := by
  unfold szAdd SIZE_MOD; exact Nat.mod_eq_of_lt h

theorem szSub_of_le {a b : Nat} (hb : b ≤ a) (ha : a < 2 ^ 64) : szSub a b = a - b := by
  unfold szSub SIZE_MOD
  rw [Nat.mod_eq_of_lt ha, Nat.mod_eq_of_lt (lt_of_le_of_lt hb ha)]
  omega

theorem szOfInt_natCast {n : Nat} (h : n < 2 ^ 64) : szOfInt (n : Int) = n := by
  unfold szOfInt SIZE_MOD
  have : ((n : Int) % ((2 ^ 64 : Nat) : Int)) = ((n % 2 ^ 64 : Nat) : Int) := by
    exact (Int.natCast_mod n (2 ^ 64)).symm
  rw [this, Int.toNat_natCast, Nat.mod_eq_of_lt h]

theorem szOfInt_one : szOfInt 1 = 1 := by decide

theorem szOfInt_two : szOfInt 2 = 2 := by decide

theorem szMul_two {a : Nat} (h : a < 2 ^ 63) : szMul a (szOfInt 2) = 2 * a := by
  rw [szOfInt_two]; unfold szMul SIZE_MOD
  rw [Nat.mod_eq_of_lt (by omega)]; omega

theorem rdSlot_some {α : Type} (buf : Buffer α) (i : Nat) (s : Option α) (h : buf[i]? = some s) :
    rdSlot (some buf) i = .ok s := by
  simp [rdSlot, h]

theorem wrSlot_some {α : Type} (buf : Buffer α) (i : Nat) (x : Option α) (h : i < buf.length) :
    wrSlot (some buf) i x = .ok (some (buf.set i x)) := by
  simp [wrSlot, h]

/-! ### The loops of Vector -/

namespace Vector
variable {α : Type}

theorem changeCapacityLoop_spec (src : Buffer α) (size : Nat) (hs : size ≤ src.length)
    (hsz : size < 2 ^ 64) :
    ∀ (fuel i : Nat) (dst : Buffer α), i ≤ size → size ≤ dst.length → size - i < fuel →
      ∃ dst', changeCapacityLoop (some src) size fuel i (some dst) = .ok (some dst') ∧
        dst'.length = dst.length ∧
        ∀ k, dst'[k]? = if i ≤ k ∧ k < size then src[k]? else dst[k]? := by
  intro fuel
  induction fuel with
  | zero => intro i dst _ _ h; omega
  | succ fuel ih =>
    intro i dst hi hd hf
    by_cases hlt : i < size
    · have h1 : src[i]? = some (src[i]) := List.getElem?_eq_getElem (by omega)
      have h2 : i < dst.length := by omega
      obtain ⟨dst', e, hl, hk⟩ := ih (i + 1) (dst.set i src[i]) (by omega)
        (by simpa using hd) (by omega)
      refine ⟨dst', ?_, by simpa using hl, ?_⟩
      · simp only [changeCapacityLoop, if_pos hlt, rdSlot_some _ _ _ h1, wrSlot_some _ _ _ h2,
          szAdd_of_lt (show i + 1 < 2 ^ 64 by omega), bind, Except.bind]
        exact e
      · intro k
        rw [hk k, List.getElem?_set]
        by_cases hk1 : i = k
        · subst hk1; simp [hlt, h2, h1]
        · rw [if_neg hk1]
          by_cases hk2 : i + 1 ≤ k ∧ k < size
          · rw [if_pos hk2, if_pos ⟨by omega, hk2.2⟩]
          · rw [if_neg hk2, if_neg (by omega)]
    · refine ⟨dst, ?_, rfl, ?_⟩
      · simp only [changeCapacityLoop, if_neg hlt]
      · intro k; rw [if_neg (by omega)]

theorem moveElementsLeftLoop_spec (size J : Nat) (hsz : size < 2 ^ 64) (h1 : 1 ≤ size) :
    ∀ (fuel i : Nat) (a : Buffer α), J ≤ i → i ≤ size → size ≤ a.length → size - i < fuel →
      ∃ b, moveElementsLeftLoop size (J : Int) fuel i (some a) = .ok (some b) ∧
        b.length = a.length ∧
        ∀ k, b[k]? = if i - J ≤ k ∧ k + J < size then a[k + J]? else a[k]? := by
  intro fuel
  induction fuel with
  | zero => intro i a _ _ _ h; omega
  | succ fuel ih =>
    intro i a hJ hi ha hf
    have hs1 : szSub size 1 = size - 1 := szSub_of_le h1 hsz
    by_cases hlt : i ≤ size - 1
    · have hil : i < a.length := by omega
      have e1 : a[i]? = some (a[i]) := List.getElem?_eq_getElem hil
      have e2 : szSub i (szOfInt (J : Int)) = i - J := by
        rw [szOfInt_natCast (by omega), szSub_of_le hJ (by omega)]
      obtain ⟨b, e, hl, hk⟩ := ih (i + 1) (a.set (i - J) a[i]) (by omega) (by omega)
        (by simpa using ha) (by omega)
      refine ⟨b, ?_, by simpa using hl, ?_⟩
      · simp only [moveElementsLeftLoop, hs1, if_pos hlt, rdSlot_some _ _ _ e1, e2,
          wrSlot_some _ _ _ (show i - J < a.length by omega),
          szAdd_of_lt (show i + 1 < 2 ^ 64 by omega), bind, Except.bind]
        exact e
      · intro k
        rw [hk k]
        by_cases hk1 : i + 1 - J ≤ k ∧ k + J < size
        · rw [if_pos hk1, if_pos ⟨by omega, hk1.2⟩, List.getElem?_set_ne (by omega)]
        · rw [if_neg hk1, List.getElem?_set]
          by_cases hk2 : i - J = k
          · have : k + J = i := by omega
            simp [hk2, this, e1, show k < a.length by omega, show i < size by omega]
          · rw [if_neg hk2, if_neg (by omega)]
    · refine ⟨a, ?_, rfl, ?_⟩
      · simp only [moveElementsLeftLoop, hs1, if_neg hlt]
      · intro k; rw [if_neg (by omega)]

theorem rdElem_some_iff (buf : Buffer α) (k : Nat) (x : α) :
    rdElem (some buf) k = .ok x ↔ buf[k]? = some (some x) := by
  unfold rdElem rdSlot
  cases h : buf[k]? with
  | none => simp [h]
  | some s => cases s <;> simp [h]

theorem rdElem_none (k : Nat) (x : α) : rdElem (none : Option (Buffer α)) k ≠ .ok x := by
  simp [rdElem, rdSlot]

theorem Holds.buf {v : Vector α} {xs : List α} (h : Holds v xs) {buf : Buffer α}
    (hb : v._array = some buf) : ∀ k, k < xs.length → buf[k]? = some xs[k]? := by
  intro k hk
  have := h.2 k xs[k] (List.getElem?_eq_getElem hk)
  rw [hb, rdElem_some_iff] at this
  rw [this, List.getElem?_eq_getElem hk]

theorem Holds.of_buf {v : Vector α} {xs : List α} {buf : Buffer α} (hb : v._array = some buf)
    (hs : v._size = xs.length) (h : ∀ k, k < xs.length → buf[k]? = some xs[k]?) :
    Holds v xs := by
  refine ⟨hs, fun k x hx => ?_⟩
  have hk : k < xs.length := by
    by_contra hc
    rw [List.getElem?_eq_none (by omega)] at hx
    cases hx
  rw [hb, rdElem_some_iff, h k hk, hx]

theorem Holds.array_some {v : Vector α} {xs : List α} (h : Holds v xs) (hn : 0 < xs.length) :
    ∃ buf, v._array = some buf := by
  cases hb : v._array with
  | none =>
    have := h.2 0 xs[0] (List.getElem?_eq_getElem hn)
    rw [hb] at this
    exact absurd this (rdElem_none _ _)
  | some buf => exact ⟨buf, rfl⟩

theorem Holds.le_length {v : Vector α} {xs : List α} (h : Holds v xs) {buf : Buffer α}
    (hb : v._array = some buf) : xs.length ≤ buf.length := by
  by_contra hc
  have hlt : buf.length < xs.length := by omega
  have := h.buf hb buf.length hlt
  rw [List.getElem?_eq_none (le_refl _)] at this
  cases this

theorem Holds.subscript {v : Vector α} {xs : List α} (h : Holds v xs) (k : Nat)
    (hk : k < xs.length) : v.subscript k = .ok xs[k] := by
  obtain ⟨buf, hb⟩ := h.array_some (by omega)
  have h1 := h.2 k xs[k] (List.getElem?_eq_getElem hk)
  unfold Vector.subscript
  rw [hb] at h1 ⊢
  have h2 : ¬ (k < 0 ∨ k ≥ v._size) := by rw [h.1]; omega
  simp only [Option.isNone_some, if_neg h2, h1]
  simp

theorem holds_empty : Holds (Vector.empty : Vector α) [] := by
  refine ⟨rfl, fun k x hx => ?_⟩
  simp at hx

theorem alloc_empty : Alloc (Vector.empty : Vector α) := by
  simp [Alloc, Vector.empty]

/-- Growing when full: the elements stay, a free slot follows them. -/
theorem grow_spec {v : Vector α} {xs : List α} (h : Holds v xs) (ha : Alloc v)
    (hn : xs.length < 2 ^ 63) :
    ∃ v1 buf, (if v._size = v._capacity then increaseCapacityBy v 2 else .ok v) = .ok v1 ∧
      v1._array = some buf ∧ buf.length = v1._capacity ∧ v1._size = xs.length ∧
      xs.length < buf.length ∧ (∀ k, k < xs.length → buf[k]? = some xs[k]?) ∧
      v1._capacity = (if v._size = v._capacity then (if v._capacity = 0 then 8 else 2 * v._capacity)
        else v._capacity) := by
  by_cases hfull : v._size = v._capacity
  · rw [if_pos hfull]
    by_cases hz : v._capacity = 0
    · have hx : xs.length = 0 := by rw [← h.1, hfull, hz]
      refine ⟨⟨some (newArray 8), 8, v._size⟩, newArray 8, ?_, rfl, ?_, ?_, ?_, ?_, ?_⟩
      · simp only [increaseCapacityBy, if_pos hz]
      · simp [newArray]
      · simp [h.1, hx]
      · simp [newArray, hx]
      · intro k hk; omega
      · simp [hz, hfull]
    · have hpos : 0 < xs.length := by rw [← h.1, hfull]; omega
      obtain ⟨buf, hb⟩ := h.array_some hpos
      have hlen : buf.length = v._capacity := by simpa [Alloc, hb] using ha
      have hcap : v._capacity = xs.length := by rw [← hfull, h.1]
      obtain ⟨dst, e, hl, hk⟩ := changeCapacityLoop_spec buf xs.length (by omega) (by omega)
        (xs.length + 1) 0 (newArray (2 * v._capacity)) (by omega) (by simp [newArray]; omega)
        (by omega)
      refine ⟨⟨some dst, 2 * v._capacity, xs.length⟩, dst, ?_, rfl, ?_, rfl, ?_, ?_, ?_⟩
      · simp only [increaseCapacityBy, if_neg hz, changeCapacity, hb, h.1,
          szMul_two (show v._capacity < 2 ^ 63 by omega), e, bind, Except.bind]
      · simp [hl, newArray]
      · rw [hl]; simp [newArray]; omega
      · intro k hk2
        rw [hk k, if_pos ⟨by omega, hk2⟩, h.buf hb k hk2]
      · simp [hz, hfull]
  · rw [if_neg hfull]
    cases hb : v._array with
    | none =>
      have hc : v._capacity = 0 := by simpa [Alloc, hb] using ha
      have hx : xs.length = 0 := by
        by_contra hc2
        obtain ⟨buf, hb2⟩ := h.array_some (by omega)
        rw [hb] at hb2; cases hb2
      exact absurd (by rw [h.1, hc, hx]) hfull
    | some buf =>
      have hlen : buf.length = v._capacity := by simpa [Alloc, hb] using ha
      have hle := h.le_length hb
      refine ⟨v, buf, rfl, hb, hlen, h.1, ?_, h.buf hb, by simp [hfull]⟩
      have : xs.length ≠ buf.length := by rw [hlen, ← h.1]; exact hfull
      omega


theorem append_spec {v : Vector α} {xs : List α} (h : Holds v xs) (ha : Alloc v)
    (hn : xs.length < 2 ^ 63) (x : α) :
    ∃ v', v.append x = .ok v' ∧ Holds v' (xs ++ [x]) ∧ Alloc v' := by
  obtain ⟨v1, buf, e, hb, hl, hs, hlt, hk, -⟩ := grow_spec h ha hn
  refine ⟨⟨some (buf.set xs.length (some x)), v1._capacity, xs.length + 1⟩, ?_, ?_, ?_⟩
  · simp only [append, e, hb, hs, wrSlot_some _ _ _ hlt,
      szAdd_of_lt (show xs.length + 1 < 2 ^ 64 by omega), bind, Except.bind]
  · refine Holds.of_buf rfl (by simp) ?_
    intro k hk2
    rw [List.getElem?_set]
    by_cases hk3 : xs.length = k
    · subst hk3; simp [hlt]
    · have hk4 : k < xs.length := by simp at hk2; omega
      rw [if_neg hk3, hk k hk4, List.getElem?_append_left hk4]
  · simp [Alloc, hl]

theorem appendAll_spec (ys : List α) :
    ∀ {v : Vector α} {xs : List α}, Holds v xs → Alloc v → xs.length + ys.length ≤ 2 ^ 63 →
      ∃ v', appendAll v ys = .ok v' ∧ Holds v' (xs ++ ys) ∧ Alloc v' := by
  induction ys with
  | nil =>
    intro v xs h ha _
    exact ⟨v, rfl, by simpa using h, ha⟩
  | cons y ys ih =>
    intro v xs h ha hn
    simp only [List.length_cons] at hn
    obtain ⟨v1, e1, h1, ha1⟩ := append_spec h ha (by omega) y
    obtain ⟨v2, e2, h2, ha2⟩ := ih h1 ha1 (by simp; omega)
    refine ⟨v2, ?_, by simpa using h2, ha2⟩
    simp only [appendAll, e1, bind, Except.bind]
    exact e2


/-! ### Vector: insert and erase at iterators -/

theorem getElem?_take_cons_drop (xs : List α) (i : Nat) (x : α) (hi : i ≤ xs.length) (k : Nat) :
    (xs.take i ++ x :: xs.drop i)[k]? =
      if k < i then xs[k]? else if k = i then some x else xs[k - 1]? := by
  have hl : (xs.take i).length = i := by simp [hi]
  by_cases h1 : k < i
  · rw [if_pos h1, List.getElem?_append_left (by omega), List.getElem?_take_of_lt h1]
  · rw [if_neg h1, List.getElem?_append_right (by omega), hl]
    by_cases h2 : k = i
    · subst h2; simp
    · rw [if_neg h2]
      obtain ⟨m, hm⟩ : ∃ m, k - i = m + 1 := ⟨k - i - 1, by omega⟩
      rw [hm, List.getElem?_cons_succ, List.getElem?_drop]
      congr 1; omega

theorem getElem?_take_drop (xs : List α) (i j : Nat) (hi : i ≤ xs.length) (k : Nat) :
    (xs.take i ++ xs.drop j)[k]? = if k < i then xs[k]? else xs[k - i + j]? := by
  have hl : (xs.take i).length = i := by simp [hi]
  by_cases h1 : k < i
  · rw [if_pos h1, List.getElem?_append_left (by omega), List.getElem?_take_of_lt h1]
  · rw [if_neg h1, List.getElem?_append_right (by omega), hl, List.getElem?_drop]
    congr 1; omega

/-- The iterator `begin() + i`. -/
theorem begin_add {v : Vector α} (i : Nat) (hi : i ≤ v._size) (hs : v._size < 2 ^ 64) :
    v.begin.add v (i : Int) = .ok ⟨i, ⟨v._array.isSome, (i : Int)⟩⟩ := by
  have e1 : szAdd 0 (szOfInt (i : Int)) = i := by
    rw [szOfInt_natCast (by omega), szAdd_of_lt (by omega)]; omega
  simp only [ConstIterator.add, begin, e1, getSize, if_neg (show ¬ i > v._size by omega)]
  simp

/-- The index that `insert` and `erase` compute from the iterator `begin() + i`. -/
theorem indexOf_begin_add {v : Vector α} {buf : Buffer α} (hb : v._array = some buf)
    (i : Nat) (hi : i < v._size) (hs : v._size < 2 ^ 64) :
    indexOf v ⟨i, ⟨v._array.isSome, (i : Int)⟩⟩ = .ok i := by
  have h0 : ¬ (0 ≥ v._size) := by omega
  have h1 : ¬ (i ≥ v._size) := by omega
  simp only [indexOf, ConstIterator.deref, begin, hb, Option.isSome_some, Ptr.isNull, getSize,
    Ptr.diff, if_neg h0, if_neg h1, bind, Except.bind]
  simp [szOfInt_natCast (show i < 2 ^ 64 by omega)]

theorem eq_end_iff {v : Vector α} (i : Nat) :
    ConstIterator.eq ⟨i, ⟨v._array.isSome, (i : Int)⟩⟩ v.end_ = decide (i = v._size) := by
  simp only [ConstIterator.eq, end_]
  rw [Bool.eq_iff_iff]
  simp [Ptr.mk.injEq]

theorem ok_bind {β γ : Type} (a : β) (f : β → Except Exn γ) : (Except.ok a >>= f) = f a := rfl

theorem eq_iterators_iff (b : Bool) (i j : Nat) :
    ConstIterator.eq ⟨i, ⟨b, (i : Int)⟩⟩ ⟨j, ⟨b, (j : Int)⟩⟩ = decide (i = j) := by
  simp only [ConstIterator.eq]
  rw [Bool.eq_iff_iff]
  simp [Ptr.mk.injEq]

/-- Halving the capacity: the elements move to a buffer of half as many slots. -/
theorem shrink_spec {v : Vector α} {buf : Buffer α} (hb : v._array = some buf)
    (hs : v._size ≤ buf.length) (hc : v._size ≤ v._capacity / 2) (hsz : v._size < 2 ^ 64) :
    ∃ dst, decreaseCapacityBy v 2 = .ok ⟨some dst, v._capacity / 2, v._size⟩ ∧
      dst.length = v._capacity / 2 ∧ ∀ k, k < v._size → dst[k]? = buf[k]? := by
  obtain ⟨dst, e, hl, hk⟩ := changeCapacityLoop_spec buf v._size hs hsz (v._size + 1) 0
    (newArray (v._capacity / 2)) (by omega) (by simpa [newArray] using hc) (by omega)
  refine ⟨dst, ?_, by simpa [newArray] using hl, fun k hk2 => ?_⟩
  · simp only [decreaseCapacityBy, szOfInt_two, changeCapacity, hb, e, bind, Except.bind]
  · rw [hk k, if_pos ⟨by omega, hk2⟩]

/-- After a removal that leaves the elements `ys` in `arr`: the shrink test of
`popFirst` and `erase`. -/
theorem shrink_after {ys : List α} {arr : Buffer α}
    (hs : ys.length < 2 ^ 64)
    (hk : ∀ k, k < ys.length → arr[k]? = some ys[k]?) (c : Nat) :
    ∃ v', (if ys.length < c / 4 ∧ c > _defaultCapacity
        then decreaseCapacityBy (⟨some arr, c, ys.length⟩ : Vector α) 2
        else .ok ⟨some arr, c, ys.length⟩) = .ok v' ∧
      Holds v' ys ∧
      v'._capacity = (if c > 8 ∧ ys.length < c / 4 then c / 2 else c) ∧
      (arr.length = c → Alloc v') := by
  have hle : ys.length ≤ arr.length := by
    by_contra hc2
    have := hk arr.length (by omega)
    rw [List.getElem?_eq_none (le_refl _)] at this
    cases this
  by_cases hcond : ys.length < c / 4 ∧ c > _defaultCapacity
  · obtain ⟨dst, e, hl, hd⟩ := shrink_spec (v := (⟨some arr, c, ys.length⟩ : Vector α)) rfl hle
      (by simp only; omega) hs
    refine ⟨_, by rw [if_pos hcond]; exact e, ?_, ?_, ?_⟩
    · refine Holds.of_buf rfl rfl fun k hk2 => ?_
      rw [hd k hk2, hk k hk2]
    · have : c > 8 ∧ ys.length < c / 4 := ⟨hcond.2, hcond.1⟩
      simp [this]
    · intro _; simpa [Alloc] using hl
  · refine ⟨_, by rw [if_neg hcond], Holds.of_buf rfl rfl hk, ?_, ?_⟩
    · have : ¬ (c > 8 ∧ ys.length < c / 4) := fun hh => hcond ⟨hh.2, hh.1⟩
      simp [this]
    · intro hh; simpa [Alloc] using hh

/-- `erase(begin() + i)` removes the element at `i`. -/
theorem erase_spec {v : Vector α} {xs : List α} (h : Holds v xs) (hn : xs.length < 2 ^ 64)
    (i : Nat) (hi : i < xs.length) :
    ∃ v', v.erase ⟨i, ⟨v._array.isSome, (i : Int)⟩⟩ = .ok v' ∧
      Holds v' (xs.take i ++ xs.drop (i + 1)) ∧
      v'._capacity = (if v._capacity > 8 ∧ xs.length - 1 < v._capacity / 4
        then v._capacity / 2 else v._capacity) ∧
      (Alloc v → Alloc v') := by
  obtain ⟨buf, hb⟩ := h.array_some (by omega)
  have hle := h.le_length hb
  have hsz := h.1
  have hidx := indexOf_begin_add hb i (by omega) (by omega)
  obtain ⟨b, e, hl, hk⟩ := moveElementsLeftLoop_spec xs.length 1 hn (by omega)
    (xs.length + 1) (i + 1) buf (by omega) (by omega) hle (by omega)
  have hys : (xs.take i ++ xs.drop (i + 1)).length = xs.length - 1 := by
    rw [List.length_append, List.length_take, List.length_drop]
    omega
  have hkb : ∀ k, k < (xs.take i ++ xs.drop (i + 1)).length →
      b[k]? = some (xs.take i ++ xs.drop (i + 1))[k]? := by
    intro k hk2
    rw [hys] at hk2
    rw [getElem?_take_drop xs i (i + 1) (by omega), hk k]
    by_cases c : k < i
    · rw [if_pos c, if_neg (by omega), h.buf hb k (by omega)]
    · rw [if_neg c, if_pos ⟨by omega, by omega⟩, h.buf hb _ (by omega),
        show k - i + (i + 1) = k + 1 by omega]
  obtain ⟨v', e2, h2, hcap, hal⟩ := shrink_after (by rw [hys]; omega) hkb v._capacity
  rw [hys] at e2 hcap
  refine ⟨v', ?_, h2, by simpa [gt_iff_lt, and_comm] using hcap, ?_⟩
  · have hz : ¬ (v._size = 0) := by omega
    simp only [erase, if_neg hz, hidx, ok_bind]
    simp only [moveElementsLeft, if_neg hz, szAdd_of_lt (show i + 1 < 2 ^ 64 by omega), hsz, hb,
      show ((1 : Int)) = ((1 : Nat) : Int) from rfl, e, ok_bind,
      szSub_of_le (show 1 ≤ xs.length by omega) hn, if_neg (show ¬ xs.length = 0 by omega)]
    exact e2
  · intro ha
    apply hal
    rw [hl]
    simpa [Alloc, hb] using ha

/-- `popLast()` returns the last element and leaves the others. -/
theorem popLast_spec {v : Vector α} {ys : List α} {x : α} (h : Holds v (ys ++ [x]))
    (hn : ys.length + 1 < 2 ^ 64) :
    ∃ v', v.popLast = .ok (x, v') ∧ Holds v' ys ∧
      v'._capacity = (if v._capacity > 8 ∧ ys.length + 1 < v._capacity / 4
        then v._capacity / 2 else v._capacity) ∧
      (Alloc v → Alloc v') := by
  have hlen : (ys ++ [x]).length = ys.length + 1 := by simp
  obtain ⟨buf, hb⟩ := h.array_some (by omega)
  have hle := h.le_length hb
  have hsz := h.1
  rw [hlen] at hle hsz
  have hbuf : ∀ k, k < ys.length + 1 → buf[k]? = some (ys ++ [x])[k]? := by
    intro k hk; exact h.buf hb k (by omega)
  have hz : ¬ (v._size = 0) := by omega
  have hlast : (ys ++ [x])[ys.length]? = some x := by
    rw [List.getElem?_append_right (le_refl _)]; simp
  by_cases hcond : v._capacity > _defaultCapacity ∧ v._size < v._capacity / 4
  · obtain ⟨dst, e, hl, hd⟩ := shrink_spec hb (by omega) (by omega) (by omega)
    refine ⟨⟨some dst, v._capacity / 2, ys.length⟩, ?_, ?_, ?_, ?_⟩
    · have hr : rdElem (some dst) ys.length = .ok x := by
        rw [rdElem_some_iff, hd _ (by omega), hbuf _ (by omega), hlast]
      simp only [popLast, if_neg hz, if_pos hcond, e, ok_bind]
      simp only [hsz, szSub_of_le (show 1 ≤ ys.length + 1 by omega) hn, Nat.add_sub_cancel, hr,
        ok_bind]
    · refine Holds.of_buf rfl rfl fun k hk => ?_
      rw [hd k (by omega), hbuf k (by omega), List.getElem?_append_left hk]
    · rw [hsz] at hcond
      have : v._capacity > 8 ∧ ys.length + 1 < v._capacity / 4 := hcond
      simp [this]
    · intro _; simpa [Alloc] using hl
  · refine ⟨⟨some buf, v._capacity, ys.length⟩, ?_, ?_, ?_, ?_⟩
    · have hr : rdElem (some buf) ys.length = .ok x := by
        rw [rdElem_some_iff, hbuf _ (by omega), hlast]
      simp only [popLast, if_neg hz, if_neg hcond, ok_bind]
      simp only [hsz, hb, szSub_of_le (show 1 ≤ ys.length + 1 by omega) hn, Nat.add_sub_cancel,
        hr, ok_bind]
    · refine Holds.of_buf rfl rfl fun k hk => ?_
      rw [hbuf k (by omega), List.getElem?_append_left hk]
    · rw [hsz] at hcond
      have : ¬ (v._capacity > 8 ∧ ys.length + 1 < v._capacity / 4) := hcond
      simp [this]
    · intro ha; simpa [Alloc, hb] using ha

/-- `popFirst()` returns the first element and leaves the others. -/
theorem popFirst_spec {v : Vector α} {ys : List α} {x : α} (h : Holds v (x :: ys))
    (hn : ys.length + 1 < 2 ^ 64) :
    ∃ v', v.popFirst = .ok (x, v') ∧ Holds v' ys ∧
      v'._capacity = (if v._capacity > 8 ∧ ys.length < v._capacity / 4
        then v._capacity / 2 else v._capacity) ∧
      (Alloc v → Alloc v') := by
  have hlen : (x :: ys).length = ys.length + 1 := by simp
  obtain ⟨buf, hb⟩ := h.array_some (by omega)
  have hle := h.le_length hb
  have hsz := h.1
  rw [hlen] at hle hsz
  have hbuf : ∀ k, k < ys.length + 1 → buf[k]? = some (x :: ys)[k]? := by
    intro k hk; exact h.buf hb k (by omega)
  have hz : ¬ (v._size = 0) := by omega
  have hr : rdElem (some buf) 0 = .ok x := by
    rw [rdElem_some_iff, hbuf 0 (by omega)]; simp
  obtain ⟨b, e, hl, hk⟩ := moveElementsLeftLoop_spec (ys.length + 1) 1 hn (by omega)
    (ys.length + 1 + 1) 1 buf (by omega) (by omega) hle (by omega)
  have hkb : ∀ k, k < ys.length → b[k]? = some ys[k]? := by
    intro k hk2
    rw [hk k, if_pos ⟨by omega, by omega⟩, hbuf (k + 1) (by omega)]
    simp
  obtain ⟨v', e2, h2, hcap, hal⟩ := shrink_after (by omega) hkb v._capacity
  refine ⟨v', ?_, h2, hcap, ?_⟩
  · have hcomm : ∀ (a c : Except Exn (Vector α)),
        (if v._capacity > _defaultCapacity ∧ ys.length < v._capacity / 4 then a else c) =
        (if ys.length < v._capacity / 4 ∧ v._capacity > _defaultCapacity then a else c) := by
      intro a c
      by_cases hc : ys.length < v._capacity / 4 ∧ v._capacity > _defaultCapacity
      · rw [if_pos hc, if_pos ⟨hc.2, hc.1⟩]
      · rw [if_neg hc, if_neg (fun hh => hc ⟨hh.2, hh.1⟩)]
    simp only [popFirst, if_neg hz]
    simp only [hb, hr, ok_bind]
    simp only [moveElementsLeft, if_neg hz]
    simp only [hb, hsz, show ((1 : Int)) = ((1 : Nat) : Int) from rfl, e, ok_bind,
      szSub_of_le (show 1 ≤ ys.length + 1 by omega) hn, Nat.add_sub_cancel, hcomm, e2]
  · intro ha
    apply hal
    rw [hl]
    simpa [Alloc, hb] using ha

theorem popLast_empty {v : Vector α} (h : Holds v []) : v.popLast = .error .length_error := by
  have : v._size = 0 := h.1
  simp [popLast, this]

theorem popFirst_empty {v : Vector α} (h : Holds v []) : v.popFirst = .error .length_error := by
  have : v._size = 0 := h.1
  simp [popFirst, this]

/-- As many `popLast()` calls as there are elements return them last to first. -/
theorem popLastValues_spec (xs : List α) :
    ∀ {v : Vector α}, Holds v xs → xs.length < 2 ^ 64 →
      ∃ v', popLastValues xs.length v = .ok (xs.reverse, v') ∧ Holds v' [] := by
  induction xs using List.reverseRecOn with
  | nil =>
    intro v h _
    exact ⟨v, rfl, h⟩
  | append_singleton ys x ih =>
    intro v h hn
    have hlen : (ys ++ [x]).length = ys.length + 1 := by simp
    rw [hlen] at hn
    obtain ⟨v1, e1, h1, -, -⟩ := popLast_spec h hn
    obtain ⟨v2, e2, h2⟩ := ih h1 (by omega)
    refine ⟨v2, ?_, h2⟩
    rw [hlen]
    simp only [popLastValues, e1, ok_bind, e2, List.reverse_append, List.reverse_singleton,
      List.singleton_append]

/-- `append` with the capacity it leaves. -/
theorem append_spec_cap {v : Vector α} {xs : List α} (h : Holds v xs) (ha : Alloc v)
    (hn : xs.length < 2 ^ 63) (x : α) :
    ∃ v', v.append x = .ok v' ∧ Holds v' (xs ++ [x]) ∧ Alloc v' ∧
      v'._capacity = (if v._size = v._capacity then
        (if v._capacity = 0 then 8 else 2 * v._capacity) else v._capacity) := by
  obtain ⟨v1, buf, e, hb, hl, hs, hlt, hk, hcap⟩ := grow_spec h ha hn
  obtain ⟨v', e', h', ha'⟩ := append_spec h ha hn x
  refine ⟨v', e', h', ha', ?_⟩
  have e2 : v.append x = .ok ⟨some (buf.set xs.length (some x)), v1._capacity, xs.length + 1⟩ := by
    simp only [append, e, hb, hs, wrSlot_some _ _ _ hlt,
      szAdd_of_lt (show xs.length + 1 < 2 ^ 64 by omega), bind, Except.bind]
  rw [e2] at e'
  cases e'
  exact hcap

/-- The capacity after appends to a default-constructed vector is `8 * 2 ^ k`,
more than half used unless it is 8. -/
theorem appendAll_cap (ys : List α) :
    ∀ {v : Vector α} {xs : List α}, Holds v xs → Alloc v →
      ((v._capacity = 0 ∧ v._size = 0) ∨
        ∃ k, v._capacity = 8 * 2 ^ k ∧ v._size ≤ v._capacity ∧ (k = 0 ∨ 4 * 2 ^ k < v._size)) →
      xs.length + ys.length ≤ 2 ^ 63 →
      ∃ v', appendAll v ys = .ok v' ∧ Holds v' (xs ++ ys) ∧ Alloc v' ∧
        ((v'._capacity = 0 ∧ v'._size = 0) ∨
          ∃ k, v'._capacity = 8 * 2 ^ k ∧ v'._size ≤ v'._capacity ∧
            (k = 0 ∨ 4 * 2 ^ k < v'._size)) := by
  induction ys with
  | nil =>
    intro v xs h ha hi _
    exact ⟨v, rfl, by simpa using h, ha, hi⟩
  | cons y ys ih =>
    intro v xs h ha hi hn
    simp only [List.length_cons] at hn
    obtain ⟨v1, e1, h1, ha1, hc1⟩ := append_spec_cap h ha (by omega) y
    have hs1 : v1._size = v._size + 1 := by rw [h1.1, h.1]; simp
    have hi1 : (v1._capacity = 0 ∧ v1._size = 0) ∨
        ∃ k, v1._capacity = 8 * 2 ^ k ∧ v1._size ≤ v1._capacity ∧
          (k = 0 ∨ 4 * 2 ^ k < v1._size) := by
      right
      rcases hi with ⟨hc0, hs0⟩ | ⟨k, hk, hle, hq⟩
      · refine ⟨0, ?_, ?_, Or.inl rfl⟩
        · rw [hc1, if_pos (by omega), if_pos hc0]; rfl
        · rw [hc1, if_pos (by omega), if_pos hc0]; omega
      · have hpos : 0 < 2 ^ k := Nat.two_pow_pos _
        by_cases hfull : v._size = v._capacity
        · refine ⟨k + 1, ?_, ?_, Or.inr ?_⟩
          · rw [hc1, if_pos hfull, if_neg (by omega), hk, pow_succ]; ring
          · rw [hc1, if_pos hfull, if_neg (by omega)]; omega
          · rw [pow_succ]; omega
        · refine ⟨k, ?_, ?_, ?_⟩
          · rw [hc1, if_neg hfull, hk]
          · rw [hc1, if_neg hfull]; omega
          · rcases hq with hq | hq
            · exact Or.inl hq
            · exact Or.inr (by omega)
    obtain ⟨v2, e2, h2, ha2, hi2⟩ := ih h1 ha1 hi1 (by simp; omega)
    refine ⟨v2, ?_, by simpa using h2, ha2, hi2⟩
    simp only [appendAll, e1, bind, Except.bind]
    exact e2

/-- `popFirst()` calls in a row on a vector whose capacity is `8 * 2 ^ k`, at
least a quarter used unless it is 8: the elements go one by one from the front,
the capacity stays while a quarter of it is used and is halved by the call that
leaves less. -/
theorem popFirstTimes_spec (m : Nat) :
    ∀ {v : Vector α} {xs : List α}, Holds v xs → Alloc v → xs.length < 2 ^ 64 →
      (∃ k, v._capacity = 8 * 2 ^ k ∧ (k = 0 ∨ 2 * 2 ^ k ≤ v._size)) → m ≤ xs.length →
      ∃ v', popFirstTimes m v = .ok v' ∧ Holds v' (xs.drop m) ∧ Alloc v' ∧
        (∃ k, v'._capacity = 8 * 2 ^ k ∧ (k = 0 ∨ 2 * 2 ^ k ≤ v'._size)) ∧
        (v._capacity / 4 ≤ xs.length - m → v'._capacity = v._capacity) ∧
        (8 < v._capacity → xs.length - m + 1 = v._capacity / 4 →
          v'._capacity = v._capacity / 2) := by
  induction m with
  | zero =>
    intro v xs h ha _ hj _
    refine ⟨v, rfl, by simpa using h, ha, hj, fun _ => rfl, ?_⟩
    intro h8 hq
    obtain ⟨k, hk, hq2⟩ := hj
    have := h.1
    rcases hq2 with hq2 | hq2
    · subst hq2; simp at hk; omega
    · rw [hk] at hq; omega
  | succ m ih =>
    intro v xs h ha hn hj hm
    obtain ⟨x, ys, rfl⟩ : ∃ x ys, xs = x :: ys := by
      cases xs with
      | nil => simp at hm
      | cons x ys => exact ⟨x, ys, rfl⟩
    simp only [List.length_cons] at hn hm
    obtain ⟨v1, e1, h1, hc1, hal1⟩ := popFirst_spec h hn
    have hs : v._size = ys.length + 1 := by rw [h.1]; simp
    have hs1 : v1._size = ys.length := h1.1
    obtain ⟨k, hk, hq⟩ := hj
    have hpos : 0 < 2 ^ k := Nat.two_pow_pos _
    have hj1 : ∃ k, v1._capacity = 8 * 2 ^ k ∧ (k = 0 ∨ 2 * 2 ^ k ≤ v1._size) := by
      by_cases hcond : v._capacity > 8 ∧ ys.length < v._capacity / 4
      · rw [if_pos hcond] at hc1
        rcases hq with hq | hq
        · subst hq; simp at hk; omega
        · obtain ⟨j, rfl⟩ : ∃ j, k = j + 1 := ⟨k - 1, by
            rcases Nat.eq_zero_or_pos k with h0 | h0
            · subst h0; simp at hk; omega
            · omega⟩
          have hpj : 0 < 2 ^ j := Nat.two_pow_pos _
          rw [pow_succ] at hk hq
          exact ⟨j, by rw [hc1, hk]; omega, Or.inr (by omega)⟩
      · rw [if_neg hcond] at hc1
        refine ⟨k, by rw [hc1, hk], ?_⟩
        rcases hq with hq | hq
        · exact Or.inl hq
        · by_cases hk0 : k = 0
          · exact Or.inl hk0
          · right
            have h2k : 2 ≤ 2 ^ k := by
              obtain ⟨j, rfl⟩ : ∃ j, k = j + 1 := ⟨k - 1, by omega⟩
              have := Nat.two_pow_pos j
              rw [pow_succ]; omega
            rw [hk] at hcond
            have hcond2 : ¬ (8 * 2 ^ k > 8 ∧ ys.length < 8 * 2 ^ k / 4) := hcond
            by_contra hc
            exact hcond2 ⟨by omega, by omega⟩
    obtain ⟨v2, e2, h2, ha2, hj2, hkeep, hhalf⟩ := ih h1 (hal1 ha) (by omega) hj1 (by omega)
    refine ⟨v2, ?_, by simpa using h2, ha2, hj2, ?_, ?_⟩
    · simp only [popFirstTimes, e1, ok_bind]
      exact e2
    · intro hge
      simp only [List.length_cons] at hge
      have hno : ¬ (v._capacity > 8 ∧ ys.length < v._capacity / 4) := by
        intro hh; omega
      rw [if_neg hno] at hc1
      rw [hkeep (by rw [hc1]; omega), hc1]
    · intro h8 hq2
      simp only [List.length_cons] at hq2
      by_cases hm0 : m = 0
      · subst hm0
        have hyes : v._capacity > 8 ∧ ys.length < v._capacity / 4 := ⟨h8, by omega⟩
        rw [if_pos hyes] at hc1
        simp only [popFirstTimes] at e2
        cases e2
        exact hc1
      · have hno : ¬ (v._capacity > 8 ∧ ys.length < v._capacity / 4) := by
          intro hh; omega
        rw [if_neg hno] at hc1
        rw [hhalf (by rw [hc1]; exact h8) (by rw [hc1]; omega), hc1]

/-- `append` on a vector whose buffer either has `_capacity` slots or has room
for `N` elements in all, `_size` not exceeding `_capacity`. -/
theorem append_room {v : Vector α} {xs : List α} {N : Nat} (h : Holds v xs)
    (hr : Alloc v ∨ ∃ buf, v._array = some buf ∧ N ≤ buf.length ∧ v._size ≤ v._capacity)
    (hlt : xs.length < N) (hN : N ≤ 2 ^ 63) (x : α) :
    ∃ v', v.append x = .ok v' ∧ Holds v' (xs ++ [x]) ∧
      (Alloc v' ∨ ∃ buf, v'._array = some buf ∧ N ≤ buf.length ∧ v'._size ≤ v'._capacity) := by
  rcases hr with ha | ⟨buf, hb, hbl, hsc⟩
  · obtain ⟨v', e, h', ha'⟩ := append_spec h ha (by omega) x
    exact ⟨v', e, h', Or.inl ha'⟩
  · have hsz := h.1
    have hbuf := h.buf hb
    have hset : ∀ (b : Buffer α), xs.length < b.length →
        (∀ k, k < xs.length → b[k]? = some xs[k]?) →
        ∀ k, k < (xs ++ [x]).length → (b.set xs.length (some x))[k]? = some (xs ++ [x])[k]? := by
      intro b hbl2 hbk k hk2
      rw [List.getElem?_set]
      by_cases hk3 : xs.length = k
      · subst hk3; simp [hbl2]
      · have hk4 : k < xs.length := by simp at hk2; omega
        rw [if_neg hk3, hbk k hk4, List.getElem?_append_left hk4]
    by_cases hfull : v._size = v._capacity
    · by_cases hz : v._capacity = 0
      · have hx : xs.length = 0 := by omega
        refine ⟨⟨some ((newArray 8).set xs.length (some x)), 8, xs.length + 1⟩, ?_, ?_, ?_⟩
        · simp only [append, if_pos hfull, increaseCapacityBy, if_pos hz, ok_bind]
          simp only [hsz, wrSlot_some _ _ _ (show xs.length < (newArray 8 : Buffer α).length by
            simp [newArray, hx]), ok_bind, szAdd_of_lt (show xs.length + 1 < 2 ^ 64 by omega)]
        · refine Holds.of_buf rfl (by simp) (hset _ (by simp [newArray, hx]) ?_)
          intro k hk; omega
        · left; simp [Alloc, newArray]
      · obtain ⟨dst, e, hl, hk⟩ := changeCapacityLoop_spec buf xs.length (by omega) (by omega)
          (xs.length + 1) 0 (newArray (2 * v._capacity)) (by omega)
          (by simp [newArray]; omega) (by omega)
        have hdl : xs.length < dst.length := by rw [hl]; simp [newArray]; omega
        refine ⟨⟨some (dst.set xs.length (some x)), 2 * v._capacity, xs.length + 1⟩, ?_, ?_, ?_⟩
        · simp only [append, if_pos hfull, increaseCapacityBy, if_neg hz, changeCapacity, hb]
          simp only [hsz, szMul_two (show v._capacity < 2 ^ 63 by omega), e, ok_bind,
            wrSlot_some _ _ _ hdl, szAdd_of_lt (show xs.length + 1 < 2 ^ 64 by omega)]
        · refine Holds.of_buf rfl (by simp) (hset _ hdl ?_)
          intro k hk2
          rw [hk k, if_pos ⟨by omega, hk2⟩, hbuf k hk2]
        · left; simp [Alloc, hl, newArray]
    · refine ⟨⟨some (buf.set xs.length (some x)), v._capacity, xs.length + 1⟩, ?_, ?_, ?_⟩
      · simp only [append, if_neg hfull, ok_bind, hb]
        simp only [hsz, wrSlot_some _ _ _ (show xs.length < buf.length by omega), ok_bind,
          szAdd_of_lt (show xs.length + 1 < 2 ^ 64 by omega)]
      · exact Holds.of_buf rfl (by simp) (hset _ (by omega) hbuf)
      · right
        exact ⟨_, rfl, by simpa using hbl, by simp only; omega⟩

/-- The loop of the copy operations from position `k` on: the elements of
`other` from `k` on are appended to `v`. -/
theorem copyLoop_spec {other : Vector α} {xs : List α} (ho : Holds other xs)
    (hN : xs.length ≤ 2 ^ 63) :
    ∀ (fuel k : Nat) (v : Vector α), k ≤ xs.length → xs.length - k < fuel →
      Holds v (xs.take k) →
      (Alloc v ∨ ∃ buf, v._array = some buf ∧ xs.length ≤ buf.length ∧ v._size ≤ v._capacity) →
      ∃ v', copyLoop other fuel ⟨k, ⟨other._array.isSome, (k : Int)⟩⟩ v = .ok v' ∧
        Holds v' xs := by
  intro fuel
  induction fuel with
  | zero => intro k v _ hf; omega
  | succ fuel ih =>
    intro k v hk hf hv hr
    by_cases hkn : k = xs.length
    · refine ⟨v, ?_, by simpa [hkn] using hv⟩
      simp [copyLoop, eq_end_iff, ho.1, hkn]
    · have hlt : k < xs.length := by omega
      obtain ⟨obuf, hob⟩ := ho.array_some (by omega)
      have hx : xs[k]? = some xs[k] := List.getElem?_eq_getElem hlt
      have hrd := ho.2 k xs[k] hx
      have hlen : (xs.take k).length = k := by simp; omega
      obtain ⟨v1, e1, h1, hr1⟩ := append_room hv hr (by rw [hlen]; exact hlt) hN xs[k]
      have htk : xs.take k ++ [xs[k]] = xs.take (k + 1) := by
        rw [List.take_succ, hx]; rfl
      rw [htk] at h1
      obtain ⟨v2, e2, h2⟩ := ih (k + 1) v1 (by omega) (by omega) h1 hr1
      refine ⟨v2, ?_, h2⟩
      have hne : ¬ (k = other._size) := by rw [ho.1]; exact hkn
      have h1' : ¬ (k ≥ other._size) := by rw [ho.1]; omega
      have h2' : ¬ (k + 1 > other._size) := by rw [ho.1]; omega
      have hcast : ((k : Int) + 1) = ((k + 1 : Nat) : Int) := by push_cast; rfl
      simp only [copyLoop]
      rw [eq_end_iff]
      simp only [hne, decide_False, Bool.false_eq_true, if_false]
      rw [hob] at hrd
      have hderef : ConstIterator.deref ⟨k, ⟨true, (k : Int)⟩⟩ other = .ok ⟨true, (k : Int)⟩ := by
        simp [ConstIterator.deref, Ptr.isNull, getSize, h1']
      have hload : other.load ⟨true, (k : Int)⟩ = .ok xs[k] := by
        simp [load, hob, hrd]
      have hinc : ConstIterator.inc ⟨k, ⟨true, (k : Int)⟩⟩ other =
          .ok ⟨k + 1, ⟨true, ((k + 1 : Nat) : Int)⟩⟩ := by
        simp only [ConstIterator.inc, getSize, szAdd_of_lt (show k + 1 < 2 ^ 64 by omega),
          if_neg h2', hcast]
      simp only [hob, Option.isSome_some] at e2 ⊢
      simp only [hderef, ok_bind, hload, e1, hinc]
      exact e2

/-! ### Vector: size and capacity across the calls -/

theorem bind_ok_inv {β γ : Type} {x : Except Exn β} {f : β → Except Exn γ} {c : γ}
    (h : (x >>= f) = .ok c) : ∃ a, x = .ok a ∧ f a = .ok c := by
  cases x with
  | error e => cases h
  | ok a => exact ⟨a, rfl, h⟩

theorem wrSlot_inv {a : Option (Buffer α)} {i : Nat} {x : Option α} {r : Option (Buffer α)}
    (h : wrSlot a i x = .ok r) : ∃ buf, a = some buf ∧ i < buf.length ∧ r = some (buf.set i x) := by
  cases a with
  | none => cases h
  | some buf =>
    simp only [wrSlot] at h
    by_cases hi : i < buf.length
    · rw [if_pos hi] at h
      cases h
      exact ⟨buf, rfl, hi, rfl⟩
    · rw [if_neg hi] at h
      cases h

/-- The loop of `changeCapacity` leaves the new buffer with the slots it had. -/
theorem changeCapacityLoop_length (src : Option (Buffer α)) (size : Nat) :
    ∀ (fuel i : Nat) (dst : Buffer α) (r : Option (Buffer α)),
      changeCapacityLoop src size fuel i (some dst) = .ok r →
      ∃ d, r = some d ∧ d.length = dst.length := by
  intro fuel
  induction fuel with
  | zero => intro i dst r h; cases h
  | succ fuel ih =>
    intro i dst r h
    simp only [changeCapacityLoop] at h
    by_cases hi : i < size
    · rw [if_pos hi] at h
      obtain ⟨x, -, h⟩ := bind_ok_inv h
      obtain ⟨a, ha, h⟩ := bind_ok_inv h
      obtain ⟨buf, hb, -, rfl⟩ := wrSlot_inv ha
      cases hb
      obtain ⟨d, hd, hl⟩ := ih _ _ _ h
      exact ⟨d, hd, by simpa using hl⟩
    · rw [if_neg hi] at h
      cases h
      exact ⟨dst, rfl, rfl⟩

theorem changeCapacity_inv {v v' : Vector α} (h : changeCapacity v = .ok v') :
    v'._size = v._size ∧ v'._capacity = v._capacity ∧
      ∃ d, v'._array = some d ∧ d.length = v._capacity := by
  unfold changeCapacity at h
  obtain ⟨arr, ha, h⟩ := bind_ok_inv h
  cases h
  obtain ⟨d, hd, hl⟩ := changeCapacityLoop_length _ _ _ _ _ _ ha
  exact ⟨rfl, rfl, d, hd, by simpa [newArray] using hl⟩

/-- The capacity after the growth test of `append`, `prepend` and `insert`. -/
theorem grow_inv {v v1 : Vector α}
    (h : (if v._size = v._capacity then increaseCapacityBy v 2 else .ok v) = .ok v1) :
    v1._size = v._size ∧
      v1._capacity = (if v._size = v._capacity then
        (if v._capacity = 0 then 8 else szMul v._capacity (szOfInt 2)) else v._capacity) := by
  by_cases hf : v._size = v._capacity
  · rw [if_pos hf] at h
    rw [if_pos hf]
    unfold increaseCapacityBy at h
    by_cases hz : v._capacity = 0
    · rw [if_pos hz] at h
      cases h
      exact ⟨rfl, by rw [if_pos hz]⟩
    · rw [if_neg hz] at h
      obtain ⟨h1, h2, -⟩ := changeCapacity_inv h
      exact ⟨h1, by rw [h2, if_neg hz]⟩
  · rw [if_neg hf] at h
    cases h
    exact ⟨rfl, by rw [if_neg hf]⟩

theorem shrink_inv {v v' : Vector α} (h : decreaseCapacityBy v 2 = .ok v') :
    v'._size = v._size ∧ v'._capacity = v._capacity / 2 ∧
      ∃ d, v'._array = some d ∧ d.length = v._capacity / 2 := by
  unfold decreaseCapacityBy at h
  rw [szOfInt_two] at h
  exact changeCapacity_inv h

theorem append_inv {v v' : Vector α} {x : α} (h : v.append x = .ok v') :
    v'._size = szAdd v._size 1 ∧
      v'._capacity = (if v._size = v._capacity then
        (if v._capacity = 0 then 8 else szMul v._capacity (szOfInt 2)) else v._capacity) := by
  unfold append at h
  obtain ⟨v1, h1, h⟩ := bind_ok_inv h
  obtain ⟨arr, -, h⟩ := bind_ok_inv h
  cases h
  obtain ⟨e1, e2⟩ := grow_inv h1
  exact ⟨by simp only [e1], e2⟩

theorem prepend_inv {v v' : Vector α} {x : Item α} (h : v.prepend x = .ok v') :
    v'._size = szAdd v._size 1 ∧
      v'._capacity = (if v._size = v._capacity then
        (if v._capacity = 0 then 8 else szMul v._capacity (szOfInt 2)) else v._capacity) := by
  unfold prepend at h
  obtain ⟨v1, h1, h⟩ := bind_ok_inv h
  obtain ⟨arr, -, h⟩ := bind_ok_inv h
  obtain ⟨y, -, h⟩ := bind_ok_inv h
  obtain ⟨arr2, -, h⟩ := bind_ok_inv h
  cases h
  obtain ⟨e1, e2⟩ := grow_inv h1
  exact ⟨by simp only [e1], e2⟩

theorem insert_inv {v v' : Vector α} {pos : ConstIterator} {x : Item α}
    (h : v.insert pos x = .ok v') :
    v'._size = szAdd v._size 1 ∧
      v'._capacity = (if v._size = v._capacity then
        (if v._capacity = 0 then 8 else szMul v._capacity (szOfInt 2)) else v._capacity) := by
  unfold insert at h
  obtain ⟨index, -, h⟩ := bind_ok_inv h
  obtain ⟨v1, h1, h⟩ := bind_ok_inv h
  obtain ⟨arr, -, h⟩ := bind_ok_inv h
  obtain ⟨y, -, h⟩ := bind_ok_inv h
  obtain ⟨arr2, -, h⟩ := bind_ok_inv h
  cases h
  obtain ⟨e1, e2⟩ := grow_inv h1
  exact ⟨by simp only [e1], e2⟩

/-- The shrink test of the removals, on a vector of size `s` and capacity `c`:
the vector left has the size `s`, and either the test held and it has `c / 2`
slots, or it did not and the capacity is `c`. -/
theorem shrink_test_inv {w v' : Vector α}
    (h : (if w._capacity > _defaultCapacity ∧ w._size < w._capacity / 4
      then decreaseCapacityBy w 2 else .ok w) = .ok v') :
    v'._size = w._size ∧
      ((8 < w._capacity ∧ w._size < w._capacity / 4 ∧ v'._capacity = w._capacity / 2 ∧
          ∃ d, v'._array = some d ∧ d.length = w._capacity / 2) ∨
        (¬ (8 < w._capacity ∧ w._size < w._capacity / 4) ∧ v' = w)) := by
  by_cases hc : w._capacity > _defaultCapacity ∧ w._size < w._capacity / 4
  · rw [if_pos hc] at h
    obtain ⟨e1, e2, e3⟩ := shrink_inv h
    exact ⟨e1, Or.inl ⟨hc.1, hc.2, e2, e3⟩⟩
  · rw [if_neg hc] at h
    cases h
    exact ⟨rfl, Or.inr ⟨hc, rfl⟩⟩

theorem popFirst_inv {v v' : Vector α} {x : α} (h : v.popFirst = .ok (x, v')) :
    v._size ≠ 0 ∧ v'._size = szSub v._size 1 ∧
      ((8 < v._capacity ∧ szSub v._size 1 < v._capacity / 4 ∧ v'._capacity = v._capacity / 2 ∧
          ∃ d, v'._array = some d ∧ d.length = v._capacity / 2) ∨
        (¬ (8 < v._capacity ∧ szSub v._size 1 < v._capacity / 4) ∧
          v'._capacity = v._capacity)) := by
  unfold popFirst at h
  by_cases hz : v._size = 0
  · rw [if_pos hz] at h; cases h
  · rw [if_neg hz] at h
    obtain ⟨temp, -, h⟩ := bind_ok_inv h
    obtain ⟨arr, -, h⟩ := bind_ok_inv h
    obtain ⟨w, hw, h⟩ := bind_ok_inv h
    cases h
    obtain ⟨e1, e2⟩ := shrink_test_inv hw
    refine ⟨hz, e1, ?_⟩
    rcases e2 with ⟨a, b, c, d⟩ | ⟨a, b⟩
    · exact Or.inl ⟨a, b, c, d⟩
    · exact Or.inr ⟨a, by rw [b]⟩

theorem popLast_inv {v v' : Vector α} {x : α} (h : v.popLast = .ok (x, v')) :
    v._size ≠ 0 ∧ v'._size = szSub v._size 1 ∧
      ((8 < v._capacity ∧ v._size < v._capacity / 4 ∧ v'._capacity = v._capacity / 2 ∧
          ∃ d, v'._array = some d ∧ d.length = v._capacity / 2) ∨
        (¬ (8 < v._capacity ∧ v._size < v._capacity / 4) ∧ v'._capacity = v._capacity)) := by
  unfold popLast at h
  by_cases hz : v._size = 0
  · rw [if_pos hz] at h; cases h
  · rw [if_neg hz] at h
    obtain ⟨w, hw, h⟩ := bind_ok_inv h
    obtain ⟨y, -, h⟩ := bind_ok_inv h
    cases h
    obtain ⟨e1, e2⟩ := shrink_test_inv hw
    refine ⟨hz, by simp only [e1], ?_⟩
    rcases e2 with ⟨a, b, c, d⟩ | ⟨a, b⟩
    · exact Or.inl ⟨a, b, c, d⟩
    · exact Or.inr ⟨a, by rw [b]⟩

theorem erase_inv {v v' : Vector α} {pos : ConstIterator} (h : v.erase pos = .ok v') :
    v._size ≠ 0 ∧ v'._size = szSub v._size 1 ∧
      ((8 < v._capacity ∧ szSub v._size 1 < v._capacity / 4 ∧ v'._capacity = v._capacity / 2 ∧
          ∃ d, v'._array = some d ∧ d.length = v._capacity / 2) ∨
        (¬ (8 < v._capacity ∧ szSub v._size 1 < v._capacity / 4) ∧
          v'._capacity = v._capacity)) := by
  unfold erase at h
  by_cases hz : v._size = 0
  · rw [if_pos hz] at h; cases h
  · rw [if_neg hz] at h
    obtain ⟨index, -, h⟩ := bind_ok_inv h
    obtain ⟨arr, -, h⟩ := bind_ok_inv h
    have h2 : (if (⟨arr, v._capacity, szSub v._size 1⟩ : Vector α)._capacity > _defaultCapacity ∧
        (⟨arr, v._capacity, szSub v._size 1⟩ : Vector α)._size <
          (⟨arr, v._capacity, szSub v._size 1⟩ : Vector α)._capacity / 4
        then decreaseCapacityBy ⟨arr, v._capacity, szSub v._size 1⟩ 2
        else .ok ⟨arr, v._capacity, szSub v._size 1⟩) = .ok v' := by
      by_cases hc : szSub v._size 1 < v._capacity / 4 ∧ v._capacity > _defaultCapacity
      · rw [if_pos ⟨hc.2, hc.1⟩]
        simpa only [if_pos hc] using h
      · rw [if_neg (fun hh => hc ⟨hh.2, hh.1⟩)]
        simpa only [if_neg hc] using h
    obtain ⟨e1, e2⟩ := shrink_test_inv h2
    refine ⟨hz, e1, ?_⟩
    rcases e2 with ⟨a, b, c, d⟩ | ⟨a, b⟩
    · exact Or.inl ⟨a, b, c, d⟩
    · exact Or.inr ⟨a, by rw [b]⟩

theorem eraseRange_inv {v v' : Vector α} {first last : ConstIterator}
    (h : v.eraseRange first last = .ok v') (hs : v._size < 2 ^ 64) :
    v'._size ≤ v._size ∧ v'._capacity = v._capacity := by
  unfold eraseRange at h
  by_cases he : first.eq last = true
  · rw [if_pos he] at h
    cases h
    exact ⟨le_refl _, rfl⟩
  · rw [if_neg he] at h
    obtain ⟨index, -, h⟩ := bind_ok_inv h
    obtain ⟨n, -, h⟩ := bind_ok_inv h
    by_cases hlt : v._size < n
    · rw [if_pos hlt] at h; cases h
    · rw [if_neg hlt] at h
      obtain ⟨arr, -, h⟩ := bind_ok_inv h
      cases h
      refine ⟨?_, rfl⟩
      show szSub v._size n ≤ v._size
      rw [szSub_of_le (by omega) hs]
      omega

/-- A call that returns keeps the size within the capacity, and adds at most
one element. -/
theorem Call.run_inv {c : Call α} {v v' : Vector α} (h : c.run v = .ok v')
    (hi : v._size ≤ v._capacity) (hs : v._size < 2 ^ 63) :
    v'._size ≤ v'._capacity ∧ v'._size ≤ v._size + 1 := by
  have hadd : szAdd v._size 1 = v._size + 1 := szAdd_of_lt (by omega)
  have hsub : v._size ≠ 0 → szSub v._size 1 = v._size - 1 := fun hz =>
    szSub_of_le (by omega) (by omega)
  have hgrow : ∀ w : Vector α, w._size = szAdd v._size 1 →
      w._capacity = (if v._size = v._capacity then
        (if v._capacity = 0 then 8 else szMul v._capacity (szOfInt 2)) else v._capacity) →
      w._size ≤ w._capacity ∧ w._size ≤ v._size + 1 := by
    intro w e1 e2
    rw [hadd] at e1
    by_cases hf : v._size = v._capacity
    · rw [if_pos hf] at e2
      by_cases hz : v._capacity = 0
      · rw [if_pos hz] at e2; omega
      · rw [if_neg hz, szMul_two (by omega)] at e2; omega
    · rw [if_neg hf] at e2; omega
  have hshrink : ∀ (w : Vector α) (s : Nat), w._size = v._size - 1 → s ≤ v._size →
      v._size - 1 ≤ s →
      ((8 < v._capacity ∧ s < v._capacity / 4 ∧ w._capacity = v._capacity / 2 ∧
          ∃ d, w._array = some d ∧ d.length = v._capacity / 2) ∨
        (¬ (8 < v._capacity ∧ s < v._capacity / 4) ∧ w._capacity = v._capacity)) →
      w._size ≤ w._capacity ∧ w._size ≤ v._size + 1 := by
    intro w s e1 hs1 hs2 e2
    rcases e2 with ⟨-, b, c, -⟩ | ⟨-, b⟩
    · omega
    · omega
  cases c with
  | append x =>
    obtain ⟨e1, e2⟩ := append_inv (show v.append x = .ok v' from h)
    exact hgrow v' e1 e2
  | prepend x =>
    obtain ⟨e1, e2⟩ := prepend_inv (show v.prepend x = .ok v' from h)
    exact hgrow v' e1 e2
  | insert pos x =>
    obtain ⟨e1, e2⟩ := insert_inv (show v.insert pos x = .ok v' from h)
    exact hgrow v' e1 e2
  | popFirst =>
    obtain ⟨⟨x, w⟩, hp, h2⟩ := bind_ok_inv (show (v.popFirst >>= fun r => .ok r.2) = .ok v' from h)
    cases h2
    obtain ⟨hz, e1, e2⟩ := popFirst_inv hp
    rw [hsub hz] at e1 e2
    exact hshrink _ _ e1 (by omega) (le_refl _) e2
  | popLast =>
    obtain ⟨⟨x, w⟩, hp, h2⟩ := bind_ok_inv (show (v.popLast >>= fun r => .ok r.2) = .ok v' from h)
    cases h2
    obtain ⟨hz, e1, e2⟩ := popLast_inv hp
    rw [hsub hz] at e1
    exact hshrink _ _ e1 (le_refl _) (by omega) e2
  | erase pos =>
    obtain ⟨hz, e1, e2⟩ := erase_inv (show v.erase pos = .ok v' from h)
    rw [hsub hz] at e1 e2
    exact hshrink _ _ e1 (by omega) (le_refl _) e2
  | eraseRange first last =>
    obtain ⟨e1, e2⟩ := eraseRange_inv (show v.eraseRange first last = .ok v' from h) (by omega)
    omega

/-- A sequence of calls that all return keeps the size within the capacity. -/
theorem runCalls_inv (calls : List (Call α)) :
    ∀ {v v' : Vector α}, runCalls calls v = .ok v' → v._size ≤ v._capacity →
      v._size + calls.length < 2 ^ 63 → v'._size ≤ v'._capacity := by
  induction calls with
  | nil =>
    intro v v' h hi _
    cases h
    exact hi
  | cons c cs ih =>
    intro v v' h hi hn
    simp only [List.length_cons] at hn
    obtain ⟨v1, h1, h2⟩ := bind_ok_inv (show (c.run v >>= fun w => runCalls cs w) = .ok v' from h)
    obtain ⟨e1, e2⟩ := Call.run_inv h1 hi (by omega)
    exact ih h2 e1 (by omega)

/-- Appends that find room leave the capacity as it is. -/
theorem appendAll_room (ys : List α) :
    ∀ {v : Vector α} {xs : List α}, Holds v xs → Alloc v → xs.length + ys.length ≤ v._capacity →
      xs.length + ys.length ≤ 2 ^ 63 →
      ∃ v', appendAll v ys = .ok v' ∧ Holds v' (xs ++ ys) ∧ Alloc v' ∧
        v'._capacity = v._capacity := by
  induction ys with
  | nil =>
    intro v xs h ha _ _
    exact ⟨v, rfl, by simpa using h, ha, rfl⟩
  | cons y ys ih =>
    intro v xs h ha hc hn
    simp only [List.length_cons] at hc hn
    obtain ⟨v1, e1, h1, ha1, hc1⟩ := append_spec_cap h ha (by omega) y
    rw [if_neg (by rw [h.1]; omega)] at hc1
    obtain ⟨v2, e2, h2, ha2, hc2⟩ := ih h1 ha1 (by rw [hc1]; simp; omega) (by simp; omega)
    refine ⟨v2, ?_, by simpa using h2, ha2, by rw [hc2, hc1]⟩
    simp only [appendAll, e1, ok_bind, e2]

/-- The initializer-list constructor: the elements of the list, in a buffer of
as many slots. -/
theorem initList_spec (l : List α) (hn : l.length ≤ 2 ^ 63) :
    ∃ v, initList l = .ok v ∧ Holds v l ∧ Alloc v ∧ v._capacity = l.length := by
  obtain ⟨v, e, h, ha, hc⟩ := @appendAll_room α l ⟨some (newArray l.length), l.length, 0⟩ []
    ⟨rfl, fun k x hx => by simp at hx⟩ (by simp [Alloc, newArray]) (by simp) (by simpa using hn)
  exact ⟨v, e, by simpa using h, ha, hc⟩

/-! ### Vector: a range of `2 ^ 31` elements -/

/-- The range erase of the first `2 ^ 31` elements of a vector of `2 ^ 31 + 1`
elements in `2 ^ 32` slots: the count reaches `moveElementsLeft` as the `int`
`-2 ^ 31`, and the first write of its loop goes to the slot `2 ^ 32`, behind the
buffer. -/
theorem eraseRange_int_jump {v : Vector α} {xs : List α} {buf : Buffer α} (h : Holds v xs)
    (hb : v._array = some buf) (j : Nat) (hj : j = 2 ^ 31) (hl : buf.length = 2 * j)
    (hn : xs.length = j + 1) :
    v.eraseRange ⟨0, ⟨v._array.isSome, ((0 : Nat) : Int)⟩⟩ ⟨j, ⟨v._array.isSome, (j : Int)⟩⟩ =
      .error .undefined := by
  have hsz := h.1
  have hidx := indexOf_begin_add hb 0 (by omega) (by omega)
  have hcount : (if ConstIterator.eq ⟨j, ⟨v._array.isSome, (j : Int)⟩⟩ v.end_ then
      (.ok (szSub v._size 0) : Except Exn Nat)
      else ConstIterator.deref ⟨j, ⟨v._array.isSome, (j : Int)⟩⟩ v >>= fun p =>
        ConstIterator.deref ⟨0, ⟨v._array.isSome, ((0 : Nat) : Int)⟩⟩ v >>= fun q =>
          p.diff q >>= fun d => .ok (szOfInt d)) = .ok j := by
    rw [eq_end_iff]
    have hjn : ¬ j = v._size := by omega
    have h1 : ¬ (j ≥ v._size) := by omega
    have h2 : ¬ (0 ≥ v._size) := by omega
    simp only [hjn, decide_False, Bool.false_eq_true, if_false, ConstIterator.deref, hb,
      Option.isSome_some, Ptr.isNull, getSize, Ptr.diff, if_neg h1, if_neg h2, bind,
      Except.bind]
    simp [szOfInt_natCast (show j < 2 ^ 64 by omega)]
  have hne : ¬ (v._size < j) := by omega
  have hz : ¬ (v._size = 0) := by omega
  have h0j : ¬ (0 = j) := by omega
  have hfrm : szAdd 0 j = j := by rw [szAdd_of_lt (by omega)]; omega
  have hlast : szSub v._size 1 = j := by rw [szSub_of_le (by omega) (by omega)]; omega
  have hjump : szSub j (szOfInt (intOfSz j)) = 2 * j := by
    subst hj; decide
  obtain ⟨s, hs⟩ : ∃ s, buf[j]? = some s := by
    have hjl : j < buf.length := by omega
    exact ⟨buf[j], List.getElem?_eq_getElem hjl⟩
  simp only [eraseRange, eq_iterators_iff, h0j, decide_False, Bool.false_eq_true, if_false,
    hidx, ok_bind, hcount, if_neg hne]
  simp only [moveElementsLeft, if_neg hz, hfrm]
  rw [moveElementsLeftLoop]
  simp only [hlast, le_refl, if_true, hb, rdSlot, hs, ok_bind, hjump, wrSlot,
    if_neg (show ¬ 2 * j < buf.length by omega)]
  rfl

end Vector

namespace LinkedList
variable {α : Type}

/-! ### LinkedList: positions, the store, the ring -/

theorem nodeAt_of_lt {g : Nat} {addrs : List Nat} {k : Nat} (hk : k < addrs.length) :
    addrs[k]? = some (nodeAt g addrs k) := by
  simp [nodeAt, List.getElem?_eq_getElem hk]

theorem nodeAt_of_le {g : Nat} {addrs : List Nat} {k : Nat} (hk : addrs.length ≤ k) :
    nodeAt g addrs k = g := by
  simp [nodeAt, List.getElem?_eq_none hk]

theorem nodeAt_mem {g : Nat} {addrs : List Nat} {k : Nat} (hk : k < addrs.length) :
    nodeAt g addrs k ∈ addrs :=
  List.getElem?_mem (nodeAt_of_lt hk)

theorem nodeAt_inj {g : Nat} {addrs : List Nat} (hnd : (g :: addrs).Nodup) {k m : Nat}
    (hk : k ≤ addrs.length) (hm : m ≤ addrs.length) (e : nodeAt g addrs k = nodeAt g addrs m) :
    k = m := by
  rw [List.nodup_cons] at hnd
  by_cases h1 : k < addrs.length
  · by_cases h2 : m < addrs.length
    · have e1 := nodeAt_of_lt (g := g) h1
      have e2 := nodeAt_of_lt (g := g) h2
      rw [e, List.getElem?_eq_getElem h1] at e1
      rw [List.getElem?_eq_getElem h2] at e2
      have : addrs[k] = addrs[m] := by
        rw [Option.some.injEq] at e1 e2; rw [e1, e2]
      exact (hnd.2.getElem_inj_iff).1 this
    · rw [nodeAt_of_le (by omega : addrs.length ≤ m)] at e
      exact absurd (e ▸ nodeAt_mem h1) hnd.1
  · by_cases h2 : m < addrs.length
    · rw [nodeAt_of_le (by omega : addrs.length ≤ k)] at e
      exact absurd (e ▸ nodeAt_mem h2) hnd.1
    · omega

theorem nodeAt_take_drop (g : Nat) (addrs : List Nat) (i j : Nat) (hi : i ≤ j)
    (hj : j ≤ addrs.length) (k : Nat) :
    nodeAt g (addrs.take i ++ addrs.drop j) k =
      if k < i then nodeAt g addrs k else nodeAt g addrs (k + (j - i)) := by
  unfold nodeAt
  rw [Vector.getElem?_take_drop addrs i j (by omega) k]
  by_cases h : k < i
  · simp [h]
  · simp only [h, if_false]
    congr 2; omega


theorem read_some {h : Heap α} {a : Nat} {n : Node α} (hc : h.cell a = some n) :
    h.read (some a) = .ok n := by
  simp [Heap.read, hc]

theorem nextOf_eq {h : Heap α} {a : Nat} {q : Option Nat} (e : h.nextOf a = some q) :
    ∃ n, h.cell a = some n ∧ n.next = q := by
  simpa [Heap.nextOf] using e

theorem prevOf_eq {h : Heap α} {a : Nat} {q : Option Nat} (e : h.prevOf a = some q) :
    ∃ n, h.cell a = some n ∧ n.prev = q := by
  simpa [Heap.prevOf] using e

theorem elemOf_eq {h : Heap α} {a : Nat} {q : Option α} (e : h.elemOf a = some q) :
    ∃ n, h.cell a = some n ∧ n.elem = q := by
  simpa [Heap.elemOf] using e

/-- The store after `a->connectWith(b)`. -/
theorem connectWith_spec {h : Heap α} {a b : Nat} {na nb : Node α} (ha : h.cell a = some na)
    (hb : h.cell b = some nb) :
    ∃ h', Node.connectWith h (some a) (some b) = .ok h' ∧ h'.fresh = h.fresh ∧
      ∀ x, h'.cell x = (h.cell x).map fun n =>
        ⟨n.elem, if x = a then some b else n.next, if x = b then some a else n.prev⟩ := by
  by_cases hab : b = a
  · subst hab
    simp only [Node.connectWith, Heap.setNext, Heap.setPrev, Heap.read, Heap.write, ha, bind,
      Except.bind, if_true]
    refine ⟨_, rfl, rfl, ?_⟩
    intro x
    by_cases hx : x = b
    · subst hx; simp [ha]
    · simp [hx]
  · simp only [Node.connectWith, Heap.setNext, Heap.setPrev, Heap.read, Heap.write, ha, hb, bind,
      Except.bind, if_neg hab]
    refine ⟨_, rfl, rfl, ?_⟩
    intro x
    by_cases hx : x = b
    · subst hx; simp [hb, hab]
    · by_cases hx2 : x = a
      · subst hx2; simp [ha, hx]
      · simp [hx, hx2]

/-- The loop of `deleteNodesFrom` over the nodes `B`, linked by `next` and
followed by `last`: it deletes them all and counts them. -/
theorem deleteNodesFromLoop_spec (last : Nat) :
    ∀ (B : List Nat) (fuel : Nat) (h : Heap α) (c : Int), B.Nodup → last ∉ B →
      (∀ k, k < B.length → h.nextOf (nodeAt last B k) = some (some (nodeAt last B (k + 1)))) →
      B.length < fuel → c + B.length ≤ INT_MAX →
      ∃ h', deleteNodesFromLoop (some last) fuel h (some (nodeAt last B 0)) c =
          .ok (h', c + B.length) ∧ h'.fresh = h.fresh ∧
        ∀ x, h'.cell x = if x ∈ B then none else h.cell x := by
  intro B
  induction B with
  | nil =>
    intro fuel h c _ _ _ hf _
    obtain ⟨fuel, rfl⟩ : ∃ f, fuel = f + 1 := ⟨fuel - 1, by simp at hf; omega⟩
    refine ⟨h, ?_, rfl, fun x => by simp⟩
    simp [deleteNodesFromLoop, nodeAt]
  | cons b rest ih =>
    intro fuel h c hnd hlast hnext hf hc
    obtain ⟨fuel, rfl⟩ : ∃ f, fuel = f + 1 := ⟨fuel - 1, by simp at hf; omega⟩
    rw [List.nodup_cons] at hnd
    simp only [List.mem_cons, not_or] at hlast
    simp only [List.length_cons] at hf hc hnext
    have h0 := hnext 0 (by omega)
    have e0 : nodeAt last (b :: rest) 0 = b := by simp [nodeAt]
    have e1 : ∀ k, nodeAt last (b :: rest) (k + 1) = nodeAt last rest k := by
      intro k; simp [nodeAt]
    rw [e0, e1] at h0
    obtain ⟨nb, hb, hbn⟩ := nextOf_eq h0
    have hc1 : c ≠ INT_MAX := by
      intro hh; rw [hh] at hc; push_cast at hc; omega
    -- the store without `b`
    obtain ⟨h', e, hfr, hcell⟩ := ih fuel
      (⟨fun x => if x = b then none else h.cell x, h.fresh⟩ : Heap α) (c + 1) hnd.2 hlast.2
      (by
        intro k hk
        have hk1 := hnext (k + 1) (by omega)
        rw [e1, e1] at hk1
        have hne : nodeAt last rest k ≠ b := by
          intro hh; exact hnd.1 (hh ▸ nodeAt_mem hk)
        simpa [Heap.nextOf, hne] using hk1)
      (by omega) (by push_cast at hc ⊢; omega)
    refine ⟨h', ?_, hfr, ?_⟩
    · have hcond : (some b).isSome = true ∧ some b ≠ some last := by
        refine ⟨rfl, ?_⟩
        intro hh; exact hlast.1 (Option.some.inj hh).symm
      simp only [deleteNodesFromLoop, e0, if_pos hcond, read_some hb, Heap.delete, hb, hbn,
        if_neg hc1, bind, Except.bind]
      rw [e]; simp only [List.length_cons]; push_cast; congr 2; ring
    · intro x
      rw [hcell x]
      by_cases hx : x = b
      · subst hx; simp [hnd.1]
      · simp [hx]


theorem length_le_of_nodup_of_lt {l : List Nat} {N : Nat} (hnd : l.Nodup)
    (hlt : ∀ a ∈ l, a < N) : l.length ≤ N := by
  have h1 : l.toFinset ⊆ Finset.range N := by
    intro a ha
    rw [List.mem_toFinset] at ha
    exact Finset.mem_range.2 (hlt a ha)
  have h2 := Finset.card_le_card h1
  rwa [List.toFinset_card_of_nodup hnd, Finset.card_range] at h2

/-- The node before position `k`: the guard before position zero. -/
theorem Ring.linked_at {h : Heap α} {g : Nat} {addrs : List Nat} {xs : List α}
    (r : Ring h g addrs xs) (k : Nat) (hk : k ≤ addrs.length) :
    Linked h (if k = 0 then g else nodeAt g addrs (k - 1)) (nodeAt g addrs k) := by
  by_cases h0 : k = 0
  · subst h0; simpa using r.2.2.1
  · rw [if_neg h0]
    have := r.2.2.2.1 (k - 1) (by omega)
    rwa [show k - 1 + 1 = k by omega] at this

theorem Ring.next_guard {h : Heap α} {g : Nat} {addrs : List Nat} {xs : List α}
    (r : Ring h g addrs xs) : h.nextOf g = some (some (nodeAt g addrs 0)) :=
  r.2.2.1.1

theorem Ring.next_at {h : Heap α} {g : Nat} {addrs : List Nat} {xs : List α}
    (r : Ring h g addrs xs) (k : Nat) (hk : k < addrs.length) :
    h.nextOf (nodeAt g addrs k) = some (some (nodeAt g addrs (k + 1))) :=
  (r.2.2.2.1 k hk).1

theorem Ring.prev_at {h : Heap α} {g : Nat} {addrs : List Nat} {xs : List α}
    (r : Ring h g addrs xs) (k : Nat) (hk : k ≤ addrs.length) :
    h.prevOf (nodeAt g addrs k) =
      some (some (if k = 0 then g else nodeAt g addrs (k - 1))) :=
  (r.linked_at k hk).2

theorem Ring.live_at {h : Heap α} {g : Nat} {addrs : List Nat} {xs : List α}
    (r : Ring h g addrs xs) (k : Nat) : ∃ n, h.cell (nodeAt g addrs k) = some n := by
  by_cases hk : k ≤ addrs.length
  · obtain ⟨n, hn, -⟩ := prevOf_eq (r.prev_at k hk)
    exact ⟨n, hn⟩
  · rw [nodeAt_of_le (by omega)]
    obtain ⟨n, hn, -⟩ := nextOf_eq r.next_guard
    exact ⟨n, hn⟩

theorem Ring.length_le_fresh {h : Heap α} {g : Nat} {addrs : List Nat} {xs : List α}
    (r : Ring h g addrs xs) (hw : h.WF) : addrs.length ≤ h.fresh := by
  refine length_le_of_nodup_of_lt (List.nodup_cons.1 r.1).2 fun a ha => ?_
  obtain ⟨k, hk⟩ := List.mem_iff_getElem?.1 ha
  have hk2 : k < addrs.length := by
    by_contra hc
    rw [List.getElem?_eq_none (by omega)] at hk
    cases hk
  have e : nodeAt g addrs k = a := by
    have := nodeAt_of_lt (g := g) hk2
    rw [hk] at this
    exact (Option.some.inj this).symm
  obtain ⟨n, hn⟩ := r.live_at k
  rw [e] at hn
  by_contra hc
  rw [hw a (by omega)] at hn
  cases hn

theorem take_append_drop_sublist (l : List Nat) (i j : Nat) (hij : i ≤ j) :
    (l.take i ++ l.drop j).Sublist l := by
  have h1 : (l.drop j).Sublist (l.drop i) := by
    have : l.drop j = (l.drop i).drop (j - i) := by
      rw [List.drop_drop]; congr 1; omega
    rw [this]; exact List.drop_sublist _ _
  have h2 := List.Sublist.append (List.Sublist.refl (l.take i)) h1
  rwa [List.take_append_drop] at h2

/-- The range erase of a list: the nodes at positions `i` up to `j` leave the ring. -/
theorem list_eraseRange_spec {h : Heap α} {l : LinkedList α} {g : Nat} {addrs : List Nat}
    {xs : List α} (hl : Holds h l g addrs xs) (i j : Nat) (hij : i ≤ j) (hj : j ≤ addrs.length)
    (hc : ((j - i : Nat) : Int) ≤ INT_MAX) (hn : xs.length < 2 ^ 64) :
    ∃ h' l', eraseRange h l ⟨some (nodeAt g addrs i), none⟩ ⟨some (nodeAt g addrs j), none⟩ =
        .ok (h', l') ∧
      Holds h' l' g (addrs.take i ++ addrs.drop j) (xs.take i ++ xs.drop j) ∧
      (i = j → h' = h ∧ l' = l) := by
  obtain ⟨hw, hg, hs, r⟩ := hl
  have hnd := r.1
  have hlen := r.2.1
  have hinj : ∀ {k m : Nat}, k ≤ addrs.length → m ≤ addrs.length →
      nodeAt g addrs k = nodeAt g addrs m → k = m := fun hk hm e => nodeAt_inj hnd hk hm e
  have hgn : nodeAt g addrs addrs.length = g := nodeAt_of_le (le_refl _)
  -- the node before the first erased one
  obtain ⟨pa, hpa⟩ : ∃ pa, pa = if i = 0 then g else nodeAt g addrs (i - 1) := ⟨_, rfl⟩
  have hlink : Linked h pa (nodeAt g addrs i) := hpa ▸ r.linked_at i (by omega)
  have hpa_eq : ∀ m, m ≤ addrs.length → nodeAt g addrs m = pa → (i = 0 ∧ m = addrs.length) ∨
      (0 < i ∧ m = i - 1) := by
    intro m hm e
    by_cases h0 : i = 0
    · have e2 : nodeAt g addrs m = nodeAt g addrs addrs.length := by
        rw [hgn, e, hpa, if_pos h0]
      exact Or.inl ⟨h0, hinj hm (le_refl _) e2⟩
    · rw [hpa, if_neg h0] at e
      exact Or.inr ⟨by omega, hinj hm (by omega) e⟩
  obtain ⟨nf, hnf, hnfp⟩ := prevOf_eq hlink.2
  obtain ⟨npa, hnpa, hnpan⟩ := nextOf_eq hlink.1
  obtain ⟨nl, hnl⟩ := r.live_at j
  obtain ⟨h1, e1, hfr1, hcell1⟩ := connectWith_spec hnpa hnl
  -- the erased nodes
  obtain ⟨B, hBdef⟩ : ∃ B, B = (addrs.drop i).take (j - i) := ⟨_, rfl⟩
  have hBlen : B.length = j - i := by rw [hBdef]; simp; omega
  have hBget : ∀ m, m < j - i → B[m]? = addrs[i + m]? := by
    intro m hm
    rw [hBdef, List.getElem?_take_of_lt hm, List.getElem?_drop]
  have hBat : ∀ m, m ≤ j - i → nodeAt (nodeAt g addrs j) B m = nodeAt g addrs (i + m) := by
    intro m hm
    by_cases hm2 : m < j - i
    · simp only [nodeAt, hBget m hm2]
      rw [List.getElem?_eq_getElem (show i + m < addrs.length by omega)]
      simp
    · rw [nodeAt_of_le (by omega), show i + m = j by omega]
  have hBmem : ∀ x, x ∈ B → ∃ k, i ≤ k ∧ k < j ∧ x = nodeAt g addrs k := by
    intro x hx
    obtain ⟨m, hm⟩ := List.mem_iff_getElem?.1 hx
    have hm2 : m < j - i := by
      by_contra hc2
      rw [List.getElem?_eq_none (by omega)] at hm
      cases hm
    rw [hBget m hm2, nodeAt_of_lt (g := g) (show i + m < addrs.length by omega)] at hm
    exact ⟨i + m, by omega, by omega, (Option.some.inj hm).symm⟩
  have hnotB : ∀ m, m ≤ addrs.length → (m < i ∨ j ≤ m) → nodeAt g addrs m ∉ B := by
    intro m hm hm2 hx
    obtain ⟨k, hk1, hk2, e⟩ := hBmem _ hx
    have := hinj hm (by omega) e
    omega
  have hpaB : pa ∉ B := by
    intro hx
    obtain ⟨k, hk1, hk2, e⟩ := hBmem _ hx
    rcases hpa_eq k (by omega) e.symm with ⟨_, hh⟩ | ⟨_, hh⟩ <;> omega
  have hBnd : B.Nodup := by
    rw [hBdef]
    exact ((List.nodup_cons.1 hnd).2.sublist (List.drop_sublist _ _)).sublist
      (List.take_sublist _ _)
  have hchain : ∀ k, k < B.length → h1.nextOf (nodeAt (nodeAt g addrs j) B k) =
      some (some (nodeAt (nodeAt g addrs j) B (k + 1))) := by
    intro k hk
    rw [hBlen] at hk
    rw [hBat k (by omega), hBat (k + 1) (by omega)]
    have hne : nodeAt g addrs (i + k) ≠ pa := by
      intro e
      rcases hpa_eq (i + k) (by omega) e with ⟨_, hh⟩ | ⟨_, hh⟩ <;> omega
    have := r.next_at (i + k) (by omega)
    simp only [Heap.nextOf, hcell1, Option.map_map, if_neg hne] at this ⊢
    simpa [Function.comp] using this
  have hfuel := r.length_le_fresh hw
  obtain ⟨h2, e2, hfr2, hcell2⟩ := deleteNodesFromLoop_spec (nodeAt g addrs j) B (h1.fresh + 1) h1 0
    hBnd (hnotB j hj (Or.inr (le_refl _))) hchain (by rw [hBlen, hfr1]; omega)
    (by rw [hBlen]; simpa using hc)
  have hBat0 := hBat 0 (by omega)
  rw [Nat.add_zero] at hBat0
  rw [hBat0, hBlen, Int.zero_add] at e2
  have hgB : g ∉ B := by
    have := hnotB addrs.length (le_refl _) (Or.inr hj)
    rwa [hgn] at this
  have hsize : szSub l._size (szOfInt ((j - i : Nat) : Int)) = xs.length - (j - i) := by
    rw [szOfInt_natCast (by omega), hs, szSub_of_le (by omega) hn]
  refine ⟨h2, ⟨l.guard_, xs.length - (j - i)⟩, ?_, ?_, ?_⟩
  · simp only [eraseRange, ConstIterator.copy, ConstIterator.node, read_some hnf, hnfp, e1,
      deleteNodesFrom, e2, hsize, bind, Except.bind]
  · -- the ring left
    have hc2 : ∀ x, h2.cell x = if x ∈ B then none else (h.cell x).map fun n =>
        ⟨n.elem, if x = pa then some (nodeAt g addrs j) else n.next,
          if x = nodeAt g addrs j then some pa else n.prev⟩ := by
      intro x; rw [hcell2 x, hcell1 x]
    have frame : ∀ a b, Linked h a b → a ∉ B → b ∉ B → a ≠ pa → b ≠ nodeAt g addrs j →
        Linked h2 a b := by
      intro a b hab ha hb ha2 hb2
      obtain ⟨na, hna, hnan⟩ := nextOf_eq hab.1
      obtain ⟨nb, hnb, hnbp⟩ := prevOf_eq hab.2
      constructor
      · simp [Heap.nextOf, hc2, ha, ha2, hna, hnan]
      · simp [Heap.prevOf, hc2, hb, hb2, hnb, hnbp]
    have newlink : Linked h2 pa (nodeAt g addrs j) := by
      constructor
      · simp [Heap.nextOf, hc2, hpaB, hnpa]
      · simp [Heap.prevOf, hc2, hnotB j hj (Or.inr (le_refl _)), hnl]
    have hpos : ∀ k, nodeAt g (addrs.take i ++ addrs.drop j) k =
        if k < i then nodeAt g addrs k else nodeAt g addrs (k + (j - i)) :=
      nodeAt_take_drop g addrs i j hij hj
    have hlen2 : (addrs.take i ++ addrs.drop j).length = i + (addrs.length - j) := by
      simp; omega
    refine ⟨?_, hg, ?_, ?_, ?_, ?_, ?_, ?_⟩
    · intro a ha
      rw [hc2 a, hw a (by rw [← hfr1, ← hfr2]; exact ha)]
      simp
    · simp; omega
    · exact (List.nodup_cons.2 ⟨fun hx => (List.nodup_cons.1 hnd).1
        ((take_append_drop_sublist addrs i j hij).subset hx),
        (List.nodup_cons.1 hnd).2.sublist (take_append_drop_sublist addrs i j hij)⟩)
    · simp; omega
    · rw [hpos 0]
      by_cases h0 : 0 < i
      · rw [if_pos h0]
        refine frame _ _ r.2.2.1 hgB (hnotB 0 (by omega) (Or.inl h0)) ?_ ?_
        · intro e
          have e3 : nodeAt g addrs addrs.length = pa := by rw [hgn]; exact e
          rcases hpa_eq _ (le_refl _) e3 with ⟨hh, _⟩ | ⟨_, hh⟩ <;> omega
        · intro e
          have := hinj (by omega) hj e
          omega
      · rw [if_neg h0, Nat.zero_add]
        have hi0 : i = 0 := by omega
        rw [hpa, if_pos hi0] at newlink
        rw [hi0, Nat.sub_zero]
        exact newlink
    · intro k hk
      rw [hlen2] at hk
      rw [hpos k, hpos (k + 1)]
      by_cases c1 : k + 1 < i
      · rw [if_pos (by omega), if_pos c1]
        refine frame _ _ (r.2.2.2.1 k (by omega)) (hnotB k (by omega) (Or.inl (by omega)))
          (hnotB (k + 1) (by omega) (Or.inl c1)) ?_ ?_
        · intro e
          rcases hpa_eq k (by omega) e with ⟨hh, _⟩ | ⟨_, hh⟩ <;> omega
        · intro e
          have := hinj (by omega) hj e
          omega
      · by_cases c2 : k + 1 = i
        · rw [if_pos (by omega), if_neg (by omega)]
          have hi0 : ¬ i = 0 := by omega
          rw [hpa, if_neg hi0] at newlink
          rw [show k = i - 1 by omega, show i - 1 + 1 + (j - i) = j by omega]
          exact newlink
        · rw [if_neg (by omega), if_neg (by omega)]
          have := r.2.2.2.1 (k + (j - i)) (by omega)
          rw [show k + (j - i) + 1 = k + 1 + (j - i) by omega] at this
          refine frame _ _ this (hnotB _ (by omega) (Or.inr (by omega)))
            (hnotB _ (by omega) (Or.inr (by omega))) ?_ ?_
          · intro e
            rcases hpa_eq _ (by omega) e with ⟨hh, hh2⟩ | ⟨_, hh⟩ <;> omega
          · intro e
            have := hinj (by omega) hj e
            omega
    · intro k a x hka hkx
      rw [Vector.getElem?_take_drop addrs i j (by omega) k] at hka
      rw [Vector.getElem?_take_drop xs i j (by omega) k] at hkx
      obtain ⟨m, hm1, hma, hmx⟩ : ∃ m, (m < i ∨ j ≤ m) ∧ addrs[m]? = some a ∧ xs[m]? = some x := by
        by_cases c : k < i
        · rw [if_pos c] at hka hkx; exact ⟨k, Or.inl c, hka, hkx⟩
        · rw [if_neg c] at hka hkx; exact ⟨k - i + j, Or.inr (by omega), hka, hkx⟩
      have hm2 : m < addrs.length := by
        by_contra hc3
        rw [List.getElem?_eq_none (by omega)] at hma
        cases hma
      have ea : a = nodeAt g addrs m := by
        have := nodeAt_of_lt (g := g) hm2
        rw [hma] at this
        exact Option.some.inj this
      have haB : a ∉ B := ea ▸ hnotB m (by omega) hm1
      obtain ⟨na, hna, hnae⟩ := elemOf_eq (r.2.2.2.2 m a x hma hmx)
      simp [Heap.elemOf, hc2, haB, hna, hnae]
  · intro hij2
    subst hij2
    have hB0 : B = [] := List.eq_nil_of_length_eq_zero (by rw [hBlen]; omega)
    constructor
    · have hcellEq : h2.cell = h.cell := by
        funext x
        rw [hcell2 x, hcell1 x, hB0]
        simp only [List.not_mem_nil, if_false]
        cases hx : h.cell x with
        | none => rfl
        | some nx =>
          simp only [Option.map_some', Option.some.injEq]
          have e1 : (if x = pa then some (nodeAt g addrs i) else nx.next) = nx.next := by
            by_cases c : x = pa
            · subst c; rw [if_pos rfl]; rw [hnpa] at hx; cases hx; exact hnpan.symm
            · rw [if_neg c]
          have e2 : (if x = nodeAt g addrs i then some pa else nx.prev) = nx.prev := by
            by_cases c : x = nodeAt g addrs i
            · subst c; rw [if_pos rfl]; rw [hnf] at hx; cases hx; exact hnfp.symm
            · rw [if_neg c]
          rw [e1, e2]
      cases h2 with
      | mk c2 f2 =>
        cases h with
        | mk c0 f0 =>
          simp only at hcellEq hfr2 hfr1
          rw [Heap.mk.injEq]
          exact ⟨hcellEq, by rw [hfr2, hfr1]⟩
    · cases l with
      | mk lg ls =>
        simp only at hs ⊢
        rw [LinkedList.mk.injEq]
        exact ⟨rfl, by omega⟩


/-! ### LinkedList: construction, append, move assignment -/

/-- The store after `t->insertInBetween(left, right)`. -/
theorem insertInBetween_spec {h : Heap α} {t left right : Nat} {nt nl nr : Node α}
    (ht : h.cell t = some nt) (hl : h.cell left = some nl) (hr : h.cell right = some nr)
    (htl : t ≠ left) (htr : t ≠ right) :
    ∃ h', Node.insertInBetween h (some t) (some left) (some right) = .ok h' ∧
      h'.fresh = h.fresh ∧
      ∀ x, h'.cell x = (h.cell x).map fun n =>
        ⟨n.elem, if x = t then some right else if x = left then some t else n.next,
          if x = t then some left else if x = right then some t else n.prev⟩ := by
  have htl2 : ¬ left = t := fun e => htl e.symm
  have htr2 : ¬ right = t := fun e => htr e.symm
  by_cases hlr : right = left
  · subst hlr
    simp only [Node.insertInBetween, Heap.setNext, Heap.setPrev, Heap.read, Heap.write, ht, hl,
      bind, Except.bind, if_true, if_neg htl, if_neg htl2]
    refine ⟨_, rfl, rfl, ?_⟩
    intro x
    by_cases hx : x = t
    · subst hx; simp [ht]
    · by_cases hx2 : x = right
      · subst hx2; simp [hl, hx]
      · simp [hx, hx2]
  · have hlr2 : ¬ left = right := fun e => hlr e.symm
    simp only [Node.insertInBetween, Heap.setNext, Heap.setPrev, Heap.read, Heap.write, ht, hl, hr,
      bind, Except.bind, if_true, if_neg htl, if_neg htl2, if_neg htr, if_neg htr2, if_neg hlr,
      if_neg hlr2]
    refine ⟨_, rfl, rfl, ?_⟩
    intro x
    by_cases hx : x = t
    · subst hx; simp [ht]
    · by_cases hx2 : x = right
      · subst hx2; simp [hr, hx, hlr]
      · by_cases hx3 : x = left
        · subst hx3; simp [hl, hx, hx2]
        · simp [hx, hx2, hx3]

theorem nodeAt_append_singleton (g : Nat) (addrs : List Nat) (a k : Nat) :
    nodeAt g (addrs ++ [a]) k =
      if k < addrs.length then nodeAt g addrs k else if k = addrs.length then a else g := by
  unfold nodeAt
  by_cases h1 : k < addrs.length
  · rw [if_pos h1, List.getElem?_append_left h1]
  · rw [if_neg h1, List.getElem?_append_right (by omega)]
    by_cases h2 : k = addrs.length
    · subst h2; simp
    · rw [if_neg h2]
      obtain ⟨m, hm⟩ : ∃ m, k - addrs.length = m + 1 := ⟨k - addrs.length - 1, by omega⟩
      rw [hm]; simp

/-- `append` adds a node at the end of the ring. -/
theorem list_append_spec {h : Heap α} {l : LinkedList α} {g : Nat} {addrs : List Nat} {xs : List α}
    (hl : Holds h l g addrs xs) (hn : xs.length + 1 < 2 ^ 64) (x : α) :
    ∃ h' l', append h l x = .ok (h', l') ∧ h'.fresh = h.fresh + 1 ∧
      Holds h' l' g (addrs ++ [h.fresh]) (xs ++ [x]) := by
  obtain ⟨hw, hg, hs, r⟩ := hl
  have hnd := r.1
  have hlen := r.2.1
  have hgn : nodeAt g addrs addrs.length = g := nodeAt_of_le (le_refl _)
  have hlive_lt : ∀ a n, h.cell a = some n → a < h.fresh := by
    intro a n ha
    by_contra hc
    rw [hw a (by omega)] at ha
    cases ha
  -- the last node before the guard
  obtain ⟨pl, hpl⟩ : ∃ pl, pl = if addrs.length = 0 then g else nodeAt g addrs (addrs.length - 1) :=
    ⟨_, rfl⟩
  have hlink : Linked h pl g := by
    have := r.linked_at addrs.length (le_refl _)
    rwa [hgn, ← hpl] at this
  obtain ⟨ng, hng, hngp⟩ := prevOf_eq hlink.2
  obtain ⟨npl, hnpl, -⟩ := nextOf_eq hlink.1
  have hgf : g ≠ h.fresh := fun e => by have := hlive_lt g ng hng; omega
  have hplf : pl ≠ h.fresh := fun e => by have := hlive_lt pl npl hnpl; omega
  -- the store with the new node
  obtain ⟨h1, hh1⟩ : ∃ h1 : Heap α, h1 = (h.new ⟨some x, none, none⟩).2 := ⟨_, rfl⟩
  have hc1 : ∀ a, h1.cell a = if a = h.fresh then some ⟨some x, none, none⟩ else h.cell a := by
    intro a; rw [hh1]; rfl
  have hf1 : h1.fresh = h.fresh + 1 := by rw [hh1]; rfl
  have hng1 : h1.cell g = some ng := by rw [hc1, if_neg hgf, hng]
  have hnpl1 : h1.cell pl = some npl := by rw [hc1, if_neg hplf, hnpl]
  have hnew1 : h1.cell h.fresh = some ⟨some x, none, none⟩ := by rw [hc1, if_pos rfl]
  obtain ⟨h2, e2, hf2, hc2⟩ := insertInBetween_spec hnew1 hnpl1 hng1 (Ne.symm hplf) (Ne.symm hgf)
  refine ⟨h2, ⟨l.guard_, xs.length + 1⟩, ?_, by rw [hf2, hf1], ?_⟩
  · have hrd : (h.new ⟨some x, none, none⟩).2.read (some g) = .ok ng := by
      rw [← hh1]; exact read_some hng1
    rw [hh1] at e2
    simp only [Heap.new] at hrd e2
    simp only [append, Heap.new, hg, hrd, hngp, e2, hs, szAdd_of_lt hn, bind, Except.bind]
  · have frame : ∀ a b, Linked h a b → a ≠ pl → b ≠ g → Linked h2 a b := by
      intro a b hab ha hb
      obtain ⟨na, hna, hnan⟩ := nextOf_eq hab.1
      obtain ⟨nb, hnb, hnbp⟩ := prevOf_eq hab.2
      have haf : a ≠ h.fresh := fun e => by have := hlive_lt a na hna; omega
      have hbf : b ≠ h.fresh := fun e => by have := hlive_lt b nb hnb; omega
      constructor
      · simp [Heap.nextOf, hc2, hc1, ha, haf, hna, hnan]
      · simp [Heap.prevOf, hc2, hc1, hb, hbf, hnb, hnbp]
    have link1 : Linked h2 pl h.fresh := by
      constructor
      · simp [Heap.nextOf, hc2, hc1, hplf, hnpl]
      · simp [Heap.prevOf, hc2, hc1]
    have link2 : Linked h2 h.fresh g := by
      constructor
      · simp [Heap.nextOf, hc2, hc1]
      · simp [Heap.prevOf, hc2, hc1, hgf, hng]
    have hpos := nodeAt_append_singleton g addrs h.fresh
    have hfresh_notin : h.fresh ∉ addrs := by
      intro hx
      obtain ⟨k, hk⟩ := List.mem_iff_getElem?.1 hx
      have hk2 : k < addrs.length := by
        by_contra hc
        rw [List.getElem?_eq_none (by omega)] at hk
        cases hk
      obtain ⟨n, hn2⟩ := r.live_at k
      have e := nodeAt_of_lt (g := g) hk2
      rw [hk] at e
      rw [← Option.some.inj e] at hn2
      have := hlive_lt _ _ hn2
      omega
    refine ⟨?_, hg, by simp, ?_, by simp [hlen], ?_, ?_, ?_⟩
    · intro a ha
      rw [hf2, hf1] at ha
      rw [hc2 a, hc1 a, if_neg (by omega), hw a (by omega)]
      rfl
    · rw [List.nodup_cons] at hnd ⊢
      refine ⟨?_, List.Nodup.append hnd.2 (List.nodup_singleton _) ?_⟩
      · simp only [List.mem_append, List.mem_singleton, not_or]
        exact ⟨hnd.1, hgf⟩
      · intro a ha1 ha2
        rw [List.mem_singleton] at ha2
        exact hfresh_notin (ha2 ▸ ha1)
    · rw [hpos 0]
      by_cases h0 : 0 < addrs.length
      · rw [if_pos h0]
        refine frame _ _ r.2.2.1 ?_ ?_
        · intro e
          rw [hpl, if_neg (by omega)] at e
          have := nodeAt_inj hnd (le_refl _) (by omega : addrs.length - 1 ≤ addrs.length)
            (by rw [hgn]; exact e)
          omega
        · intro e
          have := nodeAt_inj hnd (by omega : 0 ≤ addrs.length) (le_refl _) (by rw [hgn]; exact e)
          omega
      · rw [if_neg h0, if_pos (by omega)]
        rw [hpl, if_pos (by omega)] at link1
        exact link1
    · intro k hk
      simp only [List.length_append, List.length_singleton] at hk
      rw [hpos k, hpos (k + 1)]
      by_cases c1 : k + 1 < addrs.length
      · rw [if_pos (by omega), if_pos c1]
        refine frame _ _ (r.2.2.2.1 k (by omega)) ?_ ?_
        · intro e
          by_cases h0 : addrs.length = 0
          · omega
          · rw [hpl, if_neg h0] at e
            have := nodeAt_inj hnd (by omega) (by omega) e
            omega
        · intro e
          have := nodeAt_inj hnd (by omega : k + 1 ≤ addrs.length) (le_refl _)
            (by rw [hgn]; exact e)
          omega
      · by_cases c2 : k + 1 = addrs.length
        · rw [if_pos (by omega), if_neg (by omega), if_pos c2]
          rw [hpl, if_neg (by omega), show addrs.length - 1 = k by omega] at link1
          exact link1
        · rw [if_neg (by omega), if_pos (by omega), if_neg (by omega), if_neg (by omega)]
          exact link2
    · intro k a y hka hky
      by_cases c : k < addrs.length
      · rw [List.getElem?_append_left c] at hka
        rw [List.getElem?_append_left (by omega)] at hky
        obtain ⟨na, hna, hnae⟩ := elemOf_eq (r.2.2.2.2 k a y hka hky)
        have haf : a ≠ h.fresh := fun e => by have := hlive_lt a na hna; omega
        simp [Heap.elemOf, hc2, hc1, haf, hna, hnae]
      · have hk2 : k = addrs.length := by
          by_contra hc3
          rw [List.getElem?_eq_none (by simp; omega)] at hka
          cases hka
        subst hk2
        rw [List.getElem?_append_right (le_refl _)] at hka
        rw [List.getElem?_append_right (by omega), hlen] at hky
        simp only [Nat.sub_self, List.getElem?_cons_zero, Option.some.injEq] at hka hky
        subst hka hky
        simp [Heap.elemOf, hc2, hc1]


theorem wf_init : (Heap.init : Heap α).WF := fun _ _ => rfl

/-- `LinkedList()` builds a ring of the guard alone. -/
theorem empty_spec {h : Heap α} (hw : h.WF) :
    ∃ h' l', LinkedList.empty h = .ok (h', l') ∧ h'.fresh = h.fresh + 1 ∧
      Holds h' l' h.fresh [] [] := by
  simp only [LinkedList.empty, Heap.new, Heap.setNext, Heap.setPrev, Heap.read, Heap.write,
    if_true, bind, Except.bind]
  refine ⟨_, _, rfl, rfl, ?_, rfl, rfl, ?_⟩
  · intro a ha
    simp only at ha
    simp only
    rw [if_neg (by omega), if_neg (by omega), if_neg (by omega), hw a (by omega)]
  · refine ⟨by simp, rfl, ?_, ?_, ?_⟩
    · constructor <;> simp [Heap.nextOf, Heap.prevOf, nodeAt]
    · intro k hk; simp at hk
    · intro k a x hk; simp at hk

theorem list_appendAll_spec (ys : List α) :
    ∀ {h : Heap α} {l : LinkedList α} {g : Nat} {addrs : List Nat} {xs : List α},
      Holds h l g addrs xs → xs.length + ys.length < 2 ^ 64 →
      ∃ h' l', appendAll h l ys = .ok (h', l') ∧ h'.fresh = h.fresh + ys.length ∧
        Holds h' l' g (addrs ++ List.range' h.fresh ys.length) (xs ++ ys) := by
  induction ys with
  | nil =>
    intro h l g addrs xs hl _
    exact ⟨h, l, rfl, rfl, by simpa using hl⟩
  | cons y ys ih =>
    intro h l g addrs xs hl hn
    simp only [List.length_cons] at hn
    obtain ⟨h1, l1, e1, hf1, hl1⟩ := list_append_spec hl (by omega) y
    obtain ⟨h2, l2, e2, hf2, hl2⟩ := ih hl1 (by simp; omega)
    refine ⟨h2, l2, ?_, by rw [hf2, hf1]; simp; omega, ?_⟩
    · simp only [appendAll, e1, bind, Except.bind]
      exact e2
    · rw [hf1] at hl2
      simpa [List.range'_succ, List.append_assoc] using hl2

theorem nodeAt_insert (g : Nat) (addrs : List Nat) (i a : Nat) (hi : i ≤ addrs.length) (k : Nat) :
    nodeAt g (addrs.take i ++ a :: addrs.drop i) k =
      if k < i then nodeAt g addrs k else if k = i then a else nodeAt g addrs (k - 1) := by
  unfold nodeAt
  rw [Vector.getElem?_take_cons_drop addrs i a hi k]
  by_cases h1 : k < i
  · simp [h1]
  · by_cases h2 : k = i
    · simp [h2]
    · simp [h1, h2]

/-- `insert` before the node at position `i` (the guard when `i` is the number
of elements) puts a new node at position `i` of the ring. -/
theorem list_insert_spec {h : Heap α} {l : LinkedList α} {g : Nat} {addrs : List Nat} {xs : List α}
    (hl : Holds h l g addrs xs) (hn : xs.length + 1 < 2 ^ 64) (i : Nat) (hi : i ≤ addrs.length)
    (gd : Option (Option Nat)) (x : α) :
    ∃ h' l', insert h l ⟨some (nodeAt g addrs i), gd⟩ x = .ok (h', l') ∧
      h'.fresh = h.fresh + 1 ∧
      Holds h' l' g (addrs.take i ++ h.fresh :: addrs.drop i) (xs.take i ++ x :: xs.drop i) := by
  obtain ⟨hw, hg, hs, r⟩ := hl
  have hnd := r.1
  have hlen := r.2.1
  have hgn : nodeAt g addrs addrs.length = g := nodeAt_of_le (le_refl _)
  have hinj : ∀ {k m : Nat}, k ≤ addrs.length → m ≤ addrs.length →
      nodeAt g addrs k = nodeAt g addrs m → k = m := fun hk hm e => nodeAt_inj hnd hk hm e
  have hlive_lt : ∀ a n, h.cell a = some n → a < h.fresh := by
    intro a n ha
    by_contra hc
    rw [hw a (by omega)] at ha
    cases ha
  -- the node before the position
  obtain ⟨pl, hpl⟩ : ∃ pl, pl = if i = 0 then g else nodeAt g addrs (i - 1) := ⟨_, rfl⟩
  obtain ⟨rt, hrt⟩ : ∃ rt, rt = nodeAt g addrs i := ⟨_, rfl⟩
  have hlink : Linked h pl rt := by
    have := r.linked_at i hi
    rwa [← hpl, ← hrt] at this
  have hpl_ne : ∀ m, m ≤ addrs.length → m + 1 ≠ i → (i = 0 → m ≠ addrs.length) →
      nodeAt g addrs m ≠ pl := by
    intro m hm h1 h2 e
    by_cases h0 : i = 0
    · rw [hpl, if_pos h0] at e
      have e2 : nodeAt g addrs m = nodeAt g addrs addrs.length := by rw [hgn]; exact e
      exact h2 h0 (hinj hm (le_refl _) e2)
    · rw [hpl, if_neg h0] at e
      have := hinj hm (by omega) e
      omega
  have hrt_ne : ∀ m, m ≤ addrs.length → m ≠ i → nodeAt g addrs m ≠ rt := by
    intro m hm h1 e
    rw [hrt] at e
    exact h1 (hinj hm hi e)
  obtain ⟨nr, hnr, hnrp⟩ := prevOf_eq hlink.2
  obtain ⟨npl, hnpl, -⟩ := nextOf_eq hlink.1
  have hrf : rt ≠ h.fresh := fun e => by have := hlive_lt rt nr hnr; omega
  have hplf : pl ≠ h.fresh := fun e => by have := hlive_lt pl npl hnpl; omega
  obtain ⟨ng, hng⟩ : ∃ ng, h.cell g = some ng := by
    have := r.live_at addrs.length
    rwa [hgn] at this
  have hgf : g ≠ h.fresh := fun e => by have := hlive_lt g ng hng; omega
  -- the store with the new node
  obtain ⟨h1, hh1⟩ : ∃ h1 : Heap α, h1 = (h.new ⟨some x, none, none⟩).2 := ⟨_, rfl⟩
  have hc1 : ∀ a, h1.cell a = if a = h.fresh then some ⟨some x, none, none⟩ else h.cell a := by
    intro a; rw [hh1]; rfl
  have hf1 : h1.fresh = h.fresh + 1 := by rw [hh1]; rfl
  have hnr1 : h1.cell rt = some nr := by rw [hc1, if_neg hrf, hnr]
  have hnpl1 : h1.cell pl = some npl := by rw [hc1, if_neg hplf, hnpl]
  have hnew1 : h1.cell h.fresh = some ⟨some x, none, none⟩ := by rw [hc1, if_pos rfl]
  obtain ⟨h2, e2, hf2, hc2⟩ := insertInBetween_spec hnew1 hnpl1 hnr1 (Ne.symm hplf) (Ne.symm hrf)
  refine ⟨h2, ⟨l.guard_, xs.length + 1⟩, ?_, by rw [hf2, hf1], ?_⟩
  · have hrd : (h.new ⟨some x, none, none⟩).2.read (some rt) = .ok nr := by
      rw [← hh1]; exact read_some hnr1
    rw [hh1] at e2
    simp only [Heap.new] at hrd e2
    simp only [insert, Heap.new, ConstIterator.copy, ConstIterator.node, ← hrt, hrd, hnrp, e2, hs,
      szAdd_of_lt hn, bind, Except.bind]
  · have frame : ∀ a b, Linked h a b → a ≠ pl → b ≠ rt → Linked h2 a b := by
      intro a b hab ha hb
      obtain ⟨na, hna, hnan⟩ := nextOf_eq hab.1
      obtain ⟨nb, hnb, hnbp⟩ := prevOf_eq hab.2
      have haf : a ≠ h.fresh := fun e => by have := hlive_lt a na hna; omega
      have hbf : b ≠ h.fresh := fun e => by have := hlive_lt b nb hnb; omega
      constructor
      · simp [Heap.nextOf, hc2, hc1, ha, haf, hna, hnan]
      · simp [Heap.prevOf, hc2, hc1, hb, hbf, hnb, hnbp]
    have link1 : Linked h2 pl h.fresh := by
      constructor
      · simp [Heap.nextOf, hc2, hc1, hplf, hnpl]
      · simp [Heap.prevOf, hc2, hc1]
    have link2 : Linked h2 h.fresh rt := by
      constructor
      · simp [Heap.nextOf, hc2, hc1]
      · simp [Heap.prevOf, hc2, hc1, hrf, hnr]
    have hpos := nodeAt_insert g addrs i h.fresh hi
    have hfresh_notin : h.fresh ∉ addrs := by
      intro hx
      obtain ⟨k, hk⟩ := List.mem_iff_getElem?.1 hx
      have hk2 : k < addrs.length := by
        by_contra hc
        rw [List.getElem?_eq_none (by omega)] at hk
        cases hk
      obtain ⟨n, hn2⟩ := r.live_at k
      have e := nodeAt_of_lt (g := g) hk2
      rw [hk] at e
      rw [← Option.some.inj e] at hn2
      have := hlive_lt _ _ hn2
      omega
    have hlen2 : (addrs.take i ++ h.fresh :: addrs.drop i).length = addrs.length + 1 := by
      simp; omega
    refine ⟨?_, hg, by simp; omega, ?_, by simp [hlen], ?_, ?_, ?_⟩
    · intro a ha
      rw [hf2, hf1] at ha
      rw [hc2 a, hc1 a, if_neg (by omega), hw a (by omega)]
      rfl
    · rw [List.nodup_cons] at hnd ⊢
      refine ⟨?_, ?_⟩
      · intro hmem
        rw [List.mem_append, List.mem_cons] at hmem
        rcases hmem with hm | hm | hm
        · exact hnd.1 (List.mem_of_mem_take hm)
        · exact hgf hm
        · exact hnd.1 (List.mem_of_mem_drop hm)
      · rw [List.nodup_middle, List.take_append_drop, List.nodup_cons]
        exact ⟨hfresh_notin, hnd.2⟩
    · rw [hpos 0]
      by_cases h0 : i = 0
      · rw [if_neg (by omega), if_pos (by omega)]
        rw [hpl, if_pos h0] at link1
        exact link1
      · rw [if_pos (by omega)]
        exact frame _ _ r.2.2.1 (by
          have := hpl_ne addrs.length (le_refl _) (by omega) (fun e => absurd e h0)
          rwa [hgn] at this) (hrt_ne 0 (by omega) (by omega))
    · intro k hk
      rw [hlen2] at hk
      rw [hpos k, hpos (k + 1)]
      by_cases c1 : k + 1 < i
      · rw [if_pos (by omega), if_pos c1]
        exact frame _ _ (r.2.2.2.1 k (by omega)) (hpl_ne k (by omega) (by omega) (by omega))
          (hrt_ne (k + 1) (by omega) (by omega))
      · by_cases c2 : k + 1 = i
        · rw [if_pos (by omega), if_neg (by omega), if_pos c2]
          rw [hpl, if_neg (by omega), show i - 1 = k by omega] at link1
          exact link1
        · by_cases c3 : k = i
          · rw [if_neg (by omega), if_pos c3, if_neg (by omega), if_neg (by omega),
              show k + 1 - 1 = i by omega, ← hrt]
            exact link2
          · rw [if_neg (by omega), if_neg c3, if_neg (by omega), if_neg (by omega),
              show k + 1 - 1 = k - 1 + 1 by omega]
            exact frame _ _ (r.2.2.2.1 (k - 1) (by omega))
              (hpl_ne (k - 1) (by omega) (by omega) (by omega))
              (hrt_ne (k - 1 + 1) (by omega) (by omega))
    · intro k a y hka hky
      rw [Vector.getElem?_take_cons_drop addrs i h.fresh hi k] at hka
      rw [Vector.getElem?_take_cons_drop xs i x (by omega) k] at hky
      by_cases c1 : k < i
      · rw [if_pos c1] at hka hky
        obtain ⟨na, hna, hnae⟩ := elemOf_eq (r.2.2.2.2 k a y hka hky)
        have haf : a ≠ h.fresh := fun e => by have := hlive_lt a na hna; omega
        simp [Heap.elemOf, hc2, hc1, haf, hna, hnae]
      · by_cases c2 : k = i
        · rw [if_neg c1, if_pos c2] at hka hky
          rw [Option.some.injEq] at hka hky
          subst hka hky
          simp [Heap.elemOf, hc2, hc1]
        · rw [if_neg c1, if_neg c2] at hka hky
          obtain ⟨na, hna, hnae⟩ := elemOf_eq (r.2.2.2.2 (k - 1) a y hka hky)
          have haf : a ≠ h.fresh := fun e => by have := hlive_lt a na hna; omega
          simp [Heap.elemOf, hc2, hc1, haf, hna, hnae]

theorem heap_ext {h k : Heap α} (hc : ∀ a, h.cell a = k.cell a) (hf : h.fresh = k.fresh) :
    h = k := by
  cases h; cases k
  simp only [Heap.mk.injEq]
  exact ⟨funext hc, hf⟩

/-- `prepend` is `insert` before the first node. -/
theorem list_prepend_eq_insert {h : Heap α} {l : LinkedList α} {g : Nat} {addrs : List Nat}
    {xs : List α} (hl : Holds h l g addrs xs) (gd : Option (Option Nat)) (x : α) :
    prepend h l x = insert h l ⟨some (nodeAt g addrs 0), gd⟩ x := by
  obtain ⟨hw, hg, hs, r⟩ := hl
  have hlink := r.2.2.1
  obtain ⟨ng, hng, hngn⟩ := nextOf_eq hlink.1
  obtain ⟨n0, hn0, hn0p⟩ := prevOf_eq hlink.2
  have hlive_lt : ∀ a n, h.cell a = some n → a < h.fresh := by
    intro a n ha
    by_contra hc
    rw [hw a (by omega)] at ha
    cases ha
  have hgf : g ≠ h.fresh := fun e => by have := hlive_lt g ng hng; omega
  have h0f : nodeAt g addrs 0 ≠ h.fresh := fun e => by have := hlive_lt _ n0 hn0; omega
  have hrd1 : (h.new ⟨some x, none, none⟩).2.read (some g) = .ok ng := by
    apply read_some
    show (if g = h.fresh then _ else h.cell g) = _
    rw [if_neg hgf, hng]
  have hrd2 : (h.new ⟨some x, none, none⟩).2.read (some (nodeAt g addrs 0)) = .ok n0 := by
    apply read_some
    show (if nodeAt g addrs 0 = h.fresh then _ else h.cell (nodeAt g addrs 0)) = _
    rw [if_neg h0f, hn0]
  simp only [Heap.new] at hrd1 hrd2
  simp only [prepend, insert, Heap.new, ConstIterator.copy, ConstIterator.node, hg, hrd1, hrd2,
    hngn, hn0p, bind, Except.bind]

/-- `pop` of the node at position `i`: the node leaves the ring, and its
element is returned. -/
theorem list_pop_spec {h : Heap α} {l : LinkedList α} {g : Nat} {addrs : List Nat} {xs : List α}
    (hl : Holds h l g addrs xs) (hn : xs.length < 2 ^ 64) (i : Nat) (hi : i < addrs.length) :
    ∃ h' x, pop h (some (nodeAt g addrs i)) = .ok (h', x) ∧ xs[i]? = some x ∧
      Holds h' ⟨l.guard_, szSub l._size 1⟩ g (addrs.take i ++ addrs.drop (i + 1))
        (xs.take i ++ xs.drop (i + 1)) := by
  obtain ⟨h', l', e, hold, -⟩ := list_eraseRange_spec hl i (i + 1) (by omega) (by omega)
    (by simp [INT_MAX]) hn
  obtain ⟨hw, hg, hs, r⟩ := hl
  have hnd := r.1
  have hlen := r.2.1
  have hgn : nodeAt g addrs addrs.length = g := nodeAt_of_le (le_refl _)
  obtain ⟨a, ha⟩ : ∃ a, a = nodeAt g addrs i := ⟨_, rfl⟩
  obtain ⟨nx, hnx⟩ : ∃ nx, nx = nodeAt g addrs (i + 1) := ⟨_, rfl⟩
  obtain ⟨pa, hpa⟩ : ∃ pa, pa = if i = 0 then g else nodeAt g addrs (i - 1) := ⟨_, rfl⟩
  have l1 : Linked h pa a := by
    have := r.linked_at i (by omega)
    rwa [← hpa, ← ha] at this
  have l2 : Linked h a nx := by
    have := r.2.2.2.1 i hi
    rwa [← ha, ← hnx] at this
  obtain ⟨na, hna, hnan⟩ := nextOf_eq l2.1
  obtain ⟨na2, hna2, hnap⟩ := prevOf_eq l1.2
  rw [hna, Option.some.injEq] at hna2
  subst hna2
  obtain ⟨npa, hnpa, -⟩ := nextOf_eq l1.1
  obtain ⟨nnx, hnnx, -⟩ := prevOf_eq l2.2
  have hxi : i < xs.length := by omega
  have hx : xs[i]? = some xs[i] := List.getElem?_eq_getElem hxi
  have hnae : na.elem = some xs[i] := by
    have hai : addrs[i]? = some a := by rw [ha]; exact nodeAt_of_lt hi
    obtain ⟨n, hn1, hn2⟩ := elemOf_eq (r.2.2.2.2 i a xs[i] hai hx)
    rw [hna, Option.some.injEq] at hn1
    rw [hn1]; exact hn2
  have hapa : a ≠ pa := by
    intro e2
    rw [ha, hpa] at e2
    by_cases h0 : i = 0
    · rw [if_pos h0] at e2
      have := nodeAt_inj hnd (by omega : i ≤ addrs.length) (le_refl _) (by rw [hgn]; exact e2)
      omega
    · rw [if_neg h0] at e2
      have := nodeAt_inj hnd (by omega : i ≤ addrs.length) (by omega) e2
      omega
  have hanx : a ≠ nx := by
    intro e2
    rw [ha, hnx] at e2
    have := nodeAt_inj hnd (by omega : i ≤ addrs.length) (by omega) e2
    omega
  have hfr : 0 < h.fresh := by
    by_contra hc
    rw [hw a (by omega)] at hna
    cases hna
  -- the range erase, step by step
  obtain ⟨h1, e1, hfr1, hcell1⟩ := connectWith_spec hnpa hnnx
  have hB0 : nodeAt nx [a] 0 = a := by simp [nodeAt]
  obtain ⟨h2, e2, hfr2, hcell2⟩ := deleteNodesFromLoop_spec nx [a] (h1.fresh + 1) h1 0
    (by simp) (by simpa using Ne.symm hanx)
    (by
      intro k hk
      have hk0 : k = 0 := by simpa using hk
      subst hk0
      have : nodeAt nx [a] 1 = nx := by simp [nodeAt]
      rw [hB0, this]
      simp [Heap.nextOf, hcell1, hna, hapa, hnan])
    (by simp; omega) (by simp [INT_MAX])
  rw [hB0] at e2
  rw [← ha, ← hnx] at e
  have e3 : eraseRange h l ⟨some a, none⟩ ⟨some nx, none⟩ =
      .ok (h2, ⟨l.guard_, szSub l._size 1⟩) := by
    simp only [eraseRange, ConstIterator.copy, ConstIterator.node, read_some hna, hnap, e1,
      deleteNodesFrom, e2, bind, Except.bind]
    simp [szOfInt_one]
  rw [e3] at e
  have e4 : h2 = h' ∧ (⟨l.guard_, szSub l._size 1⟩ : LinkedList α) = l' := by
    simpa using e
  rw [← e4.1, ← e4.2] at hold
  -- the removal by `pop`
  obtain ⟨hA, ehA, hfA, hcA⟩ : ∃ hA, h.setPrev (some a) none = .ok hA ∧ hA.fresh = h.fresh ∧
      ∀ b, hA.cell b = if b = a then some ⟨na.elem, na.next, none⟩ else h.cell b := by
    simp only [Heap.setPrev, Heap.read, Heap.write, hna, bind, Except.bind]
    exact ⟨_, rfl, rfl, fun b => rfl⟩
  obtain ⟨hB, ehB, hfB, hcB⟩ : ∃ hB, hA.setNext (some a) none = .ok hB ∧ hB.fresh = h.fresh ∧
      ∀ b, hB.cell b = if b = a then some ⟨na.elem, none, none⟩ else h.cell b := by
    have hAa : hA.cell a = some ⟨na.elem, na.next, none⟩ := by rw [hcA, if_pos rfl]
    simp only [Heap.setNext, Heap.read, Heap.write, hAa, bind, Except.bind]
    refine ⟨_, rfl, hfA, fun b => ?_⟩
    by_cases hb : b = a
    · simp [hb]
    · simp [hb, hcA]
  have hBpa : hB.cell pa = some npa := by rw [hcB, if_neg (Ne.symm hapa), hnpa]
  have hBnx : hB.cell nx = some nnx := by rw [hcB, if_neg (Ne.symm hanx), hnnx]
  obtain ⟨hC, eC, hfC, hcC⟩ := connectWith_spec hBpa hBnx
  have hCa : hC.cell a = some ⟨na.elem, none, none⟩ := by
    rw [hcC, hcB, if_pos rfl]
    simp [hapa, hanx]
  refine ⟨⟨fun b => if b = a then none else hC.cell b, hC.fresh⟩, xs[i], ?_, hx, ?_⟩
  · rw [← ha]
    simp only [pop, read_some hna, hnae, Node.disconnect, hnap, hnan, ehA, ehB,
      Option.isSome_some, if_true, eC, Heap.delete, hCa, bind, Except.bind]
  · have : (⟨fun b => if b = a then none else hC.cell b, hC.fresh⟩ : Heap α) = h2 := by
      apply heap_ext
      · intro b
        show (if b = a then none else hC.cell b) = h2.cell b
        rw [hcell2 b]
        by_cases hb : b = a
        · simp [hb]
        · rw [if_neg hb, if_neg (by simpa using hb), hcC, hcB, if_neg hb, hcell1]
      · show hC.fresh = h2.fresh
        rw [hfC, hfB, hfr2, hfr1]
    rw [this]
    exact hold

/-- `popFirst` on a list that is not empty. -/
theorem list_popFirst_spec {h : Heap α} {l : LinkedList α} {g : Nat} {addrs : List Nat}
    {xs : List α} (hl : Holds h l g addrs xs) (hn : xs.length < 2 ^ 64) (hp : 0 < xs.length) :
    ∃ h' l' x, popFirst h l = .ok (h', l', x) ∧ xs[0]? = some x ∧
      Holds h' l' g (addrs.drop 1) (xs.drop 1) := by
  have hlen := hl.2.2.2.2.1
  obtain ⟨h', x, e, hx, hold⟩ := list_pop_spec hl hn 0 (by omega)
  obtain ⟨hw, hg, hs, r⟩ := hl
  obtain ⟨ng, hng, hngn⟩ := nextOf_eq r.next_guard
  refine ⟨h', ⟨l.guard_, szSub l._size 1⟩, x, ?_, hx, by simpa using hold⟩
  simp only [popFirst, if_neg (show ¬ l._size = 0 by omega), hg, read_some hng, hngn, e, bind,
    Except.bind]

/-- `popLast` on a list that is not empty. -/
theorem list_popLast_spec {h : Heap α} {l : LinkedList α} {g : Nat} {addrs : List Nat}
    {xs : List α} (hl : Holds h l g addrs xs) (hn : xs.length < 2 ^ 64) (hp : 0 < xs.length) :
    ∃ h' l' x, popLast h l = .ok (h', l', x) ∧ xs[xs.length - 1]? = some x ∧
      Holds h' l' g (addrs.take (addrs.length - 1)) (xs.take (xs.length - 1)) := by
  have hlen := hl.2.2.2.2.1
  obtain ⟨h', x, e, hx, hold⟩ := list_pop_spec hl hn (addrs.length - 1) (by omega)
  obtain ⟨hw, hg, hs, r⟩ := hl
  have hp2 := r.prev_at addrs.length (le_refl _)
  rw [nodeAt_of_le (le_refl _), if_neg (by omega)] at hp2
  obtain ⟨ng, hng, hngp⟩ := prevOf_eq hp2
  have hd1 : addrs.drop (addrs.length - 1 + 1) = [] := List.drop_eq_nil_of_le (by omega)
  have hd2 : xs.drop (addrs.length - 1 + 1) = [] := List.drop_eq_nil_of_le (by omega)
  rw [hd1, hd2, List.append_nil, List.append_nil, hlen] at hold
  rw [hlen] at hx
  refine ⟨h', ⟨l.guard_, szSub l._size 1⟩, x, ?_, hx, by rw [hlen]; exact hold⟩
  simp only [popLast, if_neg (show ¬ l._size = 0 by omega), hg, read_some hng, hngp, e, bind,
    Except.bind]

/-- `erase` at the node of position `i`. -/
theorem list_erase_spec {h : Heap α} {l : LinkedList α} {g : Nat} {addrs : List Nat}
    {xs : List α} (hl : Holds h l g addrs xs) (hn : xs.length < 2 ^ 64) (i : Nat)
    (hi : i < addrs.length) (gd : Option (Option Nat)) :
    ∃ h' l', erase h l ⟨some (nodeAt g addrs i), gd⟩ = .ok (h', l') ∧
      Holds h' l' g (addrs.take i ++ addrs.drop (i + 1)) (xs.take i ++ xs.drop (i + 1)) := by
  have hlen := hl.2.2.2.2.1
  obtain ⟨h', x, e, hx, hold⟩ := list_pop_spec hl hn i hi
  obtain ⟨hw, hg, hs, r⟩ := hl
  have hne : nodeAt g addrs i ≠ g := by
    intro e2
    have := nodeAt_inj r.1 (by omega : i ≤ addrs.length) (le_refl _)
      (by rw [nodeAt_of_le (le_refl _)]; exact e2)
    omega
  refine ⟨h', ⟨l.guard_, szSub l._size 1⟩, ?_, hold⟩
  have hneq : (ConstIterator.eq ⟨some (nodeAt g addrs i), gd⟩ l.end_) = false := by
    simp [ConstIterator.eq, end_, ConstIterator.make, hg, hne]
  simp only [erase, if_neg (show ¬ l._size = 0 by omega), hneq, Bool.false_eq_true, if_false,
    ConstIterator.copy, ConstIterator.node, e, bind, Except.bind]

/-! ### LinkedList: the structural invariant -/

theorem hops_next_spec {h : Heap α} {g : Nat} {addrs : List Nat} {xs : List α}
    (r : Ring h g addrs xs) :
    ∀ (n k : Nat), k + n ≤ addrs.length + 1 →
      hops h Node.next n (some (if k = 0 then g else nodeAt g addrs (k - 1))) =
        some ((List.range' k n).map (nodeAt g addrs)) := by
  intro n
  induction n with
  | zero => intro k _; simp [hops]
  | succ n ih =>
    intro k hk
    obtain ⟨nd, hnd, hnn⟩ := nextOf_eq (r.linked_at k (by omega)).1
    have := ih (k + 1) (by omega)
    rw [if_neg (by omega), show k + 1 - 1 = k by omega] at this
    simp only [hops, hnd, hnn, this, List.range'_succ, List.map_cons, Option.map_some']

theorem hops_prev_spec {h : Heap α} {g : Nat} {addrs : List Nat} {xs : List α}
    (r : Ring h g addrs xs) :
    ∀ (n k : Nat), n ≤ k + 1 → k ≤ addrs.length →
      hops h Node.prev n (some (nodeAt g addrs k)) =
        some ((List.range n).map fun j =>
          if k = j then g else nodeAt g addrs (k - 1 - j)) := by
  intro n
  induction n with
  | zero => intro k _ _; simp [hops]
  | succ n ih =>
    intro k hk hkl
    obtain ⟨nd, hnd, hnp⟩ := prevOf_eq (r.linked_at k hkl).2
    by_cases h0 : k = 0
    · subst h0
      have hn0 : n = 0 := by omega
      subst hn0
      rw [if_pos rfl] at hnp
      simp [hops, hnd, hnp, List.range_succ]
    · rw [if_neg h0] at hnp
      have := ih (k - 1) (by omega) (by omega)
      simp only [hops, hnd, hnp, this, Option.map_some', List.range_succ_eq_map, List.map_cons,
        List.map_map, if_neg h0, Nat.sub_zero]
      congr 2
      apply List.map_congr_left
      intro j _
      simp only [Function.comp, Nat.succ_eq_add_one]
      by_cases hj : k - 1 = j
      · rw [if_pos hj, if_pos (by omega)]
      · rw [if_neg hj, if_neg (by omega), show k - 1 - 1 - j = k - 1 - (j + 1) by omega]

/-- A list that holds its elements has the structural invariant. -/
theorem Holds.invariant {h : Heap α} {l : LinkedList α} {g : Nat} {addrs : List Nat}
    {xs : List α} (hl : Holds h l g addrs xs) : Invariant h l := by
  obtain ⟨hw, hg, hs, r⟩ := hl
  have hnd := List.nodup_cons.1 r.1
  have hlen := r.2.1
  have hsz : l.getSize = addrs.length := by rw [getSize, hs, hlen]
  have hgn : nodeAt g addrs addrs.length = g := nodeAt_of_le (le_refl _)
  refine ⟨g, addrs, hg, hsz.symm, hnd.1, ?_, ?_, ?_⟩
  · have := hops_next_spec r (addrs.length + 1) 0 (by omega)
    rw [if_pos rfl] at this
    rw [hsz, this]
    congr 1
    apply List.ext_getElem?
    intro k
    by_cases hk : k < addrs.length + 1
    · rw [List.getElem?_map, List.getElem?_range' _ _ hk]
      simp only [Option.map_some', Nat.zero_add, Nat.one_mul]
      by_cases hk2 : k < addrs.length
      · rw [List.getElem?_append_left hk2, nodeAt_of_lt hk2]
      · have hk3 : k = addrs.length := by omega
        subst hk3
        rw [hgn, List.getElem?_append_right (le_refl _)]
        simp
    · rw [List.getElem?_eq_none (by simp; omega), List.getElem?_eq_none (by simp; omega)]
  · have := hops_prev_spec r (addrs.length + 1) addrs.length (by omega) (le_refl _)
    rw [hgn] at this
    rw [hsz, this]
    congr 1
    apply List.ext_getElem?
    intro k
    by_cases hk : k < addrs.length + 1
    · rw [List.getElem?_map, List.getElem?_range hk]
      simp only [Option.map_some']
      by_cases hk2 : k < addrs.length
      · rw [if_neg (by omega), List.getElem?_append_left (by simpa using hk2),
          List.getElem?_reverse hk2]
        exact (nodeAt_of_lt (by omega)).symm
      · have hk3 : k = addrs.length := by omega
        subst hk3
        rw [if_pos rfl, List.getElem?_append_right (by simp)]
        simp
    · rw [List.getElem?_eq_none (by simp; omega), List.getElem?_eq_none (by simp; omega)]
  · intro n hn
    obtain ⟨k, hk, rfl⟩ : ∃ k, k ≤ addrs.length ∧ n = nodeAt g addrs k := by
      rcases List.mem_cons.1 hn with e | hm
      · exact ⟨addrs.length, le_refl _, by rw [hgn, e]⟩
      · obtain ⟨k, hk⟩ := List.mem_iff_getElem?.1 hm
        have hk2 : k < addrs.length := by
          by_contra hc
          rw [List.getElem?_eq_none (by omega)] at hk
          cases hk
        have e := nodeAt_of_lt (g := g) hk2
        rw [hk] at e
        exact ⟨k, by omega, Option.some.inj e⟩
    have hl1 := r.linked_at k hk
    refine ⟨⟨_, hl1.2, hl1.1⟩, ?_⟩
    by_cases hk2 : k < addrs.length
    · have hl2 := r.2.2.2.1 k hk2
      exact ⟨_, hl2.1, hl2.2⟩
    · have hk3 : k = addrs.length := by omega
      subst hk3
      rw [hgn]
      exact ⟨_, r.2.2.1.1, r.2.2.1.2⟩

/-- The outcome of `eraseOutcome` is that of `erase`. -/
theorem eraseOutcome_erase (h : Heap α) (l : LinkedList α) (pos : ConstIterator) :
    erase h l pos =
      match eraseOutcome h l pos with
      | (.ok _, some s) => .ok s
      | (.ok _, none) => .error .undefined
      | (.error e, _) => .error e.1 := by
  unfold erase eraseOutcome
  by_cases h0 : l._size = 0
  · simp only [if_pos h0]
  · simp only [if_neg h0]
    by_cases h1 : pos.eq l.end_ = true
    · simp only [if_pos h1]
    · simp only [if_neg h1]
      cases pop h pos.copy.node with
      | error e => rfl
      | ok r => rfl

/-! ### LinkedList: an offset of `2 ^ 31` -/

/-- The loop of `operator+` with an offset above `INT_MAX`, from an iterator on
an element node: its counter `i`, an `int`, reaches `INT_MAX` and is incremented
once more. -/
theorem addLoop_overflow {h : Heap α} {g : Nat} {addrs : List Nat} {xs : List α}
    (r : Ring h g addrs xs) (p : Nat) (hp : p < addrs.length) (d : Int) (hd : INT_MAX < d) :
    ∀ (fuel I q : Nat), I ≤ 2 ^ 31 - 1 → q + (2 ^ 31 - 1 - I) ≤ addrs.length →
      2 ^ 31 - 1 - I < fuel →
      ConstIterator.addLoop h ⟨some (nodeAt g addrs p), some (some g)⟩ d fuel (I : Int)
        (some (nodeAt g addrs q)) = .error .undefined := by
  obtain ⟨np, hnp, hnpn⟩ := nextOf_eq (r.next_at p hp)
  obtain ⟨ng, hng, hngn⟩ := nextOf_eq r.next_guard
  have hne : np.next ≠ ng.next := by
    rw [hnpn, hngn]
    intro hh
    have := nodeAt_inj r.1 (by omega) (by omega) (Option.some.inj hh)
    omega
  have hd2 : (2 ^ 31 - 1 : Int) < d := by unfold INT_MAX at hd; exact hd
  intro fuel
  induction fuel with
  | zero => intro I q _ _ hf; omega
  | succ fuel ih =>
    intro I q hI hq hf
    have h1 : ((I : Int) < d) := by omega
    by_cases hlt : I < 2 ^ 31 - 1
    · obtain ⟨nq, hnq, hnqn⟩ := nextOf_eq (r.next_at q (by omega))
      have h2 : ¬ ((I : Int) = INT_MAX) := by unfold INT_MAX; omega
      have := ih (I + 1) (q + 1) (by omega) (by omega) (by omega)
      simp only [ConstIterator.addLoop, if_pos h1, read_some hnp, ConstIterator.guardValue,
        read_some hng, if_neg hne, read_some hnq, hnqn, if_neg h2, bind, Except.bind]
      exact_mod_cast this
    · obtain ⟨nq, hnq⟩ := r.live_at q
      have h2 : (I : Int) = INT_MAX := by unfold INT_MAX; omega
      simp only [ConstIterator.addLoop, if_pos h1, read_some hnp, ConstIterator.guardValue,
        read_some hng, if_neg hne, read_some hnq, if_pos h2, bind, Except.bind]

/-- On a list of at least `2 ^ 31 - 1` elements, `begin() + d` with `d` above
`INT_MAX` leaves defined behaviour. -/
theorem list_begin_add_overflow {h : Heap α} {l : LinkedList α} {g : Nat} {addrs : List Nat}
    {xs : List α} (hl : Holds h l g addrs xs) (hn : 2 ^ 31 - 1 ≤ addrs.length) (D : Nat)
    (hD : 2 ^ 31 - 1 < D) :
    ∃ b, begin h l = .ok b ∧ Iterator.add h b (D : Int) = .error .undefined := by
  obtain ⟨hw, hg, hs, r⟩ := hl
  obtain ⟨ng, hng, hngn⟩ := nextOf_eq r.next_guard
  refine ⟨⟨some (nodeAt g addrs 0), some (some g)⟩, ?_, ?_⟩
  · simp only [begin, hg, read_some hng, hngn, ConstIterator.make, bind, Except.bind]
  · have := addLoop_overflow r 0 (by omega) (D : Int) (by unfold INT_MAX; omega) (D + 1) 0 0
      (by omega) (by omega) (by omega)
    simp only [Nat.cast_zero] at this
    simp only [Iterator.add, ConstIterator.add, Int.toNat_ofNat, this, bind, Except.bind]

end LinkedList

/-! ### The example runs -/

theorem holds_exVector9 : Vector.Holds exVector9 (List.range 9) :=
  Vector.Holds.of_buf rfl rfl (by decide)

theorem holds_exList (xs : List Nat) (hn : xs.length < 2 ^ 64) :
    LinkedList.Holds (exList xs).1 (exList xs).2 0 (List.range' 1 xs.length) xs ∧
      (exList xs).1.fresh = 1 + xs.length := by
  obtain ⟨h0, l0, e0, f0, hl0⟩ := LinkedList.empty_spec (LinkedList.wf_init (α := Nat))
  obtain ⟨h1, l1, e1, f1, hl1⟩ := LinkedList.list_appendAll_spec xs hl0 (by simpa using hn)
  have e : exList xs = (h1, l1) := by
    simp only [exList, e0, e1, bind, Except.bind]
  rw [e]
  have f : h0.fresh = 1 := by rw [f0]; rfl
  rw [f] at hl1 f1
  exact ⟨by simpa [Heap.init] using hl1, f1⟩

theorem length_exAppends : exAppends.length = 100000 := List.length_range _

theorem length_exBig : exBig.length = 2 ^ 31 + 1 := List.length_range _

theorem length_exBigList : exBigList.length = 2 ^ 31 := List.length_range _

/-! ### The claims -/

/-- C1: appending the elements of `xs` one by one to a default-constructed
vector succeeds, `getSize()` is then the length of `xs` and `operator[](i)` is
`xs[i]` for every `i` below it, whatever growths (0 to 8, then doubling) happen;
`xs` has at most `2 ^ 63` elements, so that no doubled capacity leaves `size_t`. -/
theorem C1_append_getSize_subscript {α : Type} (xs : List α) (hn : xs.length ≤ 2 ^ 63) :
    ∃ v, Vector.appendAll (Vector.empty : Vector α) xs = .ok v ∧ v.getSize = xs.length ∧
      ∀ (i : Nat) (hi : i < xs.length), v.subscript i = .ok xs[i] := by
  obtain ⟨v, e, h, -⟩ := Vector.appendAll_spec xs (Vector.holds_empty (α := α))
    Vector.alloc_empty (by simpa using hn)
  simp only [List.nil_append] at h
  exact ⟨v, e, h.1, fun i hi => h.subscript i hi⟩

/-- C1 at nine appends, which grow the capacity from 0 to 8 and from 8 to 16. -/
theorem C1_witness :
    (List.range 9).length ≤ 2 ^ 63 ∧
    ∃ v, Vector.appendAll (Vector.empty : Vector Nat) (List.range 9) = .ok v ∧
      v.getSize = (List.range 9).length ∧
      ∀ (i : Nat) (hi : i < (List.range 9).length), v.subscript i = .ok (List.range 9)[i] :=
  ⟨by decide, C1_append_getSize_subscript (List.range 9) (by decide)⟩

/-- C2: on a default-constructed vector, which was never moved from,
`operator[](0)` throws `std::runtime_error` and not `std::out_of_range`: the
test of `_array` against `nullptr` comes first, and `Vector()` leaves `_array`
null. -/
theorem C2_subscript_default_constructed :
    (Vector.empty : Vector Nat).getSize = 0 ∧
    (Vector.empty : Vector Nat).subscript 0 = .error .runtime_error := by
  decide

/-- C3 fails: the vector holding `[0, ..., 8]`, once moved from by the move
constructor or by the move assignment, still reports `isEmpty() == false`. -/
theorem C3_counterexample :
    Vector.appendAll (Vector.empty : Vector Nat) (List.range 9) = .ok exVector9 ∧
    (Vector.moveConstruct exVector9).2.isEmpty = false ∧
    (Vector.moveAssign (Vector.empty : Vector Nat) exVector9 false).2.isEmpty = false := by
  decide

/-- C3 as amended: a move, by construction or by assignment to another vector,
leaves the size of its source as it was, so that the source answers `getSize()`
and `isEmpty()` as before the move; only its `_array` is reset, to `nullptr`,
and the vector built or assigned takes over buffer, capacity and size. -/
theorem C3_moved_from_keeps_size {α : Type} (v this : Vector α) :
    ((Vector.moveConstruct v).2.getSize = v.getSize ∧
      (Vector.moveConstruct v).2.isEmpty = v.isEmpty ∧
      (Vector.moveConstruct v).2._array = none ∧ (Vector.moveConstruct v).1 = v) ∧
    ((Vector.moveAssign this v false).2.getSize = v.getSize ∧
      (Vector.moveAssign this v false).2.isEmpty = v.isEmpty ∧
      (Vector.moveAssign this v false).2._array = none ∧
      (Vector.moveAssign this v false).1 = v) := by
  refine ⟨⟨rfl, rfl, rfl, rfl⟩, ⟨rfl, rfl, rfl, rfl⟩⟩

/-- C5: the vector with capacity 16 and the four elements left by nine appends
and five `popLast()` calls: one more `popLast()` leaves three elements, fewer
than `16 / 4`, and the capacity 16, because it tests the size before the
removal; `popFirst()` on the same vector leaves the capacity 8. -/
theorem C5_popLast_tests_size_before_removal :
    (do
      let v ← Vector.appendAll (Vector.empty : Vector Nat) (List.range 9)
      let v ← Vector.popLastTimes 5 v
      let (_, w) ← v.popLast
      let (_, u) ← v.popFirst
      .ok ((v.getSize, v.getCapacity), (w.getSize, w.getCapacity), (u.getSize, u.getCapacity)) :
        Except Exn ((Nat × Nat) × (Nat × Nat) × (Nat × Nat))) =
      .ok ((4, 16), (3, 16), (3, 8)) := by
  decide

/-- C6: `operator-` of a vector iterator never throws, because
`_position - d < 0` compares a `size_t`; on the vector `[0, ..., 8]` the
expression `begin() - 1` returns an iterator whose `_position` is `2 ^ 64 - 1`
and whose `_elem` lies one slot before the buffer. -/
theorem C6_sub_before_begin :
    (∀ (it : Vector.ConstIterator) (d : Int), ∃ r, it.sub d = .ok r) ∧
    exVector9.begin._position = 0 ∧
    exVector9.begin.sub 1 = .ok ⟨2 ^ 64 - 1, ⟨true, -1⟩⟩ := by
  refine ⟨fun it d => ?_, by decide, by decide⟩
  exact ⟨⟨szSub it._position (szOfInt d), ⟨it._elem.base, it._elem.off - d⟩⟩,
    by simp only [Vector.ConstIterator.sub, Nat.not_lt_zero, if_false]⟩

/-- C7: on the list `[10]` the expression `cbegin() + 2`, two steps from
position 0 of a list of one element, throws nothing: it returns an iterator
equal to `cbegin()`, having gone through the guard, because the loop tests the
iterator it started from. -/
theorem C7_add_wraps_around :
    (do
      let b ← LinkedList.begin (exList [10]).1 (exList [10]).2
      let it ← LinkedList.ConstIterator.add (exList [10]).1 b 2
      let x ← LinkedList.ConstIterator.deref (exList [10]).1 it
      .ok ((exList [10]).2.getSize, it == b, it == (exList [10]).2.end_, x) :
        Except Exn (Nat × Bool × Bool × Nat)) =
      .ok (1, true, false, 10) := by
  decide

/-- C11: on a vector holding `xs` with capacity `c`, for `i < |xs|`, the call
`erase(begin() + i)` succeeds and leaves `xs` without the element of index `i`,
the others in their order, `getSize()` being `|xs| - 1`, and `getCapacity()`
being `c / 2` when `c > 8` and `|xs| - 1 < c / 4`, and `c` otherwise. -/
theorem C11_erase_at_index {α : Type} (v : Vector α) (xs : List α) (i : Nat)
    (h : Vector.Holds v xs) (hn : xs.length < 2 ^ 64) (hi : i < xs.length) :
    ∃ pos v', v.begin.add v (i : Int) = .ok pos ∧ v.erase pos = .ok v' ∧
      Vector.Holds v' (xs.eraseIdx i) ∧ v'.getSize = xs.length - 1 ∧
      v'.getCapacity = (if v.getCapacity > 8 ∧ xs.length - 1 < v.getCapacity / 4
        then v.getCapacity / 2 else v.getCapacity) := by
  obtain ⟨v', e, h', hcap, -⟩ := Vector.erase_spec h hn i hi
  rw [← List.eraseIdx_eq_take_drop_succ] at h'
  refine ⟨_, v', Vector.begin_add i (by rw [h.1]; omega) (by rw [h.1]; omega), e, h', ?_, hcap⟩
  rw [Vector.getSize, h'.1, List.length_eraseIdx, if_pos hi]

/-- C11 on the vector `[0, ..., 8]` of capacity 16, index 3. -/
theorem C11_witness :
    Vector.Holds exVector9 (List.range 9) ∧
    ∃ pos v', exVector9.begin.add exVector9 ((3 : Nat) : Int) = .ok pos ∧
      exVector9.erase pos = .ok v' ∧
      Vector.Holds v' ((List.range 9).eraseIdx 3) ∧ v'.getSize = (List.range 9).length - 1 ∧
      v'.getCapacity = (if exVector9.getCapacity > 8 ∧
          (List.range 9).length - 1 < exVector9.getCapacity / 4
        then exVector9.getCapacity / 2 else exVector9.getCapacity) :=
  ⟨holds_exVector9, C11_erase_at_index exVector9 (List.range 9) 3 holds_exVector9 (by decide)
    (by decide)⟩

/-- C12: `erase(first, last)` never changes the capacity. On the vector
`[0, ..., 8]` of capacity 16 the call `erase(begin(), begin() + 7)` leaves two
elements, fewer than `16 / 4`, and the capacity 16, where seven `popFirst()`
calls on the same vector leave the capacity 8. -/
theorem C12_range_erase_keeps_capacity :
    (∀ (α : Type) (v : Vector α) (first last : Vector.ConstIterator),
      (v.eraseRange first last).map Vector.getCapacity =
        (v.eraseRange first last).map fun _ => v.getCapacity) ∧
    (do
      let v ← Vector.appendAll (Vector.empty : Vector Nat) (List.range 9)
      let first ← v.begin.add v 0
      let last ← v.begin.add v 7
      let w ← v.eraseRange first last
      let u ← Vector.popFirstTimes 7 v
      .ok ((v.getSize, v.getCapacity), (w.getSize, w.getCapacity), (u.getSize, u.getCapacity)) :
        Except Exn ((Nat × Nat) × (Nat × Nat) × (Nat × Nat))) =
      .ok ((9, 16), (2, 16), (2, 8)) := by
  refine ⟨?_, by decide⟩
  intro α v first last
  unfold Vector.eraseRange
  split
  · rfl
  · cases Vector.indexOf v first with
    | error e => rfl
    | ok index =>
      simp only [Vector.ok_bind]
      generalize (if last.eq v.end_ = true then (Except.ok (szSub v._size index) : Except Exn Nat)
        else (do
          let p ← last.deref v
          let q ← first.deref v
          let d ← p.diff q
          .ok (szOfInt d))) = r
      cases r with
      | error e => rfl
      | ok n =>
        simp only [Vector.ok_bind]
        split
        · rfl
        · cases Vector.moveElementsLeft v (szAdd index n) (intOfSz n) with
          | error e => rfl
          | ok arr => rfl

/-- C13: after the elements of `xs` are appended to a default-constructed
vector, `|xs|` calls of `popLast()` succeed and return the elements of `xs` last
to first, whatever shrinks happen in between, the vector is then empty, and one
more `popLast()` throws `std::length_error`; `xs` has at most `2 ^ 63`
elements. -/
theorem C13_popLast_returns_reversed {α : Type} (xs : List α) (hn : xs.length ≤ 2 ^ 63) :
    ∃ v w, Vector.appendAll (Vector.empty : Vector α) xs = .ok v ∧
      Vector.popLastValues xs.length v = .ok (xs.reverse, w) ∧ w.getSize = 0 ∧
      w.popLast = .error .length_error := by
  obtain ⟨v, e, h, -⟩ := Vector.appendAll_spec xs (Vector.holds_empty (α := α))
    Vector.alloc_empty (by simpa using hn)
  simp only [List.nil_append] at h
  obtain ⟨w, e2, hw⟩ := Vector.popLastValues_spec xs h (by omega)
  exact ⟨v, w, e, e2, hw.1, Vector.popLast_empty hw⟩

/-- C13 on the nine elements `50, 51, ..., 58`. -/
theorem C13_witness :
    (List.range' 50 9).length ≤ 2 ^ 63 ∧
    ∃ v w, Vector.appendAll (Vector.empty : Vector Nat) (List.range' 50 9) = .ok v ∧
      Vector.popLastValues (List.range' 50 9).length v = .ok ((List.range' 50 9).reverse, w) ∧
      w.getSize = 0 ∧ w.popLast = .error .length_error :=
  ⟨by decide, C13_popLast_returns_reversed (List.range' 50 9) (by decide)⟩

/-- C15: for a source vector `s` holding `xs` (at most `2 ^ 63` elements), the
copy constructor builds a vector `c` with `c.getSize() == s.getSize()` and
`c[i] == s[i]` for every `i` below it; the copy assignment `d = s` does the same
to every destination `d`, whatever its size and capacity, when `s` has its size
within its capacity; assigning `s` to itself leaves it as it is. The source is
only read. -/
theorem C15_copy_keeps_elements {α : Type} (s : Vector α) (xs : List α)
    (h : Vector.Holds s xs) (hn : xs.length ≤ 2 ^ 63) :
    (∃ c, s.copyConstruct = .ok c ∧ Vector.Holds c xs ∧ c.getSize = s.getSize ∧
      ∀ i, i < s.getSize → ∃ x, s.subscript i = .ok x ∧ c.subscript i = .ok x) ∧
    (s.getSize ≤ s.getCapacity → ∀ d : Vector α,
      ∃ c, d.copyAssign s false = .ok c ∧ Vector.Holds c xs ∧ c.getSize = s.getSize ∧
        ∀ i, i < s.getSize → ∃ x, s.subscript i = .ok x ∧ c.subscript i = .ok x) ∧
    s.copyAssign s true = .ok s := by
  have hsub : ∀ c : Vector α, Vector.Holds c xs → c.getSize = s.getSize ∧
      ∀ i, i < s.getSize → ∃ x, s.subscript i = .ok x ∧ c.subscript i = .ok x := by
    intro c hc
    refine ⟨by rw [Vector.getSize, Vector.getSize, hc.1, h.1], ?_⟩
    intro i hi
    have hi2 : i < xs.length := by rw [Vector.getSize, h.1] at hi; exact hi
    exact ⟨xs[i], h.subscript i hi2, hc.subscript i hi2⟩
  refine ⟨?_, ?_, rfl⟩
  · obtain ⟨c, e, hc⟩ := Vector.copyLoop_spec h hn (s._size + 1) 0
      ⟨some (newArray s._size), s._capacity, 0⟩ (by omega) (by rw [h.1]; omega)
      ⟨rfl, fun k x hx => by simp at hx⟩
      (Or.inr ⟨_, rfl, by simp [newArray, h.1], by simp⟩)
    exact ⟨c, e, hc, hsub c hc⟩
  · intro hcap d
    obtain ⟨c, e, hc⟩ := Vector.copyLoop_spec h hn (s._size + 1) 0
      ⟨some (newArray s._capacity), d._capacity, 0⟩ (by omega) (by rw [h.1]; omega)
      ⟨rfl, fun k x hx => by simp at hx⟩
      (Or.inr ⟨_, rfl, by
        simp only [Vector.getSize, Vector.getCapacity] at hcap
        simp only [newArray, List.length_replicate]
        rw [← h.1]; exact hcap, by simp⟩)
    exact ⟨c, e, hc, hsub c hc⟩

/-- C15 from the source `[0, ..., 8]` of capacity 16, into a default-constructed
destination and into the full vector `[0, ..., 7]` of capacity 8. -/
theorem C15_witness :
    Vector.Holds exVector9 (List.range 9) ∧ exVector9.getSize ≤ exVector9.getCapacity ∧
    (∃ c, exVector9.copyConstruct = .ok c ∧ c.getSize = exVector9.getSize ∧
      ∀ i, i < exVector9.getSize → ∃ x, exVector9.subscript i = .ok x ∧ c.subscript i = .ok x) ∧
    (∃ c, (Vector.empty : Vector Nat).copyAssign exVector9 false = .ok c ∧
      c.getSize = exVector9.getSize ∧
      ∀ i, i < exVector9.getSize → ∃ x, exVector9.subscript i = .ok x ∧ c.subscript i = .ok x) ∧
    (∃ c, exVector8.copyAssign exVector9 false = .ok c ∧ c.getSize = exVector9.getSize ∧
      ∀ i, i < exVector9.getSize → ∃ x, exVector9.subscript i = .ok x ∧ c.subscript i = .ok x) :=
  have t := C15_copy_keeps_elements exVector9 (List.range 9) holds_exVector9 (by decide)
  ⟨holds_exVector9, by decide,
    t.1.imp fun _ hc => ⟨hc.1, hc.2.2⟩,
    (t.2.1 (by decide) Vector.empty).imp fun _ hc => ⟨hc.1, hc.2.2⟩,
    (t.2.1 (by decide) exVector8).imp fun _ hc => ⟨hc.1, hc.2.2⟩⟩

/-- C16: for more than eight elements `xs` (at most `2 ^ 63`) appended to a
default-constructed vector, which reaches the capacity `C`: every run of
`m ≤ |xs|` calls of `popFirst()` succeeds and leaves the elements `drop m xs`;
the capacity is still `C` while at least `C / 4` elements are left and is
`C / 2` after the pop that leaves `C / 4 - 1`; after `|xs|` pops the size is 0
and the capacity is 8, below `C`, and one more `popFirst()` throws
`std::length_error`. -/
theorem C16_popFirst_shrinks {α : Type} (xs : List α) (h8 : 8 < xs.length)
    (hn : xs.length ≤ 2 ^ 63) :
    ∃ v, Vector.appendAll (Vector.empty : Vector α) xs = .ok v ∧ v.getSize = xs.length ∧
      (∀ m, m ≤ xs.length → ∃ w, Vector.popFirstTimes m v = .ok w ∧
        Vector.Holds w (xs.drop m) ∧ w.getSize = xs.length - m ∧
        (v.getCapacity / 4 ≤ xs.length - m → w.getCapacity = v.getCapacity) ∧
        (xs.length - m + 1 = v.getCapacity / 4 → w.getCapacity = v.getCapacity / 2)) ∧
      ∃ w, Vector.popFirstTimes xs.length v = .ok w ∧ w.getSize = 0 ∧ w.getCapacity = 8 ∧
        w.getCapacity < v.getCapacity ∧ w.popFirst = .error .length_error := by
  obtain ⟨v, e, h, ha, hinv⟩ := Vector.appendAll_cap xs (Vector.holds_empty (α := α))
    Vector.alloc_empty (Or.inl ⟨rfl, rfl⟩) (by simpa using hn)
  simp only [List.nil_append] at h
  have hsz := h.1
  have hinv2 : ∃ k, v._capacity = 8 * 2 ^ k ∧ v._size ≤ v._capacity ∧
      (k = 0 ∨ 4 * 2 ^ k < v._size) := by
    rcases hinv with ⟨-, h0⟩ | hk
    · omega
    · exact hk
  obtain ⟨k, hk1, hk2, hk3⟩ := hinv2
  have hinv3 : ∃ k, v._capacity = 8 * 2 ^ k ∧ (k = 0 ∨ 2 * 2 ^ k ≤ v._size) :=
    ⟨k, hk1, hk3.imp id fun hlt => by omega⟩
  have hcap8 : 8 < v._capacity := by omega
  refine ⟨v, e, hsz, ?_, ?_⟩
  · intro m hm
    obtain ⟨w, e2, hw, -, -, hc1, hc2⟩ := Vector.popFirstTimes_spec m h ha (by omega) hinv3 hm
    refine ⟨w, e2, hw, ?_, hc1, hc2 hcap8⟩
    rw [Vector.getSize, hw.1, List.length_drop]
  · obtain ⟨w, e2, hw, -, ⟨j, hj1, hj2⟩, -, -⟩ :=
      Vector.popFirstTimes_spec xs.length h ha (by omega) hinv3 (le_refl _)
    rw [List.drop_length] at hw
    have hw0 : w._size = 0 := hw.1
    have hj0 : j = 0 := by
      rcases hj2 with hj | hj
      · exact hj
      · have := Nat.two_pow_pos j
        omega
    have hw8 : w._capacity = 8 := by rw [hj1, hj0]; rfl
    refine ⟨w, e2, hw0, hw8, ?_, Vector.popFirst_empty hw⟩
    show w._capacity < v._capacity
    omega

/-- C16 at 100000 appends, as in `main`. -/
theorem C16_witness :
    (8 < exAppends.length ∧ exAppends.length ≤ 2 ^ 63) ∧
    ∃ v, Vector.appendAll (Vector.empty : Vector Nat) exAppends = .ok v ∧
      v.getSize = exAppends.length ∧
      (∀ m, m ≤ exAppends.length → ∃ w, Vector.popFirstTimes m v = .ok w ∧
        Vector.Holds w (exAppends.drop m) ∧ w.getSize = exAppends.length - m ∧
        (v.getCapacity / 4 ≤ exAppends.length - m → w.getCapacity = v.getCapacity) ∧
        (exAppends.length - m + 1 = v.getCapacity / 4 → w.getCapacity = v.getCapacity / 2)) ∧
      ∃ w, Vector.popFirstTimes exAppends.length v = .ok w ∧ w.getSize = 0 ∧
        w.getCapacity = 8 ∧ w.getCapacity < v.getCapacity ∧
        w.popFirst = .error .length_error :=
  have hl : exAppends.length = 100000 := length_exAppends
  ⟨⟨by rw [hl]; decide, by rw [hl]; decide⟩,
    C16_popFirst_shrinks exAppends (by rw [hl]; decide) (by rw [hl]; decide)⟩

/-- C17: `erase(pos)` on a list of size zero throws `std::out_of_range` with the
message "Erasing empty list", and `erase(end())` on a list of another size
throws `std::out_of_range` with the message "Erasing end iterator"; in both
cases the store, and with it the chain of nodes, and the list with its size are
as before the call. -/
theorem C17_erase_failures {α : Type} (h : Heap α) (l : LinkedList α) :
    (l.getSize = 0 → ∀ pos, LinkedList.erase h l pos = .error .out_of_range ∧
      LinkedList.eraseOutcome h l pos =
        (.error (.out_of_range, "Erasing empty list"), some (h, l))) ∧
    (l.getSize ≠ 0 → LinkedList.erase h l l.end_ = .error .out_of_range ∧
      LinkedList.eraseOutcome h l l.end_ =
        (.error (.out_of_range, "Erasing end iterator"), some (h, l))) := by
  constructor
  · intro h0 pos
    have h0' : l._size = 0 := h0
    simp [LinkedList.erase, LinkedList.eraseOutcome, h0']
  · intro h0
    have h0' : ¬ l._size = 0 := h0
    simp [LinkedList.erase, LinkedList.eraseOutcome, h0', LinkedList.ConstIterator.eq]

/-- C17 on the list just constructed, with `begin()` as the position, and on the
list `[10, 20]` built by appends. -/
theorem C17_witness :
    ((exList []).2.getSize = 0 ∧ (exList [10, 20]).2.getSize ≠ 0) ∧
    (∀ pos, LinkedList.erase (exList []).1 (exList []).2 pos = .error .out_of_range ∧
      LinkedList.eraseOutcome (exList []).1 (exList []).2 pos =
        (.error (.out_of_range, "Erasing empty list"), some ((exList []).1, (exList []).2))) ∧
    (LinkedList.erase (exList [10, 20]).1 (exList [10, 20]).2 (exList [10, 20]).2.end_ =
        .error .out_of_range ∧
      LinkedList.eraseOutcome (exList [10, 20]).1 (exList [10, 20]).2 (exList [10, 20]).2.end_ =
        (.error (.out_of_range, "Erasing end iterator"),
          some ((exList [10, 20]).1, (exList [10, 20]).2))) :=
  ⟨⟨by decide, by decide⟩,
    (C17_erase_failures (exList []).1 (exList []).2).1 (by decide),
    (C17_erase_failures (exList [10, 20]).1 (exList [10, 20]).2).2 (by decide)⟩

/-- C18: dereferencing `end()` throws `std::out_of_range`, on every vector and
on every list, whatever they hold and however they were built. -/
theorem C18_deref_end :
    (∀ (α : Type) (v : Vector α), v.end_.deref v = .error .out_of_range) ∧
    (∀ (α : Type) (h : Heap α) (l : LinkedList α),
      LinkedList.ConstIterator.deref h l.end_ = .error .out_of_range) := by
  constructor
  · intro α v
    simp [Vector.ConstIterator.deref, Vector.end_, Vector.getSize]
  · intro α h l
    cases hg : l.guard_ with
    | none => simp [LinkedList.ConstIterator.deref, LinkedList.end_, LinkedList.ConstIterator.make, hg]
    | some g =>
      simp [LinkedList.ConstIterator.deref, LinkedList.end_, LinkedList.ConstIterator.make, hg,
        LinkedList.ConstIterator.guardValue, bind, Except.bind]

/-- C19, the number of hops: on the list `[10]` built by an append, of size 1,
one hop along `next` from the guard ends at the element node and not at the
guard, which the second hop reaches. -/
theorem C19_counterexample :
    (exList [10]).2.getSize = 1 ∧ (exList [10]).2.guard_ = some 0 ∧
    LinkedList.hops (exList [10]).1 Node.next (exList [10]).2.getSize (exList [10]).2.guard_ =
      some [1] ∧
    LinkedList.hops (exList [10]).1 Node.next ((exList [10]).2.getSize + 1)
      (exList [10]).2.guard_ = some [1, 0] := by
  decide

/-- C19: the list just constructed has the structural invariant (along `next`
the guard is followed by `getSize()` nodes and then, at hop `getSize() + 1`, by
the guard again, along `prev` by the same nodes in reverse, and every node `n`
of the ring has `n.prev.next == n` and `n.next.prev == n`), and so has every
list that holds its
elements `xs` in the nodes `addrs` of a well-formed store. From such a list,
`append`, `prepend`, `insert` at an iterator on the node of position `i ≤ |xs|`
(the guard, as in `end()`, for `i = |xs|`), `popFirst` and `popLast` when it is
not empty, `erase` at an iterator on the node of position `i < |xs|`, and the
range erase between the nodes of positions `i ≤ j ≤ |xs|` all succeed and leave
such a list again, of the size expected. Sizes are below `2 ^ 64`, and a range
has fewer than `2 ^ 31` nodes, which are counted in an `int`. -/
theorem C19_ring_invariant {α : Type} (h : Heap α) (l : LinkedList α) (g : Nat)
    (addrs : List Nat) (xs : List α) (hl : LinkedList.Holds h l g addrs xs)
    (hn : xs.length + 1 < 2 ^ 64) :
    (∀ h0 : Heap α, h0.WF → ∃ h1 l1, LinkedList.empty h0 = .ok (h1, l1) ∧ l1.getSize = 0 ∧
      LinkedList.Holds h1 l1 h0.fresh [] [] ∧ LinkedList.Invariant h1 l1) ∧
    LinkedList.Invariant h l ∧ l.end_.itr = some (LinkedList.nodeAt g addrs xs.length) ∧
    (∀ x, ∃ h' l', LinkedList.append h l x = .ok (h', l') ∧ l'.getSize = l.getSize + 1 ∧
      LinkedList.Holds h' l' g (addrs ++ [h.fresh]) (xs ++ [x]) ∧
      LinkedList.Invariant h' l') ∧
    (∀ x, ∃ h' l', LinkedList.prepend h l x = .ok (h', l') ∧ l'.getSize = l.getSize + 1 ∧
      LinkedList.Holds h' l' g (h.fresh :: addrs) (x :: xs) ∧ LinkedList.Invariant h' l') ∧
    (∀ (i : Nat) (pos : LinkedList.ConstIterator) (x : α), i ≤ xs.length →
      pos.itr = some (LinkedList.nodeAt g addrs i) →
      ∃ h' l', LinkedList.insert h l pos x = .ok (h', l') ∧ l'.getSize = l.getSize + 1 ∧
        LinkedList.Holds h' l' g (addrs.take i ++ h.fresh :: addrs.drop i)
          (xs.take i ++ x :: xs.drop i) ∧
        LinkedList.Invariant h' l') ∧
    (0 < xs.length →
      (∃ h' l' x, LinkedList.popFirst h l = .ok (h', l', x) ∧ l'.getSize = l.getSize - 1 ∧
        LinkedList.Holds h' l' g (addrs.drop 1) (xs.drop 1) ∧ LinkedList.Invariant h' l') ∧
      (∃ h' l' x, LinkedList.popLast h l = .ok (h', l', x) ∧ l'.getSize = l.getSize - 1 ∧
        LinkedList.Holds h' l' g (addrs.take (addrs.length - 1)) (xs.take (xs.length - 1)) ∧
        LinkedList.Invariant h' l')) ∧
    (∀ (i : Nat) (pos : LinkedList.ConstIterator), i < xs.length →
      pos.itr = some (LinkedList.nodeAt g addrs i) →
      ∃ h' l', LinkedList.erase h l pos = .ok (h', l') ∧ l'.getSize = l.getSize - 1 ∧
        LinkedList.Holds h' l' g (addrs.eraseIdx i) (xs.eraseIdx i) ∧
        LinkedList.Invariant h' l') ∧
    (∀ (i j : Nat) (first last : LinkedList.ConstIterator), i ≤ j → j ≤ xs.length →
      j - i < 2 ^ 31 → first.itr = some (LinkedList.nodeAt g addrs i) →
      last.itr = some (LinkedList.nodeAt g addrs j) →
      ∃ h' l', LinkedList.eraseRange h l first last = .ok (h', l') ∧
        l'.getSize = l.getSize - (j - i) ∧
        LinkedList.Holds h' l' g (addrs.take i ++ addrs.drop j) (xs.take i ++ xs.drop j) ∧
        LinkedList.Invariant h' l') := by
  have hlen : addrs.length = xs.length := hl.2.2.2.2.1
  have hsz : l.getSize = xs.length := hl.2.2.1
  have hsize : ∀ {h' : Heap α} {l' : LinkedList α} {a : List Nat} {ys : List α},
      LinkedList.Holds h' l' g a ys → l'.getSize = ys.length := fun hh => hh.2.2.1
  refine ⟨?_, hl.invariant, ?_, ?_, ?_, ?_, ?_, ?_, ?_⟩
  · intro h0 hw
    obtain ⟨h1, l1, e, -, hold⟩ := LinkedList.empty_spec hw
    exact ⟨h1, l1, e, hold.2.2.1, hold, hold.invariant⟩
  · rw [← hlen, LinkedList.nodeAt_of_le (le_refl _)]
    exact hl.2.1
  · intro x
    obtain ⟨h', l', e, -, hold⟩ := LinkedList.list_append_spec hl hn x
    exact ⟨h', l', e, by rw [hsize hold, hsz]; simp, hold, hold.invariant⟩
  · intro x
    obtain ⟨h', l', e, -, hold⟩ := LinkedList.list_insert_spec hl hn 0 (by omega) none x
    rw [← LinkedList.list_prepend_eq_insert hl none x] at e
    simp only [List.take_zero, List.nil_append, List.drop_zero] at hold
    exact ⟨h', l', e, by rw [hsize hold, hsz]; simp, hold, hold.invariant⟩
  · intro i pos x hi hpos
    obtain ⟨itr, gd⟩ := pos
    simp only at hpos
    subst hpos
    obtain ⟨h', l', e, -, hold⟩ := LinkedList.list_insert_spec hl hn i (by omega) gd x
    refine ⟨h', l', e, ?_, hold, hold.invariant⟩
    rw [hsize hold, hsz]
    simp; omega
  · intro hp
    constructor
    · obtain ⟨h', l', x, e, -, hold⟩ := LinkedList.list_popFirst_spec hl (by omega) hp
      exact ⟨h', l', x, e, by rw [hsize hold, hsz]; simp, hold, hold.invariant⟩
    · obtain ⟨h', l', x, e, -, hold⟩ := LinkedList.list_popLast_spec hl (by omega) hp
      refine ⟨h', l', x, e, ?_, hold, hold.invariant⟩
      rw [hsize hold, hsz]
      simp
  · intro i pos hi hpos
    obtain ⟨itr, gd⟩ := pos
    simp only at hpos
    subst hpos
    obtain ⟨h', l', e, hold⟩ := LinkedList.list_erase_spec hl (by omega) i (by omega) gd
    rw [← List.eraseIdx_eq_take_drop_succ, ← List.eraseIdx_eq_take_drop_succ] at hold
    refine ⟨h', l', e, ?_, hold, hold.invariant⟩
    rw [hsize hold, hsz, List.length_eraseIdx, if_pos hi]
  · intro i j first last hij hj hc hf ht
    obtain ⟨fi, fg⟩ := first
    obtain ⟨li, lg⟩ := last
    simp only at hf ht
    subst hf ht
    obtain ⟨h', l', e, hold, -⟩ := LinkedList.list_eraseRange_spec hl i j hij (by omega)
      (by unfold INT_MAX; omega) (by omega)
    refine ⟨h', l', e, ?_, hold, hold.invariant⟩
    rw [hsize hold, hsz]
    simp; omega

/-- C19 on the list `[10, 20, 30]` built by appends: the list itself, the list
after an `insert` before its second node, and the list after `popLast`. -/
theorem C19_witness :
    LinkedList.Holds (exList [10, 20, 30]).1 (exList [10, 20, 30]).2 0 [1, 2, 3] [10, 20, 30] ∧
    LinkedList.Invariant (exList [10, 20, 30]).1 (exList [10, 20, 30]).2 ∧
    (∃ h' l', LinkedList.insert (exList [10, 20, 30]).1 (exList [10, 20, 30]).2
        ⟨some 2, none⟩ 15 = .ok (h', l') ∧
      l'.getSize = (exList [10, 20, 30]).2.getSize + 1 ∧
      LinkedList.Holds h' l' 0
        ([1, 2, 3].take 1 ++ (exList [10, 20, 30]).1.fresh :: [1, 2, 3].drop 1)
        ([10, 20, 30].take 1 ++ 15 :: [10, 20, 30].drop 1) ∧
      LinkedList.Invariant h' l') ∧
    (∃ h' l' x, LinkedList.popLast (exList [10, 20, 30]).1 (exList [10, 20, 30]).2 =
        .ok (h', l', x) ∧
      l'.getSize = (exList [10, 20, 30]).2.getSize - 1 ∧
      LinkedList.Holds h' l' 0 ([1, 2, 3].take ([1, 2, 3].length - 1))
        ([10, 20, 30].take ([10, 20, 30].length - 1)) ∧
      LinkedList.Invariant h' l') :=
  have t := C19_ring_invariant (exList [10, 20, 30]).1 (exList [10, 20, 30]).2 0 [1, 2, 3]
    [10, 20, 30] (holds_exList [10, 20, 30] (by decide)).1 (by decide)
  ⟨(holds_exList [10, 20, 30] (by decide)).1, t.2.1,
    t.2.2.2.2.2.1 1 ⟨some 2, none⟩ 15 (by decide) rfl,
    (t.2.2.2.2.2.2.1 (by decide)).2⟩

/-- C20: the copy constructor allocates `other._size` slots and records
`other._capacity`, the copy assignment allocates `other._capacity` slots and
keeps the capacity the destination had. The copy built from `[0, ..., 8]` of
capacity 16 has 9 slots and reports the capacity 16, so that `append` on it
writes behind its buffer; assigning `[0, ..., 7]` of capacity 8 to it leaves 8
slots and the capacity 16. -/
theorem C20_copy_capacity_is_not_the_slots :
    (exVector9.getSize, exVector9.getCapacity, exVector9.slots) = (9, 16, 16) ∧
    (do
      let c ← exVector9.copyConstruct
      .ok (c.getSize, c.getCapacity, c.slots) : Except Exn (Nat × Nat × Nat)) = .ok (9, 16, 9) ∧
    (do
      let c ← exVector9.copyConstruct
      let c ← c.append 100
      .ok c.getSize : Except Exn Nat) = .error .undefined ∧
    (do
      let c ← exVector9.copyAssign exVector8 false
      .ok (c.getSize, c.getCapacity, c.slots) : Except Exn (Nat × Nat × Nat)) = .ok (8, 16, 8) := by
  decide

/-- C21: from the default constructor and from the initializer-list
constructor, which builds a vector of size and capacity `|l|`, every sequence of
calls of `append`, `prepend`, `insert`, `popFirst`, `popLast`, `erase(pos)` and
`erase(first, last)`, with any arguments, that all return leaves
`getSize() <= getCapacity()`, across the growths and the shrinks, odd capacities
included. The elements given and the calls are fewer than `2 ^ 63`, so that no
doubled capacity leaves `size_t`. -/
theorem C21_size_le_capacity {α : Type} (l : List α) (calls : List (Vector.Call α))
    (hn : l.length + calls.length < 2 ^ 63) :
    (∀ v, Vector.runCalls calls (Vector.empty : Vector α) = .ok v →
      v.getSize ≤ v.getCapacity) ∧
    ∃ v0, Vector.initList l = .ok v0 ∧ v0.getSize = l.length ∧ v0.getCapacity = l.length ∧
      ∀ v, Vector.runCalls calls v0 = .ok v → v.getSize ≤ v.getCapacity := by
  constructor
  · intro v h
    exact Vector.runCalls_inv calls h (le_refl _) (by
      show 0 + calls.length < 2 ^ 63
      omega)
  · obtain ⟨v0, e, h0, -, hc⟩ := Vector.initList_spec l (by omega)
    refine ⟨v0, e, h0.1, hc, ?_⟩
    intro v h
    exact Vector.runCalls_inv calls h (by rw [h0.1, hc]) (by rw [h0.1]; exact hn)

/-- C21 from the initializer list `0, ..., 8`, capacity 9: eight `popFirst()`
calls, of which the last shrinks the capacity from 9 to 4, and four appends,
of which the last grows it to 8. -/
theorem C21_witness :
    (List.range 9).length + exCalls.length < 2 ^ 63 ∧
    ∃ v0 v, Vector.initList (List.range 9) = .ok v0 ∧ (v0.getSize, v0.getCapacity) = (9, 9) ∧
      Vector.runCalls (List.replicate 8 .popFirst) v0 =
        .ok ⟨some [some 8, none, none, none], 4, 1⟩ ∧
      Vector.runCalls exCalls v0 = .ok v ∧ (v.getSize, v.getCapacity) = (5, 8) ∧
      v.getSize ≤ v.getCapacity := by
  obtain ⟨-, v0, e0, -, -, hall⟩ := C21_size_le_capacity (List.range 9) exCalls (by decide)
  have e : Vector.initList (List.range 9) =
      .ok ⟨some [some 0, some 1, some 2, some 3, some 4, some 5, some 6, some 7, some 8], 9, 9⟩ := by
    decide
  rw [e] at e0
  cases e0
  have e2 : Vector.runCalls exCalls
      ⟨some [some 0, some 1, some 2, some 3, some 4, some 5, some 6, some 7, some 8], 9, 9⟩ =
      .ok ⟨some [some 8, some 1, some 2, some 3, some 4, none, none, none], 8, 5⟩ := by
    decide
  exact ⟨by decide, _, _, e, by decide, by decide, e2, by decide, hall _ e2⟩

/-- C22: when `popFirst()`, `popLast()` or `erase(pos)` returns and has changed
the capacity `c`, which a shrink does and nothing else in them, then `c > 8`, the
new capacity is `c / 2`, the size left is at most half of it and below it, and
an `append` that follows succeeds and leaves the capacity as it is. -/
theorem C22_shrink_leaves_room {α : Type} (v v' : Vector α) (hs : v.getSize < 2 ^ 64)
    (hop : (∃ x, v.popFirst = .ok (x, v')) ∨ (∃ x, v.popLast = .ok (x, v')) ∨
      ∃ pos, v.erase pos = .ok v')
    (hsh : v'.getCapacity ≠ v.getCapacity) :
    8 < v.getCapacity ∧ v'.getCapacity = v.getCapacity / 2 ∧ v'.getSize = v.getSize - 1 ∧
      2 * v'.getSize ≤ v'.getCapacity ∧ v'.getSize < v'.getCapacity ∧
      ∀ x, ∃ v'', v'.append x = .ok v'' ∧ v''.getSize = v'.getSize + 1 ∧
        v''.getCapacity = v'.getCapacity := by
  simp only [Vector.getSize, Vector.getCapacity] at hs hsh ⊢
  have key : v._size ≠ 0 ∧ v'._size = szSub v._size 1 ∧
      ((8 < v._capacity ∧ v._size - 1 < v._capacity / 4 ∧ v'._capacity = v._capacity / 2 ∧
          ∃ d, v'._array = some d ∧ d.length = v._capacity / 2) ∨
        v'._capacity = v._capacity) := by
    rcases hop with ⟨x, h⟩ | ⟨x, h⟩ | ⟨pos, h⟩
    · obtain ⟨hz, e1, e2⟩ := Vector.popFirst_inv h
      rw [szSub_of_le (by omega) hs] at e2
      exact ⟨hz, e1, e2.imp id fun hh => hh.2⟩
    · obtain ⟨hz, e1, e2⟩ := Vector.popLast_inv h
      refine ⟨hz, e1, e2.imp (fun hh => ⟨hh.1, by omega, hh.2.2⟩) fun hh => hh.2⟩
    · obtain ⟨hz, e1, e2⟩ := Vector.erase_inv h
      rw [szSub_of_le (by omega) hs] at e2
      exact ⟨hz, e1, e2.imp id fun hh => hh.2⟩
  obtain ⟨hz, e1, e2⟩ := key
  rw [szSub_of_le (by omega) hs] at e1
  rcases e2 with ⟨h8, hlt, hc, d, hd, hdl⟩ | hc
  · refine ⟨h8, hc, e1, by omega, by omega, ?_⟩
    intro x
    have hne : ¬ v'._size = v'._capacity := by omega
    refine ⟨⟨some (d.set v'._size (some x)), v'._capacity, szAdd v'._size 1⟩, ?_,
      szAdd_of_lt (by omega), rfl⟩
    simp only [Vector.append, if_neg hne, Vector.ok_bind, hd,
      wrSlot_some d v'._size (some x) (by omega)]
  · exact absurd hc hsh

/-- C22 on the vector of two elements and capacity 9 that the initializer-list
constructor and a range erase leave: `popFirst()` and `erase(begin())` shrink it
to the capacity 4 with one element. -/
theorem C22_witness :
    (do
      let v ← Vector.initList (List.range 9)
      let first ← v.begin.add v 2
      v.eraseRange first v.end_ : Except Exn (Vector Nat)) = .ok exVectorOdd ∧
    (exVectorOdd.getSize < 2 ^ 64 ∧
      exVectorOdd.popFirst = .ok (0, ⟨some [some 1, none, none, none], 4, 1⟩) ∧
      exVectorOdd.erase exVectorOdd.begin = .ok ⟨some [some 1, none, none, none], 4, 1⟩ ∧
      (⟨some [some 1, none, none, none], 4, 1⟩ : Vector Nat).getCapacity ≠
        exVectorOdd.getCapacity) ∧
    (8 < exVectorOdd.getCapacity ∧
      (⟨some [some 1, none, none, none], 4, 1⟩ : Vector Nat).getCapacity =
        exVectorOdd.getCapacity / 2 ∧
      (⟨some [some 1, none, none, none], 4, 1⟩ : Vector Nat).getSize = exVectorOdd.getSize - 1 ∧
      2 * (⟨some [some 1, none, none, none], 4, 1⟩ : Vector Nat).getSize ≤
        (⟨some [some 1, none, none, none], 4, 1⟩ : Vector Nat).getCapacity ∧
      (⟨some [some 1, none, none, none], 4, 1⟩ : Vector Nat).getSize <
        (⟨some [some 1, none, none, none], 4, 1⟩ : Vector Nat).getCapacity ∧
      ∀ x, ∃ v'', (⟨some [some 1, none, none, none], 4, 1⟩ : Vector Nat).append x = .ok v'' ∧
        v''.getSize = (⟨some [some 1, none, none, none], 4, 1⟩ : Vector Nat).getSize + 1 ∧
        v''.getCapacity = (⟨some [some 1, none, none, none], 4, 1⟩ : Vector Nat).getCapacity) :=
  ⟨by decide, ⟨by decide, by decide, by decide, by decide⟩,
    C22_shrink_leaves_room exVectorOdd ⟨some [some 1, none, none, none], 4, 1⟩ (by decide)
      (Or.inl ⟨0, by decide⟩) (by decide)⟩

/-- C23: the copy constructor of the list iterator copies `itr` and gives
`guard` no value, and the conversion to `Iterator`, the post-increment, the
post-decrement and the `operator+` and `operator-` of `Iterator` all return such
a copy. On the copy, `operator*` reads `guard` unless `itr` is null, and
`operator++` and `operator--` always do, which is undefined behaviour. On the
list `[10, 20]`, `*begin()` is 10, `++begin()` succeeds, `--begin()` and
`*end()` throw `std::out_of_range`; on copies of these iterators, and on the
iterators that `begin() + 1` and `begin()++` return, none of them is defined. -/
theorem C23_copy_loses_guard :
    (∀ it : LinkedList.ConstIterator, it.copy.itr = it.itr ∧ it.copy.guard = none) ∧
    (∀ (α : Type) (h : Heap α) (it : LinkedList.ConstIterator),
      LinkedList.ConstIterator.deref h it.copy =
        (if it.itr.isNone then .error .out_of_range else .error .undefined) ∧
      LinkedList.ConstIterator.inc h it.copy = .error .undefined ∧
      LinkedList.ConstIterator.dec h it.copy = .error .undefined) ∧
    (LinkedList.begin (exList [10, 20]).1 (exList [10, 20]).2 = .ok ⟨some 1, some (some 0)⟩ ∧
      (exList [10, 20]).2.end_ = ⟨some 0, some (some 0)⟩) ∧
    (LinkedList.ConstIterator.deref (exList [10, 20]).1 ⟨some 1, some (some 0)⟩ = .ok 10 ∧
      LinkedList.ConstIterator.deref (exList [10, 20]).1
        (LinkedList.ConstIterator.copy ⟨some 1, some (some 0)⟩) = .error .undefined) ∧
    (LinkedList.ConstIterator.inc (exList [10, 20]).1 ⟨some 1, some (some 0)⟩ =
        .ok ⟨some 2, some (some 0)⟩ ∧
      LinkedList.ConstIterator.inc (exList [10, 20]).1
        (LinkedList.ConstIterator.copy ⟨some 1, some (some 0)⟩) = .error .undefined) ∧
    (LinkedList.ConstIterator.dec (exList [10, 20]).1 ⟨some 1, some (some 0)⟩ =
        .error .out_of_range ∧
      LinkedList.ConstIterator.dec (exList [10, 20]).1
        (LinkedList.ConstIterator.copy ⟨some 1, some (some 0)⟩) = .error .undefined) ∧
    (LinkedList.ConstIterator.deref (exList [10, 20]).1 (exList [10, 20]).2.end_ =
        .error .out_of_range ∧
      LinkedList.ConstIterator.deref (exList [10, 20]).1
        (exList [10, 20]).2.end_.copy = .error .undefined) ∧
    (LinkedList.Iterator.add (exList [10, 20]).1 ⟨some 1, some (some 0)⟩ 1 =
        .ok ⟨some 2, none⟩ ∧
      LinkedList.Iterator.postInc (exList [10, 20]).1 ⟨some 1, some (some 0)⟩ =
        .ok (⟨some 1, none⟩, ⟨some 2, some (some 0)⟩) ∧
      LinkedList.ConstIterator.postInc (exList [10, 20]).1 ⟨some 1, some (some 0)⟩ =
        .ok (⟨some 1, none⟩, ⟨some 2, some (some 0)⟩) ∧
      LinkedList.ConstIterator.deref (exList [10, 20]).1 ⟨some 2, none⟩ = .error .undefined ∧
      LinkedList.ConstIterator.deref (exList [10, 20]).1 ⟨some 1, none⟩ = .error .undefined) := by
  refine ⟨fun it => ⟨rfl, rfl⟩, ?_, by decide, by decide, by decide, by decide, by decide,
    by decide⟩
  intro α h it
  have hre : ∀ e, h.read it.itr = .error e → e = .undefined := by
    intro e hr
    unfold Heap.read at hr
    split at hr
    · cases hr; rfl
    · split at hr
      · cases hr; rfl
      · cases hr
  refine ⟨?_, ?_, ?_⟩
  · by_cases hn : it.itr.isNone = true
    · simp [LinkedList.ConstIterator.deref, LinkedList.ConstIterator.copy, hn]
    · simp [LinkedList.ConstIterator.deref, LinkedList.ConstIterator.copy, hn,
        LinkedList.ConstIterator.guardValue, bind, Except.bind]
  · simp only [LinkedList.ConstIterator.inc, LinkedList.ConstIterator.copy,
      LinkedList.ConstIterator.guardValue]
    cases hr : h.read it.itr with
    | error e => rw [hre e hr]; rfl
    | ok n => rfl
  · simp only [LinkedList.ConstIterator.dec, LinkedList.ConstIterator.copy,
      LinkedList.ConstIterator.guardValue]
    cases hr : h.read it.itr with
    | error e => rw [hre e hr]; rfl
    | ok n => rfl

end aisdi
